import Mathlib

/-!
# C-Hash-Map: a shallow embedding of `vector.c` and `hashmap.c`

The development follows the two C translation units of the repository.

* A `vector` is the growable array of `vector.c`.  Its storage is represented by the list of
  its live slots `data[0 .. size-1]` (so `size` is the length of that list) together with the
  `capacity` field.
* A `hashmap` is the table of `hashmap.c`: the array of buckets, the `size` field and the
  `capacity` field.  The `hash_func` field is fixed at allocation and never written again; it
  is carried in the environment `ops` instead of in the record.

Pointers that the C code checks against `NULL` (the table, the vector, the key, the pair) are
taken to be present: the functions below describe the calls made with real arguments.  Memory
allocation is taken to succeed (the C code leaves the process otherwise).

The load factors are `double` quotients in C; `hashmap_get_load_factor` is the exact quotient
here.  Inside the resize checks the comparisons `size / capacity > 0.75` and
`size / capacity < 0.25` are written over the naturals as `3 * capacity < 4 * size` and
`4 * size < capacity`, which is what they mean for every size and capacity that a `double`
holds exactly; `hashmap_resize_load_factor` shows that this is `hashmap_resize` as written in
terms of `hashmap_get_load_factor`.  Sizes and capacities are naturals: the `size_t` of the C
code does not wrap before `2 ^ 64` slots exist.
-/

namespace CHashMap

/-! ## Constants -/

/-- The constant `HASH_MAP_INITIAL_CAP` of `hashmap.h`. -/
def HASH_MAP_INITIAL_CAP : Nat := 16

/-- The constant `HASH_MAP_GROWTH_FACTOR` of `hashmap.h`, as the fraction `2 / 1`. -/
def HASH_MAP_GROWTH_FACTOR : Nat × Nat := (2, 1)

/-- The constant `HASH_MAP_REDUCTION_FACTOR` of `hashmap.c` (`0.5`), as the fraction `1 / 2`. -/
def HASH_MAP_REDUCTION_FACTOR : Nat × Nat := (1, 2)

/-- The constant `MIN_CAPACITY` of `hashmap.c`. -/
def MIN_CAPACITY : Nat := 2

/-- The constant `INSERT_ELEMENT` of `hashmap.c`. -/
def INSERT_ELEMENT : Nat := 1

/-- The constant `ERASE_ELEMENT` of `hashmap.c`. -/
def ERASE_ELEMENT : Nat := 2

/-- The constant `MIN_VEC_CAPACITY` of `vector.c`. -/
def MIN_VEC_CAPACITY : Nat := 2

/-- Modelled from the spec: the constant `VECTOR_GROWTH_FACTOR` of the header `vector.h`, which
is not among the sources; the specification fixes the growth of a sequence at a factor of 2. -/
def VECTOR_GROWTH_FACTOR : Nat := 2

/-! ## The dynamic sequence (`vector.c`) -/

/-- The record `vector`: the live slots `data[0 .. size-1]` and the `capacity` field.  The
three element operations stored in the C record are passed to the functions that call them. -/
structure vector (α : Type) where
  data : List α
  capacity : Nat
deriving DecidableEq, Repr

/-- The field `size` of a vector: the number of live slots. -/
def vector.size {α : Type} (v : vector α) : Nat := v.data.length

/-- The function `vector_alloc` (with `init_vec`): an empty vector of the initial capacity.
The constant `VECTOR_INITIAL_CAP` belongs to the header `vector.h`, which is not among the
sources, and is the argument `initial_cap`. -/
def vector_alloc {α : Type} (initial_cap : Nat) : vector α :=
  { data := [], capacity := initial_cap }

/-- The function `vector_at`: the slot `ind`, absent when `size <= ind`. -/
def vector_at {α : Type} (v : vector α) (ind : Nat) : Option α :=
  if v.size ≤ ind then none else v.data[ind]?

/-- The function `vector_push_back`: store a copy of `value` in slot `size`, increment `size`,
and multiply the capacity by the growth factor when `size / capacity > 0.75`
(`VECTOR_MAX_LOAD_FACTOR`, modelled from the spec: the header `vector.h` is not among the
sources and the specification fixes the threshold at 0.75). -/
def vector_push_back {α : Type} (elem_copy_func : α → α) (v : vector α) (value : α) :
    vector α × Nat :=
  let data1 := v.data ++ [elem_copy_func value]
  if 3 * v.capacity < 4 * data1.length then
    ({ data := data1, capacity := v.capacity * VECTOR_GROWTH_FACTOR }, 1)
  else
    ({ data := data1, capacity := v.capacity }, 1)

/-- The function `vector_erase`: when slot `ind` is live, move the last live slot into it, drop
the last slot, and halve the capacity when `size / capacity < 0.25` (`VECTOR_MIN_LOAD_FACTOR`,
modelled from the spec as 0.25) and `capacity >= MIN_VEC_CAPACITY`; the result is 1.
Otherwise nothing changes and the result is 0. -/
def vector_erase {α : Type} (v : vector α) (ind : Nat) : vector α × Nat :=
  if 0 < v.size ∧ (vector_at v ind).isSome then
    let end_idx := v.size - 1
    let data1 := match v.data[end_idx]? with
      | some last => v.data.set ind last
      | none => v.data
    let data2 := data1.take end_idx
    if 4 * data2.length < v.capacity ∧ MIN_VEC_CAPACITY ≤ v.capacity then
      ({ data := data2, capacity := v.capacity / 2 }, 1)
    else
      ({ data := data2, capacity := v.capacity }, 1)
  else
    (v, 0)

/-- The loop of `vector_clear`: `vector_erase (vector, i)` for `i = n - 1` down to `0`. -/
def vector_clear_loop {α : Type} : Nat → vector α → vector α
  | 0, v => v
  | n + 1, v => vector_clear_loop n (vector_erase v n).1

/-- The function `vector_clear`: erase every slot from the last one down to the first. -/
def vector_clear {α : Type} (v : vector α) : vector α :=
  vector_clear_loop v.size v

/-! ## The key-value pair -/

/-- Modelled from the spec: the record `pair` of the header `pair.h`, which is not among the
sources: a key and a value, each with its own equality operation.  The equality operations
are the same for every pair of one table and are carried in `ops`. -/
structure pair (K V : Type) where
  key : K
  value : V
deriving DecidableEq, Repr

/-- Modelled from the spec: the function `pair_copy` of `pair.h`, which is not among the
sources: an independently owned copy of a pair, holding the same key and the same value. -/
def pair_copy {K V : Type} (p : pair K V) : pair K V :=
  { key := p.key, value := p.value }

/-! ## The hash table (`hashmap.c`) -/

/-- The operations a table is built with: the hash function given to `hashmap_alloc`, the
equality operations `key_cmp` and `value_cmp` of the stored pairs, and the initial capacity of
each bucket (`VECTOR_INITIAL_CAP`). -/
structure ops (K V : Type) where
  hash_func : K → Nat
  key_cmp : K → K → Bool
  value_cmp : V → V → Bool
  VECTOR_INITIAL_CAP : Nat

/-- The record `hashmap`: the buckets, the number of stored pairs and the number of buckets. -/
structure hashmap (K V : Type) where
  buckets : List (vector (pair K V))
  size : Nat
  capacity : Nat
deriving DecidableEq, Repr

variable {K V : Type}

/-- The function `init_hashmap`: size 0, the given capacity, and one fresh vector per bucket. -/
def init_hashmap (e : ops K V) (capacity : Nat) : hashmap K V :=
  { buckets := List.replicate capacity (vector_alloc e.VECTOR_INITIAL_CAP)
    size := 0
    capacity := capacity }

/-- The function `hashmap_hash_func`: the bucket index `hash_func (key) & (capacity - 1)`. -/
def hashmap_hash_func (e : ops K V) (m : hashmap K V) (key : K) : Nat :=
  e.hash_func key &&& (m.capacity - 1)

/-- The function `hashmap_alloc`: a table of `HASH_MAP_INITIAL_CAP` empty buckets. -/
def hashmap_alloc (e : ops K V) : hashmap K V :=
  init_hashmap e HASH_MAP_INITIAL_CAP

/-- The function `hashmap_free_buckets`: every bucket is released and `size` is set to 0. -/
def hashmap_free_buckets (m : hashmap K V) : hashmap K V :=
  { buckets := [], size := 0, capacity := m.capacity }

/-- The function `hashmap_backup_elements`: a fresh vector that receives, bucket after bucket
and slot after slot, a copy of every stored pair. -/
def hashmap_backup_elements (e : ops K V) (m : hashmap K V) : vector (pair K V) :=
  m.buckets.foldl
    (fun temp_vec bucket =>
      bucket.data.foldl (fun t p => (vector_push_back pair_copy t p).1) temp_vec)
    (vector_alloc e.VECTOR_INITIAL_CAP)

/-- The scan of `hashmap_pair_at`: the first pair of the bucket whose key satisfies
`p->key_cmp (p->key, key)`, with its index; `i` is the index of the head of the list. -/
def pair_at_loop (e : ops K V) (key : K) : List (pair K V) → Nat → Option (pair K V × Nat)
  | [], _ => none
  | p :: ps, i => if e.key_cmp p.key key then some (p, i) else pair_at_loop e key ps (i + 1)

/-- The function `hashmap_pair_at`: the pair stored under `key` with its bucket index `hash`
and its slot `idx`, absent when the bucket holds no pair with an equal key. -/
def hashmap_pair_at (e : ops K V) (m : hashmap K V) (key : K) :
    Option (pair K V × Nat × Nat) :=
  let hash_value := hashmap_hash_func e m key
  match m.buckets[hash_value]? with
  | none => none
  | some bucket =>
    if bucket.size = 0 then none
    else
      match pair_at_loop e key bucket.data 0 with
      | none => none
      | some (p, idx) => some (p, hash_value, idx)

/-- The function `hashmap_at`: the value stored under `key`, absent (`NULL`) otherwise. -/
def hashmap_at (e : ops K V) (m : hashmap K V) (key : K) : Option V :=
  match hashmap_pair_at e m key with
  | none => none
  | some (p, _, _) => some p.value

/-- The function `hashmap_contains_key`: 1 when `hashmap_at` is not `NULL`, else 0. -/
def hashmap_contains_key (e : ops K V) (m : hashmap K V) (key : K) : Nat :=
  if (hashmap_at e m key).isSome then 1 else 0

/-- The function `hashmap_contains_value`: 1 when, for some bucket index `j < capacity`, some
pair `p` of bucket `j` satisfies `p->value_cmp (p->value, value)`, else 0. -/
def hashmap_contains_value (e : ops K V) (m : hashmap K V) (value : V) : Nat :=
  if (List.range m.capacity).any (fun j =>
      match m.buckets[j]? with
      | some bucket => bucket.data.any (fun p => e.value_cmp p.value value)
      | none => false)
  then 1 else 0

/-- The function `hashmap_insert_pair`: 0 and no change when the key is found; otherwise a copy
of the pair is pushed to the bucket of its key, `size` is incremented and the result is 1. -/
def hashmap_insert_pair (e : ops K V) (m : hashmap K V) (in_pair : pair K V) :
    hashmap K V × Nat :=
  if (hashmap_at e m in_pair.key).isSome then (m, 0)
  else
    let hash_value := hashmap_hash_func e m in_pair.key
    let buckets1 := match m.buckets[hash_value]? with
      | some bucket => m.buckets.set hash_value (vector_push_back pair_copy bucket in_pair).1
      | none => m.buckets
    ({ buckets := buckets1, size := m.size + 1, capacity := m.capacity }, 1)

/-- The function `hashmap_restore_elements`: insert the held pairs in order, stopping with 0 at
the first `hashmap_insert_pair` that fails. -/
def hashmap_restore_elements (e : ops K V) : hashmap K V → List (pair K V) → hashmap K V × Nat
  | m, [] => (m, 1)
  | m, p :: ps =>
    let r := hashmap_insert_pair e m p
    if r.2 = 0 then (r.1, 0) else hashmap_restore_elements e r.1 ps

/-- The rehash of `hashmap_resize`: back up the pairs, release the buckets, allocate
`MAX (resize_factor * capacity, MIN_CAPACITY)` buckets and insert the pairs again. -/
def hashmap_rehash (e : ops K V) (m : hashmap K V) (resize_factor : Nat × Nat) : hashmap K V :=
  let temp_vec := hashmap_backup_elements e m
  let m1 := hashmap_free_buckets m
  let new_capacity := max (resize_factor.1 * m1.capacity / resize_factor.2) MIN_CAPACITY
  let m2 := init_hashmap e new_capacity
  (hashmap_restore_elements e m2 temp_vec.data).1

/-- The function `hashmap_resize`: 0 when the load factor is the error value (capacity 0);
a rehash at twice the capacity in mode `INSERT_ELEMENT` when `size / capacity > 0.75`; a rehash
at half the capacity in mode `ERASE_ELEMENT` when `size / capacity < 0.25`; no change
otherwise.  The result is 1 in the last three cases. -/
def hashmap_resize (e : ops K V) (m : hashmap K V) (mode : Nat) : hashmap K V × Nat :=
  if m.capacity = 0 then (m, 0)
  else if mode = INSERT_ELEMENT ∧ 3 * m.capacity < 4 * m.size then
    (hashmap_rehash e m HASH_MAP_GROWTH_FACTOR, 1)
  else if mode = ERASE_ELEMENT ∧ 4 * m.size < m.capacity then
    (hashmap_rehash e m HASH_MAP_REDUCTION_FACTOR, 1)
  else (m, 1)

/-- The function `hashmap_insert`: `hashmap_insert_pair`, then `hashmap_resize` in mode
`INSERT_ELEMENT`; the result is 1 when both succeed. -/
def hashmap_insert (e : ops K V) (m : hashmap K V) (in_pair : pair K V) : hashmap K V × Nat :=
  let r1 := hashmap_insert_pair e m in_pair
  if r1.2 = 0 then (r1.1, 0)
  else
    let r2 := hashmap_resize e r1.1 INSERT_ELEMENT
    if r2.2 = 0 then (r2.1, 0) else (r2.1, 1)

/-- The function `hashmap_erase_pair`: 0 and no change when the key is not found; otherwise
the found slot is erased from its bucket with `vector_erase` and `size` is decremented. -/
def hashmap_erase_pair (e : ops K V) (m : hashmap K V) (key : K) : hashmap K V × Nat :=
  match hashmap_pair_at e m key with
  | none => (m, 0)
  | some (_, hash, idx) =>
    match m.buckets[hash]? with
    | none => (m, 0)
    | some bucket =>
      let r := vector_erase bucket idx
      if r.2 = 0 then ({ m with buckets := m.buckets.set hash r.1 }, 0)
      else ({ buckets := m.buckets.set hash r.1, size := m.size - 1, capacity := m.capacity }, 1)

/-- The function `hashmap_erase`: `hashmap_erase_pair`, then `hashmap_resize` in mode
`ERASE_ELEMENT`; the result is 1 when both succeed. -/
def hashmap_erase (e : ops K V) (m : hashmap K V) (key : K) : hashmap K V × Nat :=
  let r1 := hashmap_erase_pair e m key
  if r1.2 = 0 then (r1.1, 0)
  else
    let r2 := hashmap_resize e r1.1 ERASE_ELEMENT
    if r2.2 = 0 then (r2.1, 0) else (r2.1, 1)

/-- The function `hashmap_get_load_factor`: the quotient `size / capacity`, and the error
value -1 when the capacity is 0. -/
def hashmap_get_load_factor (m : hashmap K V) : ℚ :=
  if m.capacity ≠ 0 then (m.size : ℚ) / (m.capacity : ℚ) else -1

/-- The state of the first loop of `hashmap_clear`: the bucket at hand, the `size` field of the
table and the counter `del_count`. -/
structure clear_state (K V : Type) where
  bucket : vector (pair K V)
  size : Nat
  del_count : Nat

/-- The inner loop of `hashmap_clear`, run once per slot the bucket held on entry: subtract
the current bucket size from `size`, add it to `del_count`, and clear the bucket. -/
def hashmap_clear_bucket : Nat → clear_state K V → clear_state K V
  | 0, s => s
  | n + 1, s =>
    hashmap_clear_bucket n
      { bucket := vector_clear s.bucket
        size := s.size - s.bucket.size
        del_count := s.del_count + s.bucket.size }

/-- The outer loop of `hashmap_clear` over the buckets: the cleared buckets, the new `size`
and the number of deleted pairs. -/
def hashmap_clear_buckets :
    List (vector (pair K V)) → Nat → Nat → List (vector (pair K V)) × Nat × Nat
  | [], size, del_count => ([], size, del_count)
  | b :: bs, size, del_count =>
    let s := hashmap_clear_bucket b.size { bucket := b, size := size, del_count := del_count }
    let r := hashmap_clear_buckets bs s.size s.del_count
    (s.bucket :: r.1, r.2.1, r.2.2)

/-- The second loop of `hashmap_clear`: `hashmap_resize` in mode `ERASE_ELEMENT`, once per
deleted pair, its result ignored. -/
def hashmap_clear_resize (e : ops K V) : Nat → hashmap K V → hashmap K V
  | 0, m => m
  | n + 1, m => hashmap_clear_resize e n (hashmap_resize e m ERASE_ELEMENT).1

/-- The function `hashmap_clear`: empty every bucket, then run the shrink check once per
deleted pair. -/
def hashmap_clear (e : ops K V) (m : hashmap K V) : hashmap K V :=
  let r := hashmap_clear_buckets m.buckets m.size 0
  hashmap_clear_resize e r.2.2 { buckets := r.1, size := r.2.1, capacity := m.capacity }

/-- The tables a caller can hold: the result of `hashmap_alloc`, and the result of
`hashmap_insert`, `hashmap_erase` or `hashmap_clear` on such a table. -/
inductive reachable (e : ops K V) : hashmap K V → Prop
  | alloc : reachable e (hashmap_alloc e)
  | insert (m : hashmap K V) (in_pair : pair K V) :
      reachable e m → reachable e (hashmap_insert e m in_pair).1
  | erase (m : hashmap K V) (key : K) :
      reachable e m → reachable e (hashmap_erase e m key).1
  | clear (m : hashmap K V) :
      reachable e m → reachable e (hashmap_clear e m)

/-! ## Notions used to state the properties -/

/-- The list left by the swap-with-last removal of `vector_erase`: slot `ind` receives the last
element and the last slot is dropped. -/
def swap_erase {α : Type} (l : List α) (ind : Nat) : List α :=
  (match l[l.length - 1]? with
    | some last => l.set ind last
    | none => l).take (l.length - 1)

/-- The contract of the caller-supplied operations: key equality is an equivalence and the
hash function gives equal keys the same hash. -/
structure lawful (e : ops K V) : Prop where
  key_refl : ∀ k, e.key_cmp k k = true
  key_symm : ∀ a b, e.key_cmp a b = true → e.key_cmp b a = true
  key_trans : ∀ a b c, e.key_cmp a b = true → e.key_cmp b c = true → e.key_cmp a c = true
  hash_eq : ∀ a b, e.key_cmp a b = true → e.hash_func a = e.hash_func b

/-- The stored pairs of a table, bucket after bucket. -/
def entries (m : hashmap K V) : List (pair K V) :=
  m.buckets.flatMap (fun b => b.data)

/-- The keys of the pairs of a list are pairwise different under `key_cmp`. -/
def distinct (e : ops K V) (l : List (pair K V)) : Prop :=
  l.Pairwise (fun p q => e.key_cmp p.key q.key = false)

/-- The structural invariant of a table: one bucket per unit of capacity, the capacity is a
power of two not below 2, every pair sits in the bucket of its key, `size` counts the stored
pairs, and no two stored pairs have equal keys. -/
structure wf (e : ops K V) (m : hashmap K V) : Prop where
  len : m.buckets.length = m.capacity
  pow : ∃ n, 1 ≤ n ∧ m.capacity = 2 ^ n
  placed : ∀ i b, m.buckets[i]? = some b → ∀ p ∈ b.data, hashmap_hash_func e m p.key = i
  size_eq : m.size = (entries m).length
  uniq : distinct e (entries m)

/-- A run of `hashmap_insert` over a sequence of pairs, one call after another: the final
table and the result of every call. -/
def hashmap_insert_all (e : ops K V) : hashmap K V → List (pair K V) → hashmap K V × List Nat
  | m, [] => (m, [])
  | m, p :: ps =>
    let r := hashmap_insert e m p
    let rs := hashmap_insert_all e r.1 ps
    (rs.1, r.2 :: rs.2)

/-- A run of `hashmap_erase` over a sequence of keys, one call after another. -/
def hashmap_erase_all (e : ops K V) : hashmap K V → List K → hashmap K V
  | m, [] => m
  | m, k :: ks => hashmap_erase_all e (hashmap_erase e m k).1 ks

/-- The function `hash_int` of `hash_funcs.h`: the `int` key converted to `size_t`. -/
def hash_int (elem : Int) : Nat := (elem % 2 ^ 64).toNat

/-- A table of `int` keys and `int` values: `hash_int` as hash function, equality of integers
as key and value equality, buckets of initial capacity 16. -/
def int_ops : ops Int Int :=
  { hash_func := hash_int
    key_cmp := fun a b => decide (a = b)
    value_cmp := fun a b => decide (a = b)
    VECTOR_INITIAL_CAP := 16 }

/-- The load factor bound as the specification words it: `size / capacity` lies within
`[0.25, 0.75]`, or the table has the minimum capacity of 2 buckets and fewer than 1 element. -/
def load_factor_bound (m : hashmap K V) : Prop :=
  (1 / 4 ≤ hashmap_get_load_factor m ∧ hashmap_get_load_factor m ≤ 3 / 4) ∨
    (m.capacity = MIN_CAPACITY ∧ m.size < 1)

/-- The key `key` is stored in the table: some bucket holds a pair whose key equals it. -/
def stored (e : ops K V) (m : hashmap K V) (key : K) : Prop :=
  ∃ p ∈ entries m, e.key_cmp p.key key = true

/-- The capacity that `hashmap_insert` leaves after `n` successful calls in a row, from
capacity `c` and size `s`: each call doubles the capacity when the new size exceeds three
quarters of it. -/
def insert_caps : Nat → Nat → Nat → Nat
  | c, _, 0 => c
  | c, s, n + 1 => insert_caps (if 3 * c < 4 * (s + 1) then 2 * c else c) (s + 1) n

/-- The capacity that `hashmap_erase` leaves after `n` successful calls in a row, from
capacity `c` and size `s`: each call halves the capacity, not below 2, when the new size is
less than a quarter of it. -/
def erase_caps : Nat → Nat → Nat → Nat
  | c, _, 0 => c
  | c, s, n + 1 => erase_caps (if 4 * (s - 1) < c then max (c / 2) 2 else c) (s - 1) n

/-- Thirteen pairs with the keys 0 to 12, the value of key `k` being `10 * k`. -/
def thirteen_pairs : List (pair Int Int) :=
  [⟨0, 0⟩, ⟨1, 10⟩, ⟨2, 20⟩, ⟨3, 30⟩, ⟨4, 40⟩, ⟨5, 50⟩, ⟨6, 60⟩, ⟨7, 70⟩, ⟨8, 80⟩, ⟨9, 90⟩,
    ⟨10, 100⟩, ⟨11, 110⟩, ⟨12, 120⟩]

/-- The shape of a table: one bucket per unit of capacity, and the capacity is a power of two
not below 2. -/
def shape (m : hashmap K V) : Prop :=
  m.buckets.length = m.capacity ∧ ∃ n, 1 ≤ n ∧ m.capacity = 2 ^ n

/-- The capacity left by `n` shrink checks in a row on a table without pairs: each check
halves the capacity, not below 2. -/
def halve_caps : Nat → Nat → Nat
  | c, 0 => c
  | c, n + 1 => halve_caps (max (c / 2) 2) n

/-- The vectors a caller can hold: the result of `vector_alloc`, and the result of
`vector_push_back`, `vector_erase` or `vector_clear` on such a vector.  The copy operation
and the initial capacity are those the vector was allocated with. -/
inductive vector_reachable {α : Type} (elem_copy_func : α → α) (initial_cap : Nat) :
    vector α → Prop
  | alloc : vector_reachable elem_copy_func initial_cap (vector_alloc initial_cap)
  | push_back (v : vector α) (value : α) :
      vector_reachable elem_copy_func initial_cap v →
      vector_reachable elem_copy_func initial_cap (vector_push_back elem_copy_func v value).1
  | erase (v : vector α) (ind : Nat) :
      vector_reachable elem_copy_func initial_cap v →
      vector_reachable elem_copy_func initial_cap (vector_erase v ind).1
  | clear (v : vector α) :
      vector_reachable elem_copy_func initial_cap v →
      vector_reachable elem_copy_func initial_cap (vector_clear v)

/-- A run of `n` rounds on a vector of naturals, each round one `vector_push_back` of the
element 7 followed by one `vector_erase` of slot 0. -/
def push_erase_rounds : Nat → vector Nat → vector Nat
  | 0, v => v
  | n + 1, v => push_erase_rounds n (vector_erase (vector_push_back id v 7).1 0).1

/-- The calls of `hashmap_resize` made by `hashmap_insert` and `hashmap_erase`: on the table
left by a successful `hashmap_insert_pair` in mode `INSERT_ELEMENT`, and on the table left by a
successful `hashmap_erase_pair` in mode `ERASE_ELEMENT`, the table before being reachable. -/
inductive resize_call (e : ops K V) : hashmap K V → Nat → Prop
  | insert (m : hashmap K V) (in_pair : pair K V) :
      reachable e m → (hashmap_insert_pair e m in_pair).2 = 1 →
      resize_call e (hashmap_insert_pair e m in_pair).1 INSERT_ELEMENT
  | erase (m : hashmap K V) (key : K) :
      reachable e m → (hashmap_erase_pair e m key).2 = 1 →
      resize_call e (hashmap_erase_pair e m key).1 ERASE_ELEMENT

/-- Every pair stored in bucket `i` has a key whose bucket index is `i`. -/
def placed (e : ops K V) (m : hashmap K V) : Prop :=
  ∀ (i : Nat) (b : vector (pair K V)), m.buckets[i]? = some b →
    ∀ p ∈ b.data, hashmap_hash_func e m p.key = i

/-- The table left by the `hashmap_insert` of the first twelve of the thirteen pairs into a
fresh table. -/
def twelve_table : hashmap Int Int :=
  (hashmap_insert_all int_ops (hashmap_alloc int_ops) (thirteen_pairs.take 12)).1

/-- The table on which the thirteenth `hashmap_insert` calls `hashmap_resize`: the table of
twelve pairs after `hashmap_insert_pair` of the pair with the key 12. -/
def thirteen_unresized : hashmap Int Int :=
  (hashmap_insert_pair int_ops twelve_table ⟨12, 120⟩).1

/-! # Properties -/

/-! ## Lemmas on lists -/

theorem perm_set_cons {α : Type} (y : α) :
    ∀ (l : List α) (i : Nat) (x : α), l[i]? = some x → (x :: l.set i y).Perm (y :: l)
  | [], i, x, h => by simp at h
  | a :: t, 0, x, h => by
    simp at h
    subst h
    simpa using List.Perm.swap y a t
  | a :: t, i + 1, x, h => by
    simp at h
    have ih := perm_set_cons y t i x h
    simp only [List.set_cons_succ]
    exact (List.Perm.swap a x _).trans (((ih.cons a)).trans (List.Perm.swap y a t))

theorem swap_erase_perm {α : Type} (l : List α) (i : Nat) (x : α) (h : l[i]? = some x) :
    l.Perm (x :: swap_erase l i) := by
  rcases List.eq_nil_or_concat l with rfl | ⟨init, last, rfl⟩
  · simp at h
  · rw [List.concat_eq_append] at h ⊢
    have hlen : (init ++ [last]).length - 1 = init.length := by simp
    have hlast : (init ++ [last])[init.length]? = some last := by simp
    unfold swap_erase
    rw [hlen, hlast]
    simp only
    by_cases hi : i < init.length
    · have hx : init[i]? = some x := by
        rw [List.getElem?_append_left hi] at h; exact h
      rw [List.set_append_left _ _ hi]
      have : (init.set i last ++ [last]).take init.length = init.set i last := by
        have hl : init.length = (init.set i last).length := by simp
        rw [hl, List.take_left]
      rw [this]
      have h1 := perm_set_cons last init i x hx
      exact (List.perm_append_singleton last init).trans h1.symm
    · have hi2 : i = init.length := by
        have := (List.getElem?_eq_some_iff.1 h).1
        simp at this
        omega
      subst hi2
      rw [hlast] at h
      cases h
      have : ((init ++ [x]).set init.length x).take init.length = init := by
        simp
      rw [this]
      exact List.perm_append_singleton x init

/-! ## Lemmas on the dynamic sequence -/

theorem vector_at_eq {α : Type} (v : vector α) (i : Nat) : vector_at v i = v.data[i]? := by
  unfold vector_at vector.size
  split
  · next h => exact (List.getElem?_eq_none h).symm
  · rfl

theorem vector_push_back_data {α : Type} (c : α → α) (v : vector α) (x : α) :
    (vector_push_back c v x).1.data = v.data ++ [c x] := by
  unfold vector_push_back
  simp only
  split <;> rfl

theorem vector_push_back_ret {α : Type} (c : α → α) (v : vector α) (x : α) :
    (vector_push_back c v x).2 = 1 := by
  unfold vector_push_back
  simp only
  split <;> rfl

theorem vector_erase_data {α : Type} (v : vector α) (i : Nat) (x : α) (h : v.data[i]? = some x) :
    (vector_erase v i).1.data = swap_erase v.data i := by
  have hi : i < v.data.length := (List.getElem?_eq_some_iff.1 h).1
  have hc : 0 < v.size ∧ (vector_at v i).isSome = true := by
    refine ⟨by unfold vector.size; omega, ?_⟩
    rw [vector_at_eq, h]; rfl
  unfold vector_erase
  rw [if_pos hc]
  simp only
  split <;> rfl

theorem vector_erase_ret {α : Type} (v : vector α) (i : Nat) (x : α) (h : v.data[i]? = some x) :
    (vector_erase v i).2 = 1 := by
  have hi : i < v.data.length := (List.getElem?_eq_some_iff.1 h).1
  have hc : 0 < v.size ∧ (vector_at v i).isSome = true := by
    refine ⟨by unfold vector.size; omega, ?_⟩
    rw [vector_at_eq, h]; rfl
  unfold vector_erase
  rw [if_pos hc]
  simp only
  split <;> rfl

theorem vector_erase_absent {α : Type} (v : vector α) (i : Nat) (h : v.data[i]? = none) :
    vector_erase v i = (v, 0) := by
  unfold vector_erase
  rw [if_neg]
  rw [vector_at_eq, h]
  simp

theorem swap_erase_length {α : Type} (l : List α) (i : Nat) :
    (swap_erase l i).length = l.length - 1 := by
  unfold swap_erase
  split <;> simp

theorem vector_clear_loop_data {α : Type} :
    ∀ (n : Nat) (v : vector α), v.data.length = n → (vector_clear_loop n v).data = []
  | 0, v, h => by
    simpa [vector_clear_loop] using List.length_eq_zero.1 h
  | n + 1, v, h => by
    have hn : n < v.data.length := by omega
    have hx : v.data[n]? = some v.data[n] := List.getElem?_eq_getElem hn
    simp only [vector_clear_loop]
    apply vector_clear_loop_data n
    rw [vector_erase_data v n _ hx, swap_erase_length]
    omega

theorem vector_clear_data {α : Type} (v : vector α) : (vector_clear v).data = [] :=
  vector_clear_loop_data v.size v rfl

theorem vector_clear_of_nil {α : Type} (v : vector α) (h : v.data = []) : vector_clear v = v := by
  unfold vector_clear vector.size
  rw [h]
  rfl

/-! ## Lemmas on the bucket scan -/

theorem pair_at_loop_none (e : ops K V) (key : K) :
    ∀ (l : List (pair K V)) (i : Nat),
      pair_at_loop e key l i = none ↔ ∀ p ∈ l, e.key_cmp p.key key = false
  | [], i => by simp [pair_at_loop]
  | p :: ps, i => by
    simp only [pair_at_loop, List.mem_cons, forall_eq_or_imp]
    by_cases h : e.key_cmp p.key key = true
    · simp [h]
    · have h2 : e.key_cmp p.key key = false := by simpa using h
      simp [h2, pair_at_loop_none e key ps (i + 1)]

theorem pair_at_loop_some (e : ops K V) (key : K) :
    ∀ (l : List (pair K V)) (i : Nat) (p : pair K V) (j : Nat),
      pair_at_loop e key l i = some (p, j) →
        i ≤ j ∧ l[j - i]? = some p ∧ e.key_cmp p.key key = true
  | [], i, p, j, h => by simp [pair_at_loop] at h
  | q :: qs, i, p, j, h => by
    simp only [pair_at_loop] at h
    by_cases hq : e.key_cmp q.key key = true
    · rw [if_pos hq] at h
      simp only [Option.some.injEq, Prod.mk.injEq] at h
      obtain ⟨rfl, rfl⟩ := h
      simp [hq]
    · rw [if_neg hq] at h
      obtain ⟨h1, h2, h3⟩ := pair_at_loop_some e key qs (i + 1) p j h
      refine ⟨by omega, ?_, h3⟩
      have : j - i = (j - (i + 1)) + 1 := by omega
      rw [this]
      simpa using h2

/-! ## Lemmas on lookup -/

theorem hash_func_lt (e : ops K V) (m : hashmap K V) (hw : wf e m) (key : K) :
    hashmap_hash_func e m key < m.capacity := by
  obtain ⟨n, _, hn⟩ := hw.pow
  unfold hashmap_hash_func
  rw [hn, Nat.and_pow_two_sub_one_eq_mod]
  exact Nat.mod_lt _ (Nat.pos_pow_of_pos n (by decide))

theorem hash_func_congr (e : ops K V) (m m1 : hashmap K V) (h : m1.capacity = m.capacity)
    (key : K) : hashmap_hash_func e m1 key = hashmap_hash_func e m key := by
  unfold hashmap_hash_func
  rw [h]

theorem bucket_exists (e : ops K V) (m : hashmap K V) (hw : wf e m) (key : K) :
    ∃ b, m.buckets[hashmap_hash_func e m key]? = some b := by
  have h := hash_func_lt e m hw key
  rw [← hw.len] at h
  exact ⟨_, List.getElem?_eq_getElem h⟩

theorem mem_entries (m : hashmap K V) (p : pair K V) :
    p ∈ entries m ↔ ∃ (i : Nat) (b : vector (pair K V)), m.buckets[i]? = some b ∧ p ∈ b.data := by
  unfold entries
  rw [List.mem_flatMap]
  constructor
  · rintro ⟨b, hb, hp⟩
    obtain ⟨i, hi⟩ := List.mem_iff_getElem?.1 hb
    exact ⟨i, b, hi, hp⟩
  · rintro ⟨i, b, hi, hp⟩
    exact ⟨b, List.mem_iff_getElem?.2 ⟨i, hi⟩, hp⟩

theorem hashmap_pair_at_none (e : ops K V) (m : hashmap K V) (key : K)
    (b : vector (pair K V)) (hb : m.buckets[hashmap_hash_func e m key]? = some b) :
    hashmap_pair_at e m key = none ↔ ∀ p ∈ b.data, e.key_cmp p.key key = false := by
  unfold hashmap_pair_at
  simp only [hb]
  by_cases h0 : b.size = 0
  · have : b.data = [] := List.length_eq_zero.1 h0
    simp [h0, this]
  · rw [if_neg h0, ← pair_at_loop_none e key b.data 0]
    cases pair_at_loop e key b.data 0 <;> simp

theorem hashmap_pair_at_some (e : ops K V) (m : hashmap K V) (key : K)
    (p : pair K V) (hash idx : Nat) (h : hashmap_pair_at e m key = some (p, hash, idx)) :
    hash = hashmap_hash_func e m key ∧
      ∃ b, m.buckets[hash]? = some b ∧ b.data[idx]? = some p ∧ e.key_cmp p.key key = true := by
  unfold hashmap_pair_at at h
  simp only at h
  cases hb : m.buckets[hashmap_hash_func e m key]? with
  | none => simp [hb] at h
  | some b =>
    simp only [hb] at h
    by_cases h0 : b.size = 0
    · simp [h0] at h
    · rw [if_neg h0] at h
      cases hl : pair_at_loop e key b.data 0 with
      | none => simp [hl] at h
      | some r =>
        obtain ⟨q, j⟩ := r
        simp only [hl, Option.some.injEq, Prod.mk.injEq] at h
        obtain ⟨rfl, rfl, rfl⟩ := h
        obtain ⟨_, h2, h3⟩ := pair_at_loop_some e key b.data 0 q j hl
        exact ⟨rfl, b, hb, by simpa using h2, h3⟩

theorem hashmap_at_none (e : ops K V) (m : hashmap K V) (key : K) :
    hashmap_at e m key = none ↔ hashmap_pair_at e m key = none := by
  unfold hashmap_at
  cases hashmap_pair_at e m key with
  | none => simp
  | some r => obtain ⟨p, h, i⟩ := r; simp

theorem hashmap_at_some (e : ops K V) (m : hashmap K V) (key : K) (v : V) :
    hashmap_at e m key = some v ↔
      ∃ p hash idx, hashmap_pair_at e m key = some (p, hash, idx) ∧ p.value = v := by
  unfold hashmap_at
  cases hashmap_pair_at e m key with
  | none => simp
  | some r => obtain ⟨p, h, i⟩ := r; simp

theorem key_cmp_false_symm (e : ops K V) (hl : lawful e) (a b : K)
    (h : e.key_cmp a b = false) : e.key_cmp b a = false := by
  cases hb : e.key_cmp b a with
  | false => rfl
  | true => rw [hl.key_symm b a hb] at h; cases h

theorem distinct_symm (e : ops K V) (hl : lawful e) :
    Symmetric (fun p q : pair K V => e.key_cmp p.key q.key = false) :=
  fun p q h => key_cmp_false_symm e hl p.key q.key h

theorem hashmap_at_none_iff (e : ops K V) (hl : lawful e) (m : hashmap K V) (hw : wf e m)
    (key : K) :
    hashmap_at e m key = none ↔ ∀ p ∈ entries m, e.key_cmp p.key key = false := by
  obtain ⟨b, hb⟩ := bucket_exists e m hw key
  rw [hashmap_at_none, hashmap_pair_at_none e m key b hb]
  constructor
  · intro h p hp
    obtain ⟨i, b1, hi, hp1⟩ := (mem_entries m p).1 hp
    cases hc : e.key_cmp p.key key with
    | false => rfl
    | true =>
      have h1 : hashmap_hash_func e m p.key = i := hw.placed i b1 hi p hp1
      have h2 : hashmap_hash_func e m p.key = hashmap_hash_func e m key := by
        unfold hashmap_hash_func
        rw [hl.hash_eq _ _ hc]
      rw [← h1, h2, hb] at hi
      cases hi
      rw [h p hp1] at hc
      cases hc
  · intro h p hp
    exact h p ((mem_entries m p).2 ⟨_, b, hb, hp⟩)

theorem hashmap_at_some_iff (e : ops K V) (hl : lawful e) (m : hashmap K V) (hw : wf e m)
    (key : K) (v : V) :
    hashmap_at e m key = some v ↔
      ∃ p ∈ entries m, e.key_cmp p.key key = true ∧ p.value = v := by
  constructor
  · intro h
    obtain ⟨p, hash, idx, hp, hv⟩ := (hashmap_at_some e m key v).1 h
    obtain ⟨_, b, hb, hi, hc⟩ := hashmap_pair_at_some e m key p hash idx hp
    exact ⟨p, (mem_entries m p).2 ⟨hash, b, hb, List.mem_iff_getElem?.2 ⟨idx, hi⟩⟩, hc, hv⟩
  · rintro ⟨p, hp, hc, hv⟩
    cases h : hashmap_at e m key with
    | none =>
      have := (hashmap_at_none_iff e hl m hw key).1 h p hp
      rw [this] at hc
      cases hc
    | some w =>
      obtain ⟨q, hash, idx, hq, hw2⟩ := (hashmap_at_some e m key w).1 h
      obtain ⟨_, b, hb, hi, hc2⟩ := hashmap_pair_at_some e m key q hash idx hq
      have hqm : q ∈ entries m := (mem_entries m q).2 ⟨hash, b, hb, List.mem_iff_getElem?.2 ⟨idx, hi⟩⟩
      have hpq : p = q := by
        by_contra hne
        have := List.Pairwise.forall (distinct_symm e hl) hw.uniq hp hqm hne
        have ht : e.key_cmp p.key q.key = true :=
          hl.key_trans _ _ _ hc (hl.key_symm _ _ hc2)
        rw [this] at ht
        cases ht
      subst hpq
      rw [← hw2, hv]

/-! ## Lemmas on the stored pairs -/

theorem entries_set_add (x : pair K V) (b1 : vector (pair K V)) :
    ∀ (l : List (vector (pair K V))) (i : Nat) (b : vector (pair K V)),
      l[i]? = some b → b1.data.Perm (x :: b.data) →
        ((l.set i b1).flatMap (fun b => b.data)).Perm (x :: l.flatMap (fun b => b.data))
  | [], i, b, h, _ => by simp at h
  | a :: t, 0, b, h, hp => by
    simp at h
    subst h
    simp only [List.set_cons_zero, List.flatMap_cons]
    exact (hp.append_right _)
  | a :: t, i + 1, b, h, hp => by
    simp at h
    have ih := entries_set_add x b1 t i b h hp
    simp only [List.set_cons_succ, List.flatMap_cons]
    exact (ih.append_left a.data).trans List.perm_middle

theorem entries_set_remove (x : pair K V) (b1 : vector (pair K V)) :
    ∀ (l : List (vector (pair K V))) (i : Nat) (b : vector (pair K V)),
      l[i]? = some b → b.data.Perm (x :: b1.data) →
        (l.flatMap (fun b => b.data)).Perm (x :: (l.set i b1).flatMap (fun b => b.data))
  | [], i, b, h, _ => by simp at h
  | a :: t, 0, b, h, hp => by
    simp at h
    subst h
    simp only [List.set_cons_zero, List.flatMap_cons]
    exact (hp.append_right _)
  | a :: t, i + 1, b, h, hp => by
    simp at h
    have ih := entries_set_remove x b1 t i b h hp
    simp only [List.set_cons_succ, List.flatMap_cons]
    exact (ih.append_left a.data).trans List.perm_middle

theorem pair_copy_eq (p : pair K V) : pair_copy p = p := rfl

theorem entries_replicate_nil (n c : Nat) :
    (List.replicate n (vector_alloc c : vector (pair K V))).flatMap (fun b => b.data) = [] := by
  induction n with
  | zero => rfl
  | succ n ih => simp [List.replicate_succ, vector_alloc, ih]

theorem wf_init_hashmap (e : ops K V) (n : Nat) (hn : 1 ≤ n) : wf e (init_hashmap e (2 ^ n)) where
  len := by simp [init_hashmap]
  pow := ⟨n, hn, rfl⟩
  placed := by
    intro i b hb p hp
    simp only [init_hashmap] at hb
    have hb2 := List.mem_iff_getElem?.2 ⟨i, hb⟩
    rw [List.eq_of_mem_replicate hb2] at hp
    simp [vector_alloc] at hp
  size_eq := by
    unfold entries
    simp only [init_hashmap]
    rw [entries_replicate_nil]
    rfl
  uniq := by
    unfold distinct entries
    simp only [init_hashmap]
    rw [entries_replicate_nil]
    exact List.Pairwise.nil

theorem entries_init_hashmap (e : ops K V) (c : Nat) : entries (init_hashmap e c) = [] := by
  unfold entries
  simp only [init_hashmap]
  exact entries_replicate_nil c _

/-! ## Lemmas on `hashmap_insert_pair` -/

theorem insert_pair_found (e : ops K V) (m : hashmap K V) (p : pair K V) (v : V)
    (h : hashmap_at e m p.key = some v) : hashmap_insert_pair e m p = (m, 0) := by
  unfold hashmap_insert_pair
  rw [h]
  rfl

theorem insert_pair_eq (e : ops K V) (m : hashmap K V) (p : pair K V)
    (b : vector (pair K V)) (h : hashmap_at e m p.key = none)
    (hb : m.buckets[hashmap_hash_func e m p.key]? = some b) :
    hashmap_insert_pair e m p =
      ({ buckets := m.buckets.set (hashmap_hash_func e m p.key)
            (vector_push_back pair_copy b p).1
         size := m.size + 1
         capacity := m.capacity }, 1) := by
  unfold hashmap_insert_pair
  rw [h]
  simp only [hb]
  rfl

theorem insert_pair_absent (e : ops K V) (hl : lawful e) (m : hashmap K V) (hw : wf e m)
    (p : pair K V) (h : hashmap_at e m p.key = none) :
    (hashmap_insert_pair e m p).2 = 1 ∧
    (hashmap_insert_pair e m p).1.capacity = m.capacity ∧
    (hashmap_insert_pair e m p).1.size = m.size + 1 ∧
    (entries (hashmap_insert_pair e m p).1).Perm (p :: entries m) ∧
    wf e (hashmap_insert_pair e m p).1 := by
  obtain ⟨b, hb⟩ := bucket_exists e m hw p.key
  have heq := insert_pair_eq e m p b h hb
  have hperm : (entries (hashmap_insert_pair e m p).1).Perm (p :: entries m) := by
    rw [heq]
    unfold entries
    apply entries_set_add p _ m.buckets _ b hb
    rw [vector_push_back_data, pair_copy_eq]
    exact List.perm_append_singleton p b.data
  refine ⟨by rw [heq], by rw [heq], by rw [heq], hperm, ?_⟩
  constructor
  · rw [heq]; simpa using hw.len
  · rw [heq]; exact hw.pow
  · intro i b1 hb1 q hq
    rw [hash_func_congr e m _ (by rw [heq])]
    rw [heq] at hb1
    simp only at hb1
    rw [List.getElem?_set] at hb1
    by_cases hi : hashmap_hash_func e m p.key = i
    · rw [if_pos hi] at hb1
      split at hb1
      · cases hb1
        rw [vector_push_back_data, pair_copy_eq, List.mem_append] at hq
        rcases hq with hq | hq
        · exact hw.placed i b (hi ▸ hb) q hq
        · simp only [List.mem_singleton] at hq
          rw [hq]; exact hi
      · cases hb1
    · rw [if_neg hi] at hb1
      exact hw.placed i b1 hb1 q hq
  · rw [hperm.length_eq, List.length_cons, ← hw.size_eq, heq]
  · unfold distinct
    rw [List.Perm.pairwise_iff (fun {x y} hxy => distinct_symm e hl hxy) hperm,
      List.pairwise_cons]
    refine ⟨?_, hw.uniq⟩
    intro q hq
    exact key_cmp_false_symm e hl _ _ ((hashmap_at_none_iff e hl m hw p.key).1 h q hq)

/-! ## Lemmas on `hashmap_erase_pair` -/

theorem erase_pair_absent (e : ops K V) (m : hashmap K V) (key : K)
    (h : hashmap_at e m key = none) : hashmap_erase_pair e m key = (m, 0) := by
  unfold hashmap_erase_pair
  rw [(hashmap_at_none e m key).1 h]

theorem erase_pair_eq (e : ops K V) (m : hashmap K V) (key : K) (p : pair K V)
    (hash idx : Nat) (b : vector (pair K V))
    (h : hashmap_pair_at e m key = some (p, hash, idx))
    (hb : m.buckets[hash]? = some b) (hi : b.data[idx]? = some p) :
    hashmap_erase_pair e m key =
      ({ buckets := m.buckets.set hash (vector_erase b idx).1
         size := m.size - 1
         capacity := m.capacity }, 1) := by
  unfold hashmap_erase_pair
  rw [h]
  simp only [hb]
  rw [if_neg]
  rw [vector_erase_ret b idx p hi]
  decide

theorem erase_pair_found (e : ops K V) (hl : lawful e) (m : hashmap K V) (hw : wf e m)
    (key : K) (p : pair K V) (hash idx : Nat)
    (h : hashmap_pair_at e m key = some (p, hash, idx)) :
    (hashmap_erase_pair e m key).2 = 1 ∧
    (hashmap_erase_pair e m key).1.capacity = m.capacity ∧
    (hashmap_erase_pair e m key).1.size + 1 = m.size ∧
    (entries m).Perm (p :: entries (hashmap_erase_pair e m key).1) ∧
    wf e (hashmap_erase_pair e m key).1 := by
  obtain ⟨_, b, hb, hi, hc⟩ := hashmap_pair_at_some e m key p hash idx h
  have heq := erase_pair_eq e m key p hash idx b h hb hi
  have hbp : b.data.Perm (p :: (vector_erase b idx).1.data) := by
    rw [vector_erase_data b idx p hi]
    exact swap_erase_perm b.data idx p hi
  have hperm : (entries m).Perm (p :: entries (hashmap_erase_pair e m key).1) := by
    rw [heq]
    unfold entries
    exact entries_set_remove p _ m.buckets hash b hb hbp
  have hsz : (hashmap_erase_pair e m key).1.size + 1 = m.size := by
    have h1 := hperm.length_eq
    rw [List.length_cons, ← hw.size_eq] at h1
    rw [heq]
    simp only
    omega
  refine ⟨by rw [heq], by rw [heq], hsz, hperm, ?_⟩
  have hu : distinct e (p :: entries (hashmap_erase_pair e m key).1) := by
    unfold distinct
    rw [← List.Perm.pairwise_iff (fun {x y} hxy => distinct_symm e hl hxy) hperm]
    exact hw.uniq
  constructor
  · rw [heq]; simpa using hw.len
  · rw [heq]; exact hw.pow
  · intro i b1 hb1 q hq
    rw [hash_func_congr e m _ (by rw [heq])]
    rw [heq] at hb1
    simp only at hb1
    rw [List.getElem?_set] at hb1
    by_cases hi2 : hash = i
    · rw [if_pos hi2] at hb1
      split at hb1
      · cases hb1
        have : q ∈ b.data := hbp.symm.subset (List.mem_cons_of_mem p hq)
        exact hw.placed i b (hi2 ▸ hb) q this
      · cases hb1
    · rw [if_neg hi2] at hb1
      exact hw.placed i b1 hb1 q hq
  · have h1 := hperm.length_eq
    rw [List.length_cons, ← hw.size_eq] at h1
    omega
  · exact (List.pairwise_cons.1 hu).2

/-! ## Lemmas on the rehash -/

theorem backup_bucket_data (l : List (pair K V)) :
    ∀ t : vector (pair K V),
      (l.foldl (fun t p => (vector_push_back pair_copy t p).1) t).data = t.data ++ l := by
  induction l with
  | nil => intro t; simp
  | cons p ps ih =>
    intro t
    simp only [List.foldl_cons]
    rw [ih, vector_push_back_data, pair_copy_eq]
    simp

theorem backup_buckets_data (bs : List (vector (pair K V))) :
    ∀ t : vector (pair K V),
      (bs.foldl (fun temp_vec bucket =>
          bucket.data.foldl (fun t p => (vector_push_back pair_copy t p).1) temp_vec) t).data =
        t.data ++ bs.flatMap (fun b => b.data) := by
  induction bs with
  | nil => intro t; simp
  | cons b bs ih =>
    intro t
    simp only [List.foldl_cons, List.flatMap_cons]
    rw [ih, backup_bucket_data]
    simp

theorem backup_data (e : ops K V) (m : hashmap K V) :
    (hashmap_backup_elements e m).data = entries m := by
  unfold hashmap_backup_elements entries
  rw [backup_buckets_data]
  simp [vector_alloc]

theorem restore_ok (e : ops K V) (hl : lawful e) :
    ∀ (l : List (pair K V)) (m : hashmap K V), wf e m → distinct e l →
      (∀ p ∈ l, ∀ q ∈ entries m, e.key_cmp q.key p.key = false) →
      (hashmap_restore_elements e m l).2 = 1 ∧
      (hashmap_restore_elements e m l).1.capacity = m.capacity ∧
      (hashmap_restore_elements e m l).1.size = m.size + l.length ∧
      (entries (hashmap_restore_elements e m l).1).Perm (l ++ entries m) ∧
      wf e (hashmap_restore_elements e m l).1
  | [], m, hw, _, _ => by
    exact ⟨rfl, rfl, rfl, List.Perm.refl _, hw⟩
  | p :: ps, m, hw, hd, hfresh => by
    have hnone : hashmap_at e m p.key = none :=
      (hashmap_at_none_iff e hl m hw p.key).2 (fun q hq => hfresh p (List.mem_cons_self p ps) q hq)
    obtain ⟨h1, h2, h3, h4, h5⟩ := insert_pair_absent e hl m hw p hnone
    have hd2 := List.pairwise_cons.1 hd
    have hfresh2 : ∀ p1 ∈ ps, ∀ q ∈ entries (hashmap_insert_pair e m p).1,
        e.key_cmp q.key p1.key = false := by
      intro p1 hp1 q hq
      rcases List.mem_cons.1 (h4.subset hq) with hq1 | hq1
      · rw [hq1]; exact hd2.1 p1 hp1
      · exact hfresh p1 (List.mem_cons_of_mem p hp1) q hq1
    obtain ⟨g1, g2, g3, g4, g5⟩ :=
      restore_ok e hl ps (hashmap_insert_pair e m p).1 h5 hd2.2 hfresh2
    have hstep : hashmap_restore_elements e m (p :: ps) =
        hashmap_restore_elements e (hashmap_insert_pair e m p).1 ps := by
      simp only [hashmap_restore_elements]
      rw [if_neg]
      rw [h1]; decide
    rw [hstep]
    refine ⟨g1, by rw [g2, h2], by rw [g3, h3, List.length_cons]; omega, ?_, g5⟩
    refine g4.trans ?_
    refine (List.Perm.append_left ps h4).trans ?_
    exact List.perm_middle

theorem rehash_ok (e : ops K V) (hl : lawful e) (m : hashmap K V) (hw : wf e m)
    (f : Nat × Nat) (n : Nat) (hn : 1 ≤ n)
    (hc : max (f.1 * m.capacity / f.2) MIN_CAPACITY = 2 ^ n) :
    (hashmap_rehash e m f).capacity = 2 ^ n ∧
    (hashmap_rehash e m f).size = m.size ∧
    (entries (hashmap_rehash e m f)).Perm (entries m) ∧
    wf e (hashmap_rehash e m f) := by
  unfold hashmap_rehash
  simp only
  have hcap : (hashmap_free_buckets m).capacity = m.capacity := rfl
  rw [hcap, hc, backup_data]
  have hfresh : ∀ p ∈ entries m, ∀ q ∈ entries (init_hashmap e (2 ^ n)),
      e.key_cmp q.key p.key = false := by
    intro p _ q hq
    rw [entries_init_hashmap] at hq
    cases hq
  obtain ⟨_, g2, g3, g4, g5⟩ :=
    restore_ok e hl (entries m) (init_hashmap e (2 ^ n)) (wf_init_hashmap e n hn) hw.uniq hfresh
  refine ⟨by rw [g2]; rfl, ?_, ?_, g5⟩
  · rw [g3, hw.size_eq]
    simp [init_hashmap]
  · rw [entries_init_hashmap, List.append_nil] at g4
    exact g4

theorem grow_capacity (n : Nat) :
    max (HASH_MAP_GROWTH_FACTOR.1 * 2 ^ n / HASH_MAP_GROWTH_FACTOR.2) MIN_CAPACITY = 2 ^ (n + 1) := by
  have : 1 ≤ 2 ^ n := Nat.one_le_two_pow
  simp only [HASH_MAP_GROWTH_FACTOR, MIN_CAPACITY, Nat.div_one, pow_succ]
  omega

theorem shrink_capacity (n : Nat) (hn : 1 ≤ n) :
    max (HASH_MAP_REDUCTION_FACTOR.1 * 2 ^ n / HASH_MAP_REDUCTION_FACTOR.2) MIN_CAPACITY =
      2 ^ (max (n - 1) 1) := by
  obtain ⟨k, rfl⟩ : ∃ k, n = k + 1 := ⟨n - 1, by omega⟩
  simp only [HASH_MAP_REDUCTION_FACTOR, MIN_CAPACITY, Nat.one_mul, Nat.add_sub_cancel, pow_succ]
  rw [Nat.mul_div_cancel _ (by decide : 0 < 2)]
  rcases k with _ | k
  · decide
  · have h1 : max (k + 1) 1 = k + 1 := by omega
    have h2 : 1 ≤ 2 ^ k := Nat.one_le_two_pow
    rw [h1, pow_succ]
    omega

/-! ## The load factor as a quotient -/

theorem load_factor_error (m : hashmap K V) :
    hashmap_get_load_factor m = -1 ↔ m.capacity = 0 := by
  unfold hashmap_get_load_factor
  constructor
  · intro h
    by_contra hc
    rw [if_pos hc] at h
    have h1 : (0 : ℚ) ≤ (m.size : ℚ) / (m.capacity : ℚ) := by positivity
    rw [h] at h1
    norm_num at h1
  · intro h
    rw [if_neg (by simpa using h)]

theorem load_factor_gt_max (m : hashmap K V) (hc : m.capacity ≠ 0) :
    3 / 4 < hashmap_get_load_factor m ↔ 3 * m.capacity < 4 * m.size := by
  unfold hashmap_get_load_factor
  rw [if_pos hc]
  have hpos : (0 : ℚ) < (m.capacity : ℚ) := by exact_mod_cast Nat.pos_of_ne_zero hc
  rw [lt_div_iff₀ hpos]
  constructor
  · intro h
    have h1 : (3 : ℚ) * (m.capacity : ℚ) < 4 * (m.size : ℚ) := by linarith
    exact_mod_cast h1
  · intro h
    have h1 : (3 : ℚ) * (m.capacity : ℚ) < 4 * (m.size : ℚ) := by exact_mod_cast h
    linarith

theorem load_factor_lt_min (m : hashmap K V) (hc : m.capacity ≠ 0) :
    hashmap_get_load_factor m < 1 / 4 ↔ 4 * m.size < m.capacity := by
  unfold hashmap_get_load_factor
  rw [if_pos hc]
  have hpos : (0 : ℚ) < (m.capacity : ℚ) := by exact_mod_cast Nat.pos_of_ne_zero hc
  rw [div_lt_iff₀ hpos]
  constructor
  · intro h
    have h1 : (4 : ℚ) * (m.size : ℚ) < (m.capacity : ℚ) := by linarith
    exact_mod_cast h1
  · intro h
    have h1 : (4 : ℚ) * (m.size : ℚ) < (m.capacity : ℚ) := by exact_mod_cast h
    linarith

theorem load_factor_le_max (m : hashmap K V) (hc : m.capacity ≠ 0) :
    hashmap_get_load_factor m ≤ 3 / 4 ↔ 4 * m.size ≤ 3 * m.capacity := by
  rw [← not_lt, load_factor_gt_max m hc, not_lt]

theorem load_factor_ge_min (m : hashmap K V) (hc : m.capacity ≠ 0) :
    1 / 4 ≤ hashmap_get_load_factor m ↔ m.capacity ≤ 4 * m.size := by
  rw [← not_lt, load_factor_lt_min m hc, not_lt]

theorem hashmap_resize_load_factor (e : ops K V) (m : hashmap K V) (mode : Nat) :
    hashmap_resize e m mode =
      if hashmap_get_load_factor m = -1 then (m, 0)
      else if mode = INSERT_ELEMENT ∧ 3 / 4 < hashmap_get_load_factor m then
        (hashmap_rehash e m HASH_MAP_GROWTH_FACTOR, 1)
      else if mode = ERASE_ELEMENT ∧ hashmap_get_load_factor m < 1 / 4 then
        (hashmap_rehash e m HASH_MAP_REDUCTION_FACTOR, 1)
      else (m, 1) := by
  unfold hashmap_resize
  by_cases hc : m.capacity = 0
  · rw [if_pos hc, if_pos ((load_factor_error m).2 hc)]
  · rw [if_neg hc, if_neg (fun h => hc ((load_factor_error m).1 h))]
    simp only [load_factor_gt_max m hc, load_factor_lt_min m hc]

/-! ## Lemmas on `hashmap_resize` -/

theorem capacity_ne_zero (e : ops K V) (m : hashmap K V) (hw : wf e m) : m.capacity ≠ 0 := by
  obtain ⟨n, _, hn⟩ := hw.pow
  rw [hn]
  exact Nat.pos_iff_ne_zero.1 (Nat.pos_pow_of_pos n (by decide))

theorem capacity_ge_two (e : ops K V) (m : hashmap K V) (hw : wf e m) : 2 ≤ m.capacity := by
  obtain ⟨n, h1, hn⟩ := hw.pow
  rw [hn]
  calc 2 = 2 ^ 1 := rfl
    _ ≤ 2 ^ n := Nat.pow_le_pow_right (by decide) h1

theorem resize_ok (e : ops K V) (hl : lawful e) (m : hashmap K V) (hw : wf e m) (mode : Nat) :
    (hashmap_resize e m mode).2 = 1 ∧
    (hashmap_resize e m mode).1.size = m.size ∧
    (entries (hashmap_resize e m mode).1).Perm (entries m) ∧
    wf e (hashmap_resize e m mode).1 := by
  obtain ⟨n, h1, hn⟩ := hw.pow
  unfold hashmap_resize
  rw [if_neg (capacity_ne_zero e m hw)]
  split
  · have hc := grow_capacity n
    rw [← hn] at hc
    obtain ⟨_, g2, g3, g4⟩ := rehash_ok e hl m hw HASH_MAP_GROWTH_FACTOR (n + 1) (by omega) hc
    exact ⟨rfl, g2, g3, g4⟩
  · split
    · have hc := shrink_capacity n h1
      rw [← hn] at hc
      obtain ⟨_, g2, g3, g4⟩ :=
        rehash_ok e hl m hw HASH_MAP_REDUCTION_FACTOR (max (n - 1) 1) (by omega) hc
      exact ⟨rfl, g2, g3, g4⟩
    · exact ⟨rfl, rfl, List.Perm.refl _, hw⟩

theorem resize_insert_capacity (e : ops K V) (hl : lawful e) (m : hashmap K V) (hw : wf e m) :
    (hashmap_resize e m INSERT_ELEMENT).1.capacity =
      if 3 * m.capacity < 4 * m.size then 2 * m.capacity else m.capacity := by
  obtain ⟨n, h1, hn⟩ := hw.pow
  unfold hashmap_resize
  rw [if_neg (capacity_ne_zero e m hw)]
  by_cases h : 3 * m.capacity < 4 * m.size
  · rw [if_pos ⟨rfl, h⟩, if_pos h]
    have hc := grow_capacity n
    rw [← hn] at hc
    obtain ⟨g1, _⟩ := rehash_ok e hl m hw HASH_MAP_GROWTH_FACTOR (n + 1) (by omega) hc
    simp only
    rw [g1, hn, pow_succ]
    omega
  · rw [if_neg (fun hh => h hh.2), if_neg h, if_neg]
    intro hh
    exact absurd hh.1 (by decide)

theorem resize_erase_capacity (e : ops K V) (hl : lawful e) (m : hashmap K V) (hw : wf e m) :
    (hashmap_resize e m ERASE_ELEMENT).1.capacity =
      if 4 * m.size < m.capacity then max (m.capacity / 2) 2 else m.capacity := by
  obtain ⟨n, h1, hn⟩ := hw.pow
  unfold hashmap_resize
  rw [if_neg (capacity_ne_zero e m hw), if_neg (fun hh => absurd hh.1 (by decide))]
  by_cases h : 4 * m.size < m.capacity
  · rw [if_pos ⟨rfl, h⟩, if_pos h]
    have hc := shrink_capacity n h1
    rw [← hn] at hc
    obtain ⟨g1, _⟩ :=
      rehash_ok e hl m hw HASH_MAP_REDUCTION_FACTOR (max (n - 1) 1) (by omega) hc
    simp only
    rw [g1, ← hc]
    simp [HASH_MAP_REDUCTION_FACTOR, MIN_CAPACITY]
  · rw [if_neg (fun hh => h hh.2), if_neg h]

/-! ## Lemmas on `hashmap_insert` and `hashmap_erase` -/

theorem insert_found (e : ops K V) (m : hashmap K V) (p : pair K V) (v : V)
    (h : hashmap_at e m p.key = some v) : hashmap_insert e m p = (m, 0) := by
  unfold hashmap_insert
  rw [insert_pair_found e m p v h]
  rfl

theorem insert_absent (e : ops K V) (hl : lawful e) (m : hashmap K V) (hw : wf e m)
    (p : pair K V) (h : hashmap_at e m p.key = none) :
    (hashmap_insert e m p).2 = 1 ∧
    (hashmap_insert e m p).1.size = m.size + 1 ∧
    (entries (hashmap_insert e m p).1).Perm (p :: entries m) ∧
    wf e (hashmap_insert e m p).1 ∧
    (hashmap_insert e m p).1.capacity =
      if 3 * m.capacity < 4 * (m.size + 1) then 2 * m.capacity else m.capacity := by
  obtain ⟨h1, h2, h3, h4, h5⟩ := insert_pair_absent e hl m hw p h
  obtain ⟨g1, g2, g3, g4⟩ := resize_ok e hl _ h5 INSERT_ELEMENT
  have g5 := resize_insert_capacity e hl _ h5
  have heq : hashmap_insert e m p =
      ((hashmap_resize e (hashmap_insert_pair e m p).1 INSERT_ELEMENT).1, 1) := by
    unfold hashmap_insert
    simp only
    rw [if_neg (by rw [h1]; decide), if_neg (by rw [g1]; decide)]
  rw [heq]
  refine ⟨rfl, by rw [g2, h3], g3.trans h4, g4, ?_⟩
  simp only
  rw [g5, h2, h3]

theorem erase_absent (e : ops K V) (m : hashmap K V) (key : K)
    (h : hashmap_at e m key = none) : hashmap_erase e m key = (m, 0) := by
  unfold hashmap_erase
  rw [erase_pair_absent e m key h]
  rfl

theorem erase_found (e : ops K V) (hl : lawful e) (m : hashmap K V) (hw : wf e m)
    (key : K) (p : pair K V) (hash idx : Nat)
    (h : hashmap_pair_at e m key = some (p, hash, idx)) :
    (hashmap_erase e m key).2 = 1 ∧
    (hashmap_erase e m key).1.size + 1 = m.size ∧
    (entries m).Perm (p :: entries (hashmap_erase e m key).1) ∧
    wf e (hashmap_erase e m key).1 ∧
    (hashmap_erase e m key).1.capacity =
      if 4 * (m.size - 1) < m.capacity then max (m.capacity / 2) 2 else m.capacity := by
  obtain ⟨h1, h2, h3, h4, h5⟩ := erase_pair_found e hl m hw key p hash idx h
  obtain ⟨g1, g2, g3, g4⟩ := resize_ok e hl _ h5 ERASE_ELEMENT
  have g5 := resize_erase_capacity e hl _ h5
  have heq : hashmap_erase e m key =
      ((hashmap_resize e (hashmap_erase_pair e m key).1 ERASE_ELEMENT).1, 1) := by
    unfold hashmap_erase
    simp only
    rw [if_neg (by rw [h1]; decide), if_neg (by rw [g1]; decide)]
  rw [heq]
  refine ⟨rfl, by rw [g2, h3], h4.trans (g3.symm.cons p), g4, ?_⟩
  simp only
  have hs : (hashmap_erase_pair e m key).1.size = m.size - 1 := by omega
  rw [g5, h2, hs]

theorem erase_ret_one (e : ops K V) (m : hashmap K V) (key : K)
    (h : (hashmap_erase e m key).2 = 1) :
    ∃ p hash idx, hashmap_pair_at e m key = some (p, hash, idx) := by
  cases hp : hashmap_pair_at e m key with
  | none =>
    rw [erase_absent e m key ((hashmap_at_none e m key).2 hp)] at h
    cases h
  | some r => exact ⟨r.1, r.2.1, r.2.2, rfl⟩

/-! ## Lemmas on `hashmap_clear` -/

theorem clear_bucket_of_nil :
    ∀ (n : Nat) (s : clear_state K V), s.bucket.data = [] → hashmap_clear_bucket n s = s
  | 0, _, _ => rfl
  | n + 1, s, h => by
    have h1 : vector_clear s.bucket = s.bucket := vector_clear_of_nil _ h
    have h2 : s.bucket.size = 0 := by unfold vector.size; rw [h]; rfl
    simp only [hashmap_clear_bucket]
    rw [h1, h2]
    exact clear_bucket_of_nil n s h

theorem clear_bucket_eq (b : vector (pair K V)) (size del_count : Nat) :
    (hashmap_clear_bucket b.size ⟨b, size, del_count⟩).bucket.data = [] ∧
    (hashmap_clear_bucket b.size ⟨b, size, del_count⟩).size = size - b.data.length ∧
    (hashmap_clear_bucket b.size ⟨b, size, del_count⟩).del_count = del_count + b.data.length ∧
    (b.data = [] → (hashmap_clear_bucket b.size ⟨b, size, del_count⟩).bucket = b) := by
  cases hn : b.size with
  | zero =>
    have hb : b.data = [] := List.length_eq_zero.1 hn
    simp [hashmap_clear_bucket, hb]
  | succ n =>
    simp only [hashmap_clear_bucket]
    rw [clear_bucket_of_nil n _ (vector_clear_data b)]
    refine ⟨vector_clear_data b, rfl, rfl, ?_⟩
    intro hb
    exact vector_clear_of_nil b hb

theorem clear_buckets_eq :
    ∀ (bs : List (vector (pair K V))) (size del_count : Nat),
      (hashmap_clear_buckets bs size del_count).1.length = bs.length ∧
      (∀ b ∈ (hashmap_clear_buckets bs size del_count).1, b.data = []) ∧
      (hashmap_clear_buckets bs size del_count).2.1 =
        size - (bs.flatMap (fun b => b.data)).length ∧
      (hashmap_clear_buckets bs size del_count).2.2 =
        del_count + (bs.flatMap (fun b => b.data)).length ∧
      ((∀ b ∈ bs, b.data = []) → (hashmap_clear_buckets bs size del_count).1 = bs)
  | [], size, del_count => by simp [hashmap_clear_buckets]
  | b :: bs, size, del_count => by
    obtain ⟨h1, h2, h3, h4⟩ := clear_bucket_eq b size del_count
    obtain ⟨g1, g2, g3, g4, g5⟩ := clear_buckets_eq bs
      (hashmap_clear_bucket b.size ⟨b, size, del_count⟩).size
      (hashmap_clear_bucket b.size ⟨b, size, del_count⟩).del_count
    simp only [hashmap_clear_buckets, List.length_cons, List.mem_cons, forall_eq_or_imp,
      List.flatMap_cons, List.length_append]
    refine ⟨by rw [g1], ⟨h1, g2⟩, by rw [g3, h2]; omega, by rw [g4, h3]; omega, ?_⟩
    rintro ⟨hb, hbs⟩
    rw [h4 hb, g5 hbs]

theorem entries_of_all_nil (bs : List (vector (pair K V))) (h : ∀ b ∈ bs, b.data = []) :
    bs.flatMap (fun b => b.data) = [] := by
  induction bs with
  | nil => rfl
  | cons b bs ih =>
    simp only [List.mem_cons, forall_eq_or_imp] at h
    simp [List.flatMap_cons, h.1, ih h.2]

theorem wf_of_entries_nil (e : ops K V) (m : hashmap K V)
    (hlen : m.buckets.length = m.capacity) (hpow : ∃ n, 1 ≤ n ∧ m.capacity = 2 ^ n)
    (hnil : ∀ b ∈ m.buckets, b.data = []) (hsize : m.size = 0) : wf e m where
  len := hlen
  pow := hpow
  placed := by
    intro i b hb p hp
    rw [hnil b (List.mem_iff_getElem?.2 ⟨i, hb⟩)] at hp
    cases hp
  size_eq := by
    unfold entries
    rw [entries_of_all_nil _ hnil, hsize]
    rfl
  uniq := by
    unfold distinct entries
    rw [entries_of_all_nil _ hnil]
    exact List.Pairwise.nil

theorem clear_resize_ok (e : ops K V) (hl : lawful e) :
    ∀ (n : Nat) (m : hashmap K V), wf e m → m.size = 0 →
      wf e (hashmap_clear_resize e n m) ∧ (hashmap_clear_resize e n m).size = 0
  | 0, _, hw, hs => ⟨hw, hs⟩
  | n + 1, m, hw, hs => by
    obtain ⟨_, g2, _, g4⟩ := resize_ok e hl m hw ERASE_ELEMENT
    simp only [hashmap_clear_resize]
    exact clear_resize_ok e hl n _ g4 (by rw [g2, hs])

theorem entries_nil_of_size (e : ops K V) (m : hashmap K V) (hw : wf e m) (hs : m.size = 0) :
    entries m = [] := by
  have := hw.size_eq
  rw [hs] at this
  exact List.length_eq_zero.1 this.symm

theorem clear_ok (e : ops K V) (hl : lawful e) (m : hashmap K V) (hw : wf e m) :
    wf e (hashmap_clear e m) ∧ (hashmap_clear e m).size = 0 := by
  obtain ⟨g1, g2, g3, _, _⟩ := clear_buckets_eq m.buckets m.size 0
  unfold hashmap_clear
  simp only
  apply clear_resize_ok e hl
  · apply wf_of_entries_nil
    · simp only; rw [g1, hw.len]
    · exact hw.pow
    · exact g2
    · simp only
      rw [g3]
      have := hw.size_eq
      unfold entries at this
      omega
  · simp only
    rw [g3]
    have := hw.size_eq
    unfold entries at this
    omega

theorem clear_of_empty (e : ops K V) (m : hashmap K V) (h : ∀ b ∈ m.buckets, b.data = []) :
    hashmap_clear e m = m := by
  obtain ⟨_, _, g3, g4, g5⟩ := clear_buckets_eq m.buckets m.size 0
  unfold hashmap_clear
  simp only
  rw [g4, g3, g5 h, entries_of_all_nil _ h]
  rfl

/-! ## The invariant of the reachable tables -/

theorem wf_alloc (e : ops K V) : wf e (hashmap_alloc e) :=
  wf_init_hashmap e 4 (by decide)

theorem insert_wf (e : ops K V) (hl : lawful e) (m : hashmap K V) (hw : wf e m)
    (p : pair K V) : wf e (hashmap_insert e m p).1 := by
  cases h : hashmap_at e m p.key with
  | none => exact (insert_absent e hl m hw p h).2.2.2.1
  | some v => rw [insert_found e m p v h]; exact hw

theorem erase_wf (e : ops K V) (hl : lawful e) (m : hashmap K V) (hw : wf e m)
    (key : K) : wf e (hashmap_erase e m key).1 := by
  cases h : hashmap_pair_at e m key with
  | none => rw [erase_absent e m key ((hashmap_at_none e m key).2 h)]; exact hw
  | some r =>
    obtain ⟨p, hash, idx⟩ := r
    exact (erase_found e hl m hw key p hash idx h).2.2.2.1

theorem reachable_wf (e : ops K V) (hl : lawful e) (m : hashmap K V) (hr : reachable e m) :
    wf e m := by
  induction hr with
  | alloc => exact wf_alloc e
  | insert m p _ ih => exact insert_wf e hl m ih p
  | erase m k _ ih => exact erase_wf e hl m ih k
  | clear m _ ih => exact (clear_ok e hl m ih).1

/-! ## Lemmas on runs of calls -/

theorem at_of_mem (e : ops K V) (hl : lawful e) (m : hashmap K V) (hw : wf e m)
    (p : pair K V) (hp : p ∈ entries m) : hashmap_at e m p.key = some p.value :=
  (hashmap_at_some_iff e hl m hw p.key p.value).2 ⟨p, hp, hl.key_refl _, rfl⟩

theorem insert_all_ok (e : ops K V) (hl : lawful e) :
    ∀ (ps : List (pair K V)) (m : hashmap K V), wf e m → distinct e ps →
      (∀ p ∈ ps, ∀ q ∈ entries m, e.key_cmp q.key p.key = false) →
      (∀ r ∈ (hashmap_insert_all e m ps).2, r = 1) ∧
      (hashmap_insert_all e m ps).2.length = ps.length ∧
      (hashmap_insert_all e m ps).1.size = m.size + ps.length ∧
      (entries (hashmap_insert_all e m ps).1).Perm (ps ++ entries m) ∧
      wf e (hashmap_insert_all e m ps).1
  | [], m, hw, _, _ => by
    simp only [hashmap_insert_all]
    exact ⟨by simp, rfl, rfl, List.Perm.refl _, hw⟩
  | p :: ps, m, hw, hd, hfresh => by
    have hnone : hashmap_at e m p.key = none :=
      (hashmap_at_none_iff e hl m hw p.key).2 (fun q hq => hfresh p (List.mem_cons_self p ps) q hq)
    obtain ⟨h1, h2, h3, h4, _⟩ := insert_absent e hl m hw p hnone
    have hd2 := List.pairwise_cons.1 hd
    have hfresh2 : ∀ p1 ∈ ps, ∀ q ∈ entries (hashmap_insert e m p).1,
        e.key_cmp q.key p1.key = false := by
      intro p1 hp1 q hq
      rcases List.mem_cons.1 (h3.subset hq) with hq1 | hq1
      · rw [hq1]; exact hd2.1 p1 hp1
      · exact hfresh p1 (List.mem_cons_of_mem p hp1) q hq1
    obtain ⟨g1, g2, g3, g4, g5⟩ := insert_all_ok e hl ps (hashmap_insert e m p).1 h4 hd2.2 hfresh2
    simp only [hashmap_insert_all, List.mem_cons, forall_eq_or_imp, List.length_cons]
    refine ⟨⟨h1, g1⟩, by rw [g2], by rw [g3, h2]; omega, ?_, g5⟩
    exact g4.trans ((List.Perm.append_left ps h3).trans List.perm_middle)

theorem int_ops_lawful : lawful int_ops where
  key_refl := by intro k; simp [int_ops]
  key_symm := by intro a b h; simp [int_ops] at h ⊢; exact h.symm
  key_trans := by intro a b c h1 h2; simp [int_ops] at h1 h2 ⊢; exact h1.trans h2
  hash_eq := by intro a b h; simp [int_ops] at h ⊢; rw [h]

theorem stored_iff (e : ops K V) (hl : lawful e) (m : hashmap K V) (hw : wf e m) (key : K) :
    stored e m key ↔ ∃ v, hashmap_at e m key = some v := by
  constructor
  · rintro ⟨p, hp, hk⟩
    exact ⟨p.value, (hashmap_at_some_iff e hl m hw key p.value).2 ⟨p, hp, hk, rfl⟩⟩
  · rintro ⟨v, hv⟩
    obtain ⟨p, hp, hk, _⟩ := (hashmap_at_some_iff e hl m hw key v).1 hv
    exact ⟨p, hp, hk⟩

theorem not_stored_iff (e : ops K V) (hl : lawful e) (m : hashmap K V) (hw : wf e m) (key : K) :
    ¬ stored e m key ↔ hashmap_at e m key = none := by
  rw [stored_iff e hl m hw key]
  cases hashmap_at e m key <;> simp

theorem erase_stored (e : ops K V) (hl : lawful e) (m : hashmap K V) (hw : wf e m)
    (key : K) (hk : stored e m key) :
    (hashmap_erase e m key).2 = 1 ∧
    (hashmap_erase e m key).1.size + 1 = m.size ∧
    wf e (hashmap_erase e m key).1 ∧
    (hashmap_erase e m key).1.capacity =
      (if 4 * (m.size - 1) < m.capacity then max (m.capacity / 2) 2 else m.capacity) ∧
    ∀ key1, e.key_cmp key1 key = false →
      hashmap_at e (hashmap_erase e m key).1 key1 = hashmap_at e m key1 := by
  obtain ⟨v, hv⟩ := (stored_iff e hl m hw key).1 hk
  obtain ⟨p, hash, idx, hp, _⟩ := (hashmap_at_some e m key v).1 hv
  obtain ⟨_, _, _, _, hc⟩ := hashmap_pair_at_some e m key p hash idx hp
  obtain ⟨g1, g2, g3, g4, g5⟩ := erase_found e hl m hw key p hash idx hp
  refine ⟨g1, g2, g4, g5, ?_⟩
  intro key1 hne
  cases h1 : hashmap_at e m key1 with
  | none =>
    rw [hashmap_at_none_iff e hl _ g4 key1]
    intro q hq
    exact (hashmap_at_none_iff e hl m hw key1).1 h1 q (g3.symm.subset (List.mem_cons_of_mem p hq))
  | some w =>
    obtain ⟨q, hq, hqk, hqv⟩ := (hashmap_at_some_iff e hl m hw key1 w).1 h1
    rw [hashmap_at_some_iff e hl _ g4 key1 w]
    refine ⟨q, ?_, hqk, hqv⟩
    rcases List.mem_cons.1 (g3.subset hq) with hqp | hqp
    · subst hqp
      have := hl.key_trans _ _ _ (hl.key_symm _ _ hqk) hc
      rw [hne] at this
      cases this
    · exact hqp

theorem insert_all_append (e : ops K V) :
    ∀ (l1 l2 : List (pair K V)) (m : hashmap K V),
      (hashmap_insert_all e m (l1 ++ l2)).1 =
        (hashmap_insert_all e (hashmap_insert_all e m l1).1 l2).1
  | [], _, _ => rfl
  | p :: l1, l2, m => by
    simp only [List.cons_append, hashmap_insert_all]
    exact insert_all_append e l1 l2 _

theorem insert_all_capacity (e : ops K V) (hl : lawful e) :
    ∀ (ps : List (pair K V)) (m : hashmap K V), wf e m → distinct e ps →
      (∀ p ∈ ps, ∀ q ∈ entries m, e.key_cmp q.key p.key = false) →
      (hashmap_insert_all e m ps).1.capacity = insert_caps m.capacity m.size ps.length
  | [], _, _, _, _ => rfl
  | p :: ps, m, hw, hd, hfresh => by
    have hnone : hashmap_at e m p.key = none :=
      (hashmap_at_none_iff e hl m hw p.key).2 (fun q hq => hfresh p (List.mem_cons_self p ps) q hq)
    obtain ⟨_, h2, h3, h4, h5⟩ := insert_absent e hl m hw p hnone
    have hd2 := List.pairwise_cons.1 hd
    have hfresh2 : ∀ p1 ∈ ps, ∀ q ∈ entries (hashmap_insert e m p).1,
        e.key_cmp q.key p1.key = false := by
      intro p1 hp1 q hq
      rcases List.mem_cons.1 (h3.subset hq) with hq1 | hq1
      · rw [hq1]; exact hd2.1 p1 hp1
      · exact hfresh p1 (List.mem_cons_of_mem p hp1) q hq1
    have ih := insert_all_capacity e hl ps (hashmap_insert e m p).1 h4 hd2.2 hfresh2
    simp only [hashmap_insert_all, List.length_cons, insert_caps]
    rw [ih, h5, h2]

theorem erase_all_ok (e : ops K V) (hl : lawful e) :
    ∀ (ks : List K) (m : hashmap K V), wf e m →
      ks.Pairwise (fun a b => e.key_cmp a b = false) → (∀ k ∈ ks, stored e m k) →
      wf e (hashmap_erase_all e m ks) ∧
      (hashmap_erase_all e m ks).size + ks.length = m.size ∧
      (hashmap_erase_all e m ks).capacity = erase_caps m.capacity m.size ks.length ∧
      ∀ key1, (∀ k ∈ ks, e.key_cmp key1 k = false) →
        hashmap_at e (hashmap_erase_all e m ks) key1 = hashmap_at e m key1
  | [], m, hw, _, _ => ⟨hw, rfl, rfl, fun _ _ => rfl⟩
  | k :: ks, m, hw, hd, hst => by
    obtain ⟨_, h2, h3, h4, h5⟩ := erase_stored e hl m hw k (hst k (List.mem_cons_self k ks))
    have hd2 := List.pairwise_cons.1 hd
    have hst2 : ∀ k1 ∈ ks, stored e (hashmap_erase e m k).1 k1 := by
      intro k1 hk1
      rw [stored_iff e hl _ h3 k1, h5 k1 (key_cmp_false_symm e hl _ _ (hd2.1 k1 hk1)),
        ← stored_iff e hl m hw k1]
      exact hst k1 (List.mem_cons_of_mem k hk1)
    obtain ⟨g1, g2, g3, g4⟩ := erase_all_ok e hl ks (hashmap_erase e m k).1 h3 hd2.2 hst2
    simp only [hashmap_erase_all, List.length_cons, erase_caps]
    refine ⟨g1, by omega, ?_, ?_⟩
    · rw [g3, h4]
      have : (hashmap_erase e m k).1.size = m.size - 1 := by omega
      rw [this]
    · intro key1 hk1
      rw [g4 key1 (fun k2 hk2 => hk1 k2 (List.mem_cons_of_mem k hk2)),
        h5 key1 (hk1 k (List.mem_cons_self k ks))]

theorem lawful_of_eq (e : ops K V) (hk : ∀ a b, e.key_cmp a b = true ↔ a = b) : lawful e where
  key_refl := fun k => (hk k k).2 rfl
  key_symm := fun a b h => (hk b a).2 ((hk a b).1 h).symm
  key_trans := fun a b c h1 h2 => (hk a c).2 (((hk a b).1 h1).trans ((hk b c).1 h2))
  hash_eq := fun a b h => by rw [(hk a b).1 h]

theorem reachable_insert_all (e : ops K V) :
    ∀ (m : hashmap K V), reachable e m → ∀ ps : List (pair K V),
      reachable e (hashmap_insert_all e m ps).1 := by
  intro m hr ps
  induction ps generalizing m with
  | nil => exact hr
  | cons p ps ih => exact ih _ (reachable.insert m p hr)

theorem reachable_erase_all (e : ops K V) :
    ∀ (m : hashmap K V), reachable e m → ∀ ks : List K,
      reachable e (hashmap_erase_all e m ks) := by
  intro m hr ks
  induction ks generalizing m with
  | nil => exact hr
  | cons k ks ih => exact ih _ (reachable.erase m k hr)

/-! ## Round trip, duplicate keys, erase -/

/-- C1 (round trip): with a key equality that is an equivalence and a hash function that gives
equal keys the same hash, inserting pairs with pairwise different keys one after another into
a fresh table makes every `hashmap_insert` return 1, and afterwards `hashmap_at` returns, for
the key of every inserted pair, the value inserted with it. -/
theorem round_trip (e : ops K V) (hl : lawful e) (ps : List (pair K V)) (hd : distinct e ps) :
    (∀ r ∈ (hashmap_insert_all e (hashmap_alloc e) ps).2, r = 1) ∧
    (hashmap_insert_all e (hashmap_alloc e) ps).2.length = ps.length ∧
    ∀ p ∈ ps, hashmap_at e (hashmap_insert_all e (hashmap_alloc e) ps).1 p.key = some p.value := by
  have hfresh : ∀ p ∈ ps, ∀ q ∈ entries (hashmap_alloc e), e.key_cmp q.key p.key = false := by
    intro p _ q hq
    unfold hashmap_alloc at hq
    rw [entries_init_hashmap] at hq
    cases hq
  obtain ⟨g1, g2, _, g4, g5⟩ := insert_all_ok e hl ps (hashmap_alloc e) (wf_alloc e) hd hfresh
  refine ⟨g1, g2, ?_⟩
  intro p hp
  exact at_of_mem e hl _ g5 p (g4.symm.subset (List.mem_append_left _ hp))

/-- An instance of the round trip: three pairs with integer keys, two of which (1 and 17) share a
bucket of the fresh table. -/
theorem round_trip_witness :
    lawful int_ops ∧ distinct int_ops [⟨1, 10⟩, ⟨17, 20⟩, ⟨2, 30⟩] ∧
    ((∀ r ∈ (hashmap_insert_all int_ops (hashmap_alloc int_ops)
        [⟨1, 10⟩, ⟨17, 20⟩, ⟨2, 30⟩]).2, r = 1) ∧
      (hashmap_insert_all int_ops (hashmap_alloc int_ops)
        [⟨1, 10⟩, ⟨17, 20⟩, ⟨2, 30⟩]).2.length = [(⟨1, 10⟩ : pair Int Int), ⟨17, 20⟩, ⟨2, 30⟩].length ∧
      ∀ p ∈ [(⟨1, 10⟩ : pair Int Int), ⟨17, 20⟩, ⟨2, 30⟩],
        hashmap_at int_ops (hashmap_insert_all int_ops (hashmap_alloc int_ops)
          [⟨1, 10⟩, ⟨17, 20⟩, ⟨2, 30⟩]).1 p.key = some p.value) :=
  ⟨int_ops_lawful, by unfold distinct; decide,
    round_trip int_ops int_ops_lawful [⟨1, 10⟩, ⟨17, 20⟩, ⟨2, 30⟩] (by unfold distinct; decide)⟩

/-- C2 (no duplicate keys): on a reachable table, `hashmap_insert` of a pair whose key equals
the key of a stored pair returns 0 and returns the table as it was (same buckets, same size,
same capacity, hence same load factor), and `hashmap_at` still gives the old value for that
key. -/
theorem no_duplicate_keys (e : ops K V) (hl : lawful e) (m : hashmap K V) (hr : reachable e m)
    (p q : pair K V) (hq : q ∈ entries m) (hk : e.key_cmp q.key p.key = true) :
    (hashmap_insert e m p).2 = 0 ∧
    (hashmap_insert e m p).1 = m ∧
    (hashmap_insert e m p).1.buckets = m.buckets ∧
    (hashmap_insert e m p).1.size = m.size ∧
    (hashmap_insert e m p).1.capacity = m.capacity ∧
    hashmap_get_load_factor (hashmap_insert e m p).1 = hashmap_get_load_factor m ∧
    hashmap_at e m p.key = some q.value ∧
    hashmap_at e (hashmap_insert e m p).1 p.key = some q.value := by
  have hw := reachable_wf e hl m hr
  have hat : hashmap_at e m p.key = some q.value :=
    (hashmap_at_some_iff e hl m hw p.key q.value).2 ⟨q, hq, hk, rfl⟩
  rw [insert_found e m p q.value hat]
  exact ⟨rfl, rfl, rfl, rfl, rfl, rfl, hat, hat⟩

/-- An instance of the refused duplicate: the key 1 is stored with the value 10 and a pair with
the key 1 and the value 99 is inserted. -/
theorem no_duplicate_keys_witness :
    lawful int_ops ∧
    reachable int_ops (hashmap_insert int_ops (hashmap_alloc int_ops) ⟨1, 10⟩).1 ∧
    (⟨1, 10⟩ : pair Int Int) ∈ entries (hashmap_insert int_ops (hashmap_alloc int_ops) ⟨1, 10⟩).1 ∧
    int_ops.key_cmp (⟨1, 10⟩ : pair Int Int).key (⟨1, 99⟩ : pair Int Int).key = true ∧
    ((hashmap_insert int_ops (hashmap_insert int_ops (hashmap_alloc int_ops) ⟨1, 10⟩).1
        ⟨1, 99⟩).2 = 0 ∧
      (hashmap_insert int_ops (hashmap_insert int_ops (hashmap_alloc int_ops) ⟨1, 10⟩).1
        ⟨1, 99⟩).1 = (hashmap_insert int_ops (hashmap_alloc int_ops) ⟨1, 10⟩).1 ∧
      (hashmap_insert int_ops (hashmap_insert int_ops (hashmap_alloc int_ops) ⟨1, 10⟩).1
        ⟨1, 99⟩).1.buckets = (hashmap_insert int_ops (hashmap_alloc int_ops) ⟨1, 10⟩).1.buckets ∧
      (hashmap_insert int_ops (hashmap_insert int_ops (hashmap_alloc int_ops) ⟨1, 10⟩).1
        ⟨1, 99⟩).1.size = (hashmap_insert int_ops (hashmap_alloc int_ops) ⟨1, 10⟩).1.size ∧
      (hashmap_insert int_ops (hashmap_insert int_ops (hashmap_alloc int_ops) ⟨1, 10⟩).1
        ⟨1, 99⟩).1.capacity =
          (hashmap_insert int_ops (hashmap_alloc int_ops) ⟨1, 10⟩).1.capacity ∧
      hashmap_get_load_factor (hashmap_insert int_ops
        (hashmap_insert int_ops (hashmap_alloc int_ops) ⟨1, 10⟩).1 ⟨1, 99⟩).1 =
        hashmap_get_load_factor (hashmap_insert int_ops (hashmap_alloc int_ops) ⟨1, 10⟩).1 ∧
      hashmap_at int_ops (hashmap_insert int_ops (hashmap_alloc int_ops) ⟨1, 10⟩).1
        (⟨1, 99⟩ : pair Int Int).key = some (⟨1, 10⟩ : pair Int Int).value ∧
      hashmap_at int_ops (hashmap_insert int_ops
        (hashmap_insert int_ops (hashmap_alloc int_ops) ⟨1, 10⟩).1 ⟨1, 99⟩).1
        (⟨1, 99⟩ : pair Int Int).key = some (⟨1, 10⟩ : pair Int Int).value) :=
  ⟨int_ops_lawful, reachable.insert _ _ reachable.alloc, by decide, by decide,
    no_duplicate_keys int_ops int_ops_lawful _ (reachable.insert _ _ reachable.alloc)
      ⟨1, 99⟩ ⟨1, 10⟩ (by decide) (by decide)⟩

/-- C3 (erase then lookup): on a reachable table, when `hashmap_erase` of a key returns 1, then
`hashmap_at` of that key is absent in the resulting table and `hashmap_contains_key` is 0,
whether or not the erase ran a shrinking rehash. -/
theorem erase_then_lookup (e : ops K V) (hl : lawful e) (m : hashmap K V) (hr : reachable e m)
    (key : K) (h : (hashmap_erase e m key).2 = 1) :
    hashmap_at e (hashmap_erase e m key).1 key = none ∧
    hashmap_contains_key e (hashmap_erase e m key).1 key = 0 := by
  have hw := reachable_wf e hl m hr
  obtain ⟨p, hash, idx, hp⟩ := erase_ret_one e m key h
  obtain ⟨_, _, _, _, hc⟩ := hashmap_pair_at_some e m key p hash idx hp
  obtain ⟨_, _, g3, g4, _⟩ := erase_found e hl m hw key p hash idx hp
  have hu : distinct e (p :: entries (hashmap_erase e m key).1) := by
    unfold distinct
    rw [← List.Perm.pairwise_iff (fun {x y} hxy => distinct_symm e hl hxy) g3]
    exact hw.uniq
  have hnone : hashmap_at e (hashmap_erase e m key).1 key = none := by
    rw [hashmap_at_none_iff e hl _ g4 key]
    intro q hq
    cases hqk : e.key_cmp q.key key with
    | false => rfl
    | true =>
      have h1 := (List.pairwise_cons.1 hu).1 q hq
      rw [hl.key_trans _ _ _ hc (hl.key_symm _ _ hqk)] at h1
      cases h1
  refine ⟨hnone, ?_⟩
  unfold hashmap_contains_key
  rw [hnone]
  rfl

/-- An instance of erase followed by lookup: the only stored key is erased, which runs a shrinking
rehash. -/
theorem erase_then_lookup_witness :
    lawful int_ops ∧
    reachable int_ops (hashmap_insert int_ops (hashmap_alloc int_ops) ⟨1, 10⟩).1 ∧
    (hashmap_erase int_ops (hashmap_insert int_ops (hashmap_alloc int_ops) ⟨1, 10⟩).1 1).2 = 1 ∧
    (hashmap_at int_ops
        (hashmap_erase int_ops (hashmap_insert int_ops (hashmap_alloc int_ops) ⟨1, 10⟩).1 1).1 1
        = none ∧
      hashmap_contains_key int_ops
        (hashmap_erase int_ops (hashmap_insert int_ops (hashmap_alloc int_ops) ⟨1, 10⟩).1 1).1 1
        = 0) :=
  ⟨int_ops_lawful, reachable.insert _ _ reachable.alloc, by decide,
    erase_then_lookup int_ops int_ops_lawful _ (reachable.insert _ _ reachable.alloc) 1
      (by decide)⟩

/-- C4 (erase leaves the other keys intact): on a reachable table that stores the key `key`,
`hashmap_erase` returns 1, the size decreases by exactly 1, and for every key that differs
from `key` the result of `hashmap_at` is the same as before, also when both keys share a
bucket and the swap-with-last removal moved the other pair. -/
theorem erase_keeps_others (e : ops K V) (hl : lawful e) (m : hashmap K V) (hr : reachable e m)
    (key : K) (hk : stored e m key) :
    (hashmap_erase e m key).2 = 1 ∧
    (hashmap_erase e m key).1.size + 1 = m.size ∧
    ∀ key1, e.key_cmp key1 key = false →
      hashmap_at e (hashmap_erase e m key).1 key1 = hashmap_at e m key1 := by
  obtain ⟨g1, g2, _, _, g5⟩ := erase_stored e hl m (reachable_wf e hl m hr) key hk
  exact ⟨g1, g2, g5⟩

/-- An instance of an erase next to another key: the keys 1 and 17 share a bucket and the key 1 is
erased. -/
theorem erase_keeps_others_witness :
    lawful int_ops ∧
    reachable int_ops (hashmap_insert int_ops
      (hashmap_insert int_ops (hashmap_alloc int_ops) ⟨1, 10⟩).1 ⟨17, 20⟩).1 ∧
    stored int_ops (hashmap_insert int_ops
      (hashmap_insert int_ops (hashmap_alloc int_ops) ⟨1, 10⟩).1 ⟨17, 20⟩).1 1 ∧
    ((hashmap_erase int_ops (hashmap_insert int_ops
        (hashmap_insert int_ops (hashmap_alloc int_ops) ⟨1, 10⟩).1 ⟨17, 20⟩).1 1).2 = 1 ∧
      (hashmap_erase int_ops (hashmap_insert int_ops
        (hashmap_insert int_ops (hashmap_alloc int_ops) ⟨1, 10⟩).1 ⟨17, 20⟩).1 1).1.size + 1 =
        (hashmap_insert int_ops
          (hashmap_insert int_ops (hashmap_alloc int_ops) ⟨1, 10⟩).1 ⟨17, 20⟩).1.size ∧
      ∀ key1, int_ops.key_cmp key1 1 = false →
        hashmap_at int_ops (hashmap_erase int_ops (hashmap_insert int_ops
          (hashmap_insert int_ops (hashmap_alloc int_ops) ⟨1, 10⟩).1 ⟨17, 20⟩).1 1).1 key1 =
        hashmap_at int_ops (hashmap_insert int_ops
          (hashmap_insert int_ops (hashmap_alloc int_ops) ⟨1, 10⟩).1 ⟨17, 20⟩).1 key1) :=
  ⟨int_ops_lawful, reachable.insert _ _ (reachable.insert _ _ reachable.alloc),
    ⟨⟨1, 10⟩, by decide, by decide⟩,
    erase_keeps_others int_ops int_ops_lawful _
      (reachable.insert _ _ (reachable.insert _ _ reachable.alloc)) 1
      ⟨⟨1, 10⟩, by decide, by decide⟩⟩

theorem pair_at_none_of_not_stored (e : ops K V) (m : hashmap K V) (key : K)
    (hk : ¬ stored e m key) : hashmap_pair_at e m key = none := by
  cases hp : hashmap_pair_at e m key with
  | none => rfl
  | some r =>
    obtain ⟨p, hash, idx⟩ := r
    obtain ⟨_, b, hb, hi, hc⟩ := hashmap_pair_at_some e m key p hash idx hp
    exact absurd ⟨p, (mem_entries m p).2 ⟨hash, b, hb, List.mem_iff_getElem?.2 ⟨idx, hi⟩⟩, hc⟩ hk

/-- C5 (erasing an absent key): on a reachable table that does not store the key,
`hashmap_erase` returns 0 and returns the table as it was (same buckets, same size, same
capacity); `hashmap_erase_pair` already returns 0, so `hashmap_resize` is not run. -/
theorem erase_absent_key (e : ops K V) (m : hashmap K V) (_hr : reachable e m)
    (key : K) (hk : ¬ stored e m key) :
    (hashmap_erase e m key).2 = 0 ∧
    (hashmap_erase e m key).1 = m ∧
    (hashmap_erase e m key).1.buckets = m.buckets ∧
    (hashmap_erase e m key).1.size = m.size ∧
    (hashmap_erase e m key).1.capacity = m.capacity ∧
    hashmap_erase_pair e m key = (m, 0) := by
  have hnone : hashmap_at e m key = none :=
    (hashmap_at_none e m key).2 (pair_at_none_of_not_stored e m key hk)
  rw [erase_absent e m key hnone, erase_pair_absent e m key hnone]
  exact ⟨rfl, rfl, rfl, rfl, rfl, rfl⟩

/-- An instance of the erase of an absent key: the key 17 is erased from a table that stores only the
key 1, in the bucket that 17 also hashes to. -/
theorem erase_absent_key_witness :
    reachable int_ops (hashmap_insert int_ops (hashmap_alloc int_ops) ⟨1, 10⟩).1 ∧
    ¬ stored int_ops (hashmap_insert int_ops (hashmap_alloc int_ops) ⟨1, 10⟩).1 17 ∧
    (hashmap_erase int_ops (hashmap_insert int_ops (hashmap_alloc int_ops) ⟨1, 10⟩).1 17).2 = 0 ∧
    (hashmap_erase int_ops (hashmap_insert int_ops (hashmap_alloc int_ops) ⟨1, 10⟩).1 17).1 =
      (hashmap_insert int_ops (hashmap_alloc int_ops) ⟨1, 10⟩).1 ∧
    (hashmap_erase int_ops
      (hashmap_insert int_ops (hashmap_alloc int_ops) ⟨1, 10⟩).1 17).1.buckets =
      (hashmap_insert int_ops (hashmap_alloc int_ops) ⟨1, 10⟩).1.buckets ∧
    (hashmap_erase int_ops (hashmap_insert int_ops (hashmap_alloc int_ops) ⟨1, 10⟩).1 17).1.size =
      (hashmap_insert int_ops (hashmap_alloc int_ops) ⟨1, 10⟩).1.size ∧
    (hashmap_erase int_ops
      (hashmap_insert int_ops (hashmap_alloc int_ops) ⟨1, 10⟩).1 17).1.capacity =
      (hashmap_insert int_ops (hashmap_alloc int_ops) ⟨1, 10⟩).1.capacity ∧
    hashmap_erase_pair int_ops (hashmap_insert int_ops (hashmap_alloc int_ops) ⟨1, 10⟩).1 17 =
      ((hashmap_insert int_ops (hashmap_alloc int_ops) ⟨1, 10⟩).1, 0) :=
  ⟨reachable.insert _ _ reachable.alloc, by unfold stored; decide,
    erase_absent_key int_ops _ (reachable.insert _ _ reachable.alloc) 17
      (by unfold stored; decide)⟩

/-! ## The concrete resize scenario -/

theorem distinct_of_nodup (e : ops K V) (hk : ∀ a b, e.key_cmp a b = true ↔ a = b)
    (ps : List (pair K V)) (hd : (ps.map (fun p => p.key)).Nodup) : distinct e ps := by
  unfold distinct
  unfold List.Nodup at hd
  rw [List.pairwise_map] at hd
  refine hd.imp ?_
  intro p q hne
  cases h : e.key_cmp p.key q.key with
  | false => rfl
  | true => exact absurd ((hk _ _).1 h) hne

theorem fresh_alloc (e : ops K V) (ps : List (pair K V)) :
    ∀ p ∈ ps, ∀ q ∈ entries (hashmap_alloc e), e.key_cmp q.key p.key = false := by
  intro p _ q hq
  unfold hashmap_alloc at hq
  rw [entries_init_hashmap] at hq
  cases hq

/-- C6 (concrete resize scenario): with key equality deciding equality of keys and any hash
function, inserting 13 pairs with different keys into a fresh table (capacity 16) leaves the
capacity at 16 through the 12th insert and makes it 32 at the 13th; erasing stored keys one
by one then keeps the capacity at 32 while 8 or more pairs remain (up to 5 erases) and makes
it 16 when 7 remain (6 erases), and `hashmap_at` still returns the value of each of the 7
remaining keys. -/
theorem concrete_resize_scenario (e : ops K V) (hk : ∀ a b, e.key_cmp a b = true ↔ a = b)
    (ps : List (pair K V)) (hlen : ps.length = 13) (hd : (ps.map (fun p => p.key)).Nodup) :
    (hashmap_alloc e).capacity = 16 ∧
    (∀ n, n ≤ 12 → (hashmap_insert_all e (hashmap_alloc e) (ps.take n)).1.capacity = 16) ∧
    (hashmap_insert_all e (hashmap_alloc e) ps).1.capacity = 32 ∧
    ∀ ks : List K, ks.Nodup → (∀ k ∈ ks, k ∈ ps.map (fun p => p.key)) →
      (ks.length ≤ 5 →
        (hashmap_erase_all e (hashmap_insert_all e (hashmap_alloc e) ps).1 ks).capacity = 32) ∧
      (ks.length = 6 →
        (hashmap_erase_all e (hashmap_insert_all e (hashmap_alloc e) ps).1 ks).capacity = 16 ∧
        (hashmap_erase_all e (hashmap_insert_all e (hashmap_alloc e) ps).1 ks).size = 7 ∧
        ∀ p ∈ ps, p.key ∉ ks →
          hashmap_at e (hashmap_erase_all e (hashmap_insert_all e (hashmap_alloc e) ps).1 ks)
            p.key = some p.value) := by
  have hl := lawful_of_eq e hk
  have hdist := distinct_of_nodup e hk ps hd
  have hcap0 : (hashmap_alloc e).capacity = 16 := rfl
  have hsize0 : (hashmap_alloc e).size = 0 := rfl
  refine ⟨hcap0, ?_, ?_, ?_⟩
  · intro n hn
    have hdn : distinct e (ps.take n) := List.Pairwise.sublist (List.take_sublist n ps) hdist
    rw [insert_all_capacity e hl (ps.take n) (hashmap_alloc e) (wf_alloc e) hdn
      (fresh_alloc e _), hcap0, hsize0, List.length_take, hlen]
    have : min n 13 = n := by omega
    rw [this]
    interval_cases n <;> decide
  · rw [insert_all_capacity e hl ps (hashmap_alloc e) (wf_alloc e) hdist (fresh_alloc e _),
      hcap0, hsize0, hlen]
    decide
  · intro ks hks hmem
    obtain ⟨_, _, g3, g4, g5⟩ :=
      insert_all_ok e hl ps (hashmap_alloc e) (wf_alloc e) hdist (fresh_alloc e _)
    have hc13 : (hashmap_insert_all e (hashmap_alloc e) ps).1.capacity = 32 := by
      rw [insert_all_capacity e hl ps (hashmap_alloc e) (wf_alloc e) hdist (fresh_alloc e _),
        hcap0, hsize0, hlen]
      decide
    have hs13 : (hashmap_insert_all e (hashmap_alloc e) ps).1.size = 13 := by
      rw [g3, hsize0, hlen]
    have hpw : ks.Pairwise (fun a b => e.key_cmp a b = false) := by
      unfold List.Nodup at hks
      refine hks.imp ?_
      intro a b hne
      cases h : e.key_cmp a b with
      | false => rfl
      | true => exact absurd ((hk _ _).1 h) hne
    have hst : ∀ k ∈ ks, stored e (hashmap_insert_all e (hashmap_alloc e) ps).1 k := by
      intro k hkm
      obtain ⟨p, hp, hpk⟩ := List.mem_map.1 (hmem k hkm)
      exact ⟨p, g4.symm.subset (List.mem_append_left _ hp), (hk _ _).2 hpk⟩
    obtain ⟨_, f2, f3, f4⟩ := erase_all_ok e hl ks _ g5 hpw hst
    rw [hc13, hs13] at f3
    rw [hs13] at f2
    constructor
    · intro h5
      rw [f3]
      generalize ks.length = j at h5
      interval_cases j <;> decide
    · intro h6
      rw [h6] at f3 f2
      refine ⟨by rw [f3]; decide, by omega, ?_⟩
      intro p hp hpk
      rw [f4 p.key]
      · exact at_of_mem e hl _ g5 p (g4.symm.subset (List.mem_append_left _ hp))
      · intro k hkm
        cases h : e.key_cmp p.key k with
        | false => rfl
        | true => exact absurd ((hk _ _).1 h ▸ hkm) hpk

theorem int_ops_key_cmp (a b : Int) : int_ops.key_cmp a b = true ↔ a = b := by
  simp [int_ops]

/-- An instance of the resize scenario: the integer keys 0 to 12 with `hash_int`. -/
theorem concrete_resize_scenario_witness :
    (∀ a b, int_ops.key_cmp a b = true ↔ a = b) ∧ thirteen_pairs.length = 13 ∧
    (thirteen_pairs.map (fun p => p.key)).Nodup ∧
    ((hashmap_alloc int_ops).capacity = 16 ∧
    (∀ n, n ≤ 12 →
      (hashmap_insert_all int_ops (hashmap_alloc int_ops) (thirteen_pairs.take n)).1.capacity
        = 16) ∧
    (hashmap_insert_all int_ops (hashmap_alloc int_ops) thirteen_pairs).1.capacity = 32 ∧
    ∀ ks : List Int, ks.Nodup → (∀ k ∈ ks, k ∈ thirteen_pairs.map (fun p => p.key)) →
      (ks.length ≤ 5 →
        (hashmap_erase_all int_ops
          (hashmap_insert_all int_ops (hashmap_alloc int_ops) thirteen_pairs).1 ks).capacity
          = 32) ∧
      (ks.length = 6 →
        (hashmap_erase_all int_ops
          (hashmap_insert_all int_ops (hashmap_alloc int_ops) thirteen_pairs).1 ks).capacity
          = 16 ∧
        (hashmap_erase_all int_ops
          (hashmap_insert_all int_ops (hashmap_alloc int_ops) thirteen_pairs).1 ks).size = 7 ∧
        ∀ p ∈ thirteen_pairs, p.key ∉ ks →
          hashmap_at int_ops (hashmap_erase_all int_ops
            (hashmap_insert_all int_ops (hashmap_alloc int_ops) thirteen_pairs).1 ks)
            p.key = some p.value)) :=
  ⟨int_ops_key_cmp, by decide, by decide,
    concrete_resize_scenario int_ops int_ops_key_cmp thirteen_pairs (by decide) (by decide)⟩

/-! ## The load factor -/

theorem clear_resize_capacity_le (e : ops K V) (hl : lawful e) :
    ∀ (j : Nat) (m : hashmap K V), wf e m → m.size = 0 → m.capacity ≤ 16 * 2 ^ j →
      (hashmap_clear_resize e j m).capacity ≤ 16
  | 0, m, _, _, hc => by simpa [hashmap_clear_resize] using hc
  | j + 1, m, hw, hs, hc => by
    obtain ⟨_, g2, _, g4⟩ := resize_ok e hl m hw ERASE_ELEMENT
    have g5 := resize_erase_capacity e hl m hw
    simp only [hashmap_clear_resize]
    apply clear_resize_capacity_le e hl j _ g4 (by rw [g2, hs])
    rw [g5]
    have h1 : 1 ≤ 2 ^ j := Nat.one_le_two_pow
    rw [pow_succ] at hc
    split <;> omega

theorem clear_capacity_le (e : ops K V) (hl : lawful e) (m : hashmap K V) (hw : wf e m)
    (hc : m.capacity ≤ 16 ∨ m.capacity ≤ 4 * m.size) : (hashmap_clear e m).capacity ≤ 16 := by
  obtain ⟨g1, g2, g3, g4, _⟩ := clear_buckets_eq m.buckets m.size 0
  have hsz : m.size = (m.buckets.flatMap (fun b => b.data)).length := hw.size_eq
  unfold hashmap_clear
  simp only
  apply clear_resize_capacity_le e hl
  · apply wf_of_entries_nil
    · simp only; rw [g1, hw.len]
    · exact hw.pow
    · exact g2
    · simp only; omega
  · simp only; omega
  · simp only
    rw [g4, ← hsz, Nat.zero_add]
    have h1 : m.size < 2 ^ m.size := Nat.lt_two_pow m.size
    omega

theorem reachable_load (e : ops K V) (hl : lawful e) (m : hashmap K V) (hr : reachable e m) :
    4 * m.size ≤ 3 * m.capacity ∧ (m.capacity ≤ 16 ∨ m.capacity ≤ 4 * m.size) := by
  induction hr with
  | alloc =>
    have h1 : (hashmap_alloc e).size = 0 := rfl
    have h2 : (hashmap_alloc e).capacity = 16 := rfl
    rw [h1, h2]
    exact ⟨by decide, Or.inl (by decide)⟩
  | insert m p hr ih =>
    have hw := reachable_wf e hl m hr
    have h2 := capacity_ge_two e m hw
    cases h : hashmap_at e m p.key with
    | some v => rw [insert_found e m p v h]; exact ih
    | none =>
      obtain ⟨_, g2, _, _, g5⟩ := insert_absent e hl m hw p h
      rw [g2, g5]
      split <;> omega
  | erase m k hr ih =>
    have hw := reachable_wf e hl m hr
    have h2 := capacity_ge_two e m hw
    cases h : hashmap_pair_at e m k with
    | none => rw [erase_absent e m k ((hashmap_at_none e m k).2 h)]; exact ih
    | some r =>
      obtain ⟨p, hash, idx⟩ := r
      obtain ⟨_, g2, _, _, g5⟩ := erase_found e hl m hw k p hash idx h
      have hs : (hashmap_erase e m k).1.size = m.size - 1 := by omega
      rw [g5, hs]
      split <;> omega
  | clear m hr ih =>
    have hw := reachable_wf e hl m hr
    have h1 := (clear_ok e hl m hw).2
    have h2 := clear_capacity_le e hl m hw ih.2
    rw [h1]
    exact ⟨by omega, Or.inl h2⟩

theorem thirteen_pairs_capacity :
    (hashmap_insert_all int_ops (hashmap_alloc int_ops) thirteen_pairs).1.capacity = 32 := by
  rw [insert_all_capacity int_ops int_ops_lawful thirteen_pairs (hashmap_alloc int_ops)
    (wf_alloc int_ops) (by unfold distinct; decide) (fresh_alloc int_ops _)]
  decide

/-- C7, the claim as worded fails: one `hashmap_insert` into a fresh table gives a reachable
table of size 1 and capacity 16, whose load factor 1/16 is below 0.25 although the capacity is
not 2. -/
theorem load_factor_bound_counterexample :
    reachable int_ops (hashmap_insert int_ops (hashmap_alloc int_ops) ⟨1, 10⟩).1 ∧
    (hashmap_insert int_ops (hashmap_alloc int_ops) ⟨1, 10⟩).1.size = 1 ∧
    (hashmap_insert int_ops (hashmap_alloc int_ops) ⟨1, 10⟩).1.capacity = 16 ∧
    hashmap_get_load_factor (hashmap_insert int_ops (hashmap_alloc int_ops) ⟨1, 10⟩).1 < 1 / 4 ∧
    ¬ load_factor_bound (hashmap_insert int_ops (hashmap_alloc int_ops) ⟨1, 10⟩).1 := by
  have hs : (hashmap_insert int_ops (hashmap_alloc int_ops) ⟨1, 10⟩).1.size = 1 := by decide
  have hc : (hashmap_insert int_ops (hashmap_alloc int_ops) ⟨1, 10⟩).1.capacity = 16 := by
    decide
  have hlt : hashmap_get_load_factor
      (hashmap_insert int_ops (hashmap_alloc int_ops) ⟨1, 10⟩).1 < 1 / 4 := by
    rw [load_factor_lt_min _ (by rw [hc]; decide), hc, hs]
    decide
  refine ⟨reachable.insert _ _ reachable.alloc, hs, hc, hlt, ?_⟩
  rintro (⟨h1, _⟩ | ⟨h2, _⟩)
  · exact absurd hlt (not_lt.2 h1)
  · rw [hc] at h2
    exact absurd h2 (by decide)

/-- C7 (amended): on every table reached from `hashmap_alloc` by `hashmap_insert`,
`hashmap_erase` and `hashmap_clear`, `size / capacity` is at most 0.75, and it is at least 0.25
whenever the capacity exceeds the initial 16 buckets. -/
theorem load_factor_bound_amended (e : ops K V) (hl : lawful e) (m : hashmap K V)
    (hr : reachable e m) :
    hashmap_get_load_factor m ≤ 3 / 4 ∧
    (HASH_MAP_INITIAL_CAP < m.capacity → 1 / 4 ≤ hashmap_get_load_factor m) := by
  obtain ⟨h1, h2⟩ := reachable_load e hl m hr
  have hc := capacity_ne_zero e m (reachable_wf e hl m hr)
  rw [load_factor_le_max m hc, load_factor_ge_min m hc]
  refine ⟨h1, fun h => ?_⟩
  unfold HASH_MAP_INITIAL_CAP at h
  omega

/-- An instance of the load factor bounds: the table of thirteen integer keys, at
capacity 32. -/
theorem load_factor_bound_amended_witness :
    lawful int_ops ∧
    reachable int_ops (hashmap_insert_all int_ops (hashmap_alloc int_ops) thirteen_pairs).1 ∧
    HASH_MAP_INITIAL_CAP <
      (hashmap_insert_all int_ops (hashmap_alloc int_ops) thirteen_pairs).1.capacity ∧
    hashmap_get_load_factor
      (hashmap_insert_all int_ops (hashmap_alloc int_ops) thirteen_pairs).1 ≤ 3 / 4 ∧
    1 / 4 ≤ hashmap_get_load_factor
      (hashmap_insert_all int_ops (hashmap_alloc int_ops) thirteen_pairs).1 :=
  ⟨int_ops_lawful, reachable_insert_all int_ops _ reachable.alloc thirteen_pairs,
    by rw [thirteen_pairs_capacity]; decide,
    (load_factor_bound_amended int_ops int_ops_lawful _
      (reachable_insert_all int_ops _ reachable.alloc thirteen_pairs)).1,
    (load_factor_bound_amended int_ops int_ops_lawful _
      (reachable_insert_all int_ops _ reachable.alloc thirteen_pairs)).2
      (by rw [thirteen_pairs_capacity]; decide)⟩

/-! ## The capacity -/

theorem insert_pair_shape (e : ops K V) (m : hashmap K V) (p : pair K V) :
    (hashmap_insert_pair e m p).1.capacity = m.capacity ∧
    (hashmap_insert_pair e m p).1.buckets.length = m.buckets.length := by
  unfold hashmap_insert_pair
  split
  · exact ⟨rfl, rfl⟩
  · refine ⟨rfl, ?_⟩
    simp only
    split <;> simp

theorem restore_shape (e : ops K V) :
    ∀ (l : List (pair K V)) (m : hashmap K V),
      (hashmap_restore_elements e m l).1.capacity = m.capacity ∧
      (hashmap_restore_elements e m l).1.buckets.length = m.buckets.length
  | [], _ => ⟨rfl, rfl⟩
  | p :: ps, m => by
    obtain ⟨h1, h2⟩ := insert_pair_shape e m p
    simp only [hashmap_restore_elements]
    split
    · exact ⟨h1, h2⟩
    · obtain ⟨g1, g2⟩ := restore_shape e ps (hashmap_insert_pair e m p).1
      exact ⟨g1.trans h1, g2.trans h2⟩

theorem rehash_shape (e : ops K V) (m : hashmap K V) (f : Nat × Nat) :
    (hashmap_rehash e m f).capacity = max (f.1 * m.capacity / f.2) MIN_CAPACITY ∧
    (hashmap_rehash e m f).buckets.length = max (f.1 * m.capacity / f.2) MIN_CAPACITY := by
  unfold hashmap_rehash
  simp only
  obtain ⟨g1, g2⟩ := restore_shape e (hashmap_backup_elements e m).data
    (init_hashmap e (max (f.1 * (hashmap_free_buckets m).capacity / f.2) MIN_CAPACITY))
  rw [g1, g2]
  simp [init_hashmap, hashmap_free_buckets]

theorem resize_shape (e : ops K V) (m : hashmap K V) (mode : Nat) (h : shape m) :
    shape (hashmap_resize e m mode).1 := by
  obtain ⟨hlen, n, hn, hc⟩ := h
  unfold hashmap_resize
  split
  · exact ⟨hlen, n, hn, hc⟩
  · split
    · obtain ⟨g1, g2⟩ := rehash_shape e m HASH_MAP_GROWTH_FACTOR
      have := grow_capacity n
      rw [← hc] at this
      exact ⟨g2.trans g1.symm, n + 1, by omega, g1.trans this⟩
    · split
      · obtain ⟨g1, g2⟩ := rehash_shape e m HASH_MAP_REDUCTION_FACTOR
        have := shrink_capacity n hn
        rw [← hc] at this
        exact ⟨g2.trans g1.symm, max (n - 1) 1, by omega, g1.trans this⟩
      · exact ⟨hlen, n, hn, hc⟩

theorem insert_shape (e : ops K V) (m : hashmap K V) (p : pair K V) (h : shape m) :
    shape (hashmap_insert e m p).1 := by
  obtain ⟨h1, h2⟩ := insert_pair_shape e m p
  have hs : shape (hashmap_insert_pair e m p).1 := ⟨by rw [h2, h1, h.1], by rw [h1]; exact h.2⟩
  unfold hashmap_insert
  simp only
  split
  · exact hs
  · split <;> exact resize_shape e _ _ hs

theorem erase_pair_shape (e : ops K V) (m : hashmap K V) (key : K) :
    (hashmap_erase_pair e m key).1.capacity = m.capacity ∧
    (hashmap_erase_pair e m key).1.buckets.length = m.buckets.length := by
  unfold hashmap_erase_pair
  split
  · exact ⟨rfl, rfl⟩
  · split
    · exact ⟨rfl, rfl⟩
    · simp only
      split <;> simp

theorem erase_shape (e : ops K V) (m : hashmap K V) (key : K) (h : shape m) :
    shape (hashmap_erase e m key).1 := by
  obtain ⟨h1, h2⟩ := erase_pair_shape e m key
  have hs : shape (hashmap_erase_pair e m key).1 := ⟨by rw [h2, h1, h.1], by rw [h1]; exact h.2⟩
  unfold hashmap_erase
  simp only
  split
  · exact hs
  · split <;> exact resize_shape e _ _ hs

theorem clear_resize_shape (e : ops K V) :
    ∀ (n : Nat) (m : hashmap K V), shape m → shape (hashmap_clear_resize e n m)
  | 0, _, h => h
  | n + 1, m, h => clear_resize_shape e n _ (resize_shape e m ERASE_ELEMENT h)

theorem clear_shape (e : ops K V) (m : hashmap K V) (h : shape m) :
    shape (hashmap_clear e m) := by
  obtain ⟨g1, _⟩ := clear_buckets_eq m.buckets m.size 0
  unfold hashmap_clear
  simp only
  apply clear_resize_shape
  exact ⟨g1.trans h.1, h.2⟩

theorem reachable_shape (e : ops K V) (m : hashmap K V) (hr : reachable e m) : shape m := by
  induction hr with
  | alloc => exact ⟨by simp [hashmap_alloc, init_hashmap], 4, by decide, rfl⟩
  | insert m p _ ih => exact insert_shape e m p ih
  | erase m k _ ih => exact erase_shape e m k ih
  | clear m _ ih => exact clear_shape e m ih

/-- C8 (capacity invariant): on every reachable table the capacity is a power of two and is at
least 2, there is one bucket per unit of capacity, and for every key the index
`hash_func (key) & (capacity - 1)` equals `hash_func (key) mod capacity` and is the index of
a bucket. -/
theorem capacity_power_of_two (e : ops K V) (m : hashmap K V) (hr : reachable e m) :
    (∃ n, 1 ≤ n ∧ m.capacity = 2 ^ n) ∧
    MIN_CAPACITY ≤ m.capacity ∧
    m.buckets.length = m.capacity ∧
    ∀ key, hashmap_hash_func e m key = e.hash_func key % m.capacity ∧
      hashmap_hash_func e m key < m.buckets.length := by
  obtain ⟨hlen, n, hn, hc⟩ := reachable_shape e m hr
  have h2 : 2 ^ 1 ≤ 2 ^ n := Nat.pow_le_pow_right (by decide) hn
  refine ⟨⟨n, hn, hc⟩, by rw [hc]; exact h2, hlen, ?_⟩
  intro key
  have heq : hashmap_hash_func e m key = e.hash_func key % m.capacity := by
    unfold hashmap_hash_func
    rw [hc, Nat.and_pow_two_sub_one_eq_mod]
  refine ⟨heq, ?_⟩
  rw [heq, hlen]
  exact Nat.mod_lt _ (by rw [hc]; exact Nat.pos_pow_of_pos n (by decide))

/-- An instance of the capacity invariant: the table of thirteen integer keys after
`hashmap_clear`. -/
theorem capacity_power_of_two_witness :
    reachable int_ops
      (hashmap_clear int_ops
        (hashmap_insert_all int_ops (hashmap_alloc int_ops) thirteen_pairs).1) ∧
    ((∃ n, 1 ≤ n ∧ (hashmap_clear int_ops
        (hashmap_insert_all int_ops (hashmap_alloc int_ops) thirteen_pairs).1).capacity = 2 ^ n) ∧
    MIN_CAPACITY ≤ (hashmap_clear int_ops
        (hashmap_insert_all int_ops (hashmap_alloc int_ops) thirteen_pairs).1).capacity ∧
    (hashmap_clear int_ops
        (hashmap_insert_all int_ops (hashmap_alloc int_ops) thirteen_pairs).1).buckets.length =
      (hashmap_clear int_ops
        (hashmap_insert_all int_ops (hashmap_alloc int_ops) thirteen_pairs).1).capacity ∧
    ∀ key, hashmap_hash_func int_ops (hashmap_clear int_ops
        (hashmap_insert_all int_ops (hashmap_alloc int_ops) thirteen_pairs).1) key =
        int_ops.hash_func key % (hashmap_clear int_ops
          (hashmap_insert_all int_ops (hashmap_alloc int_ops) thirteen_pairs).1).capacity ∧
      hashmap_hash_func int_ops (hashmap_clear int_ops
        (hashmap_insert_all int_ops (hashmap_alloc int_ops) thirteen_pairs).1) key <
        (hashmap_clear int_ops
          (hashmap_insert_all int_ops (hashmap_alloc int_ops) thirteen_pairs).1).buckets.length) :=
  ⟨reachable.clear _ (reachable_insert_all int_ops _ reachable.alloc thirteen_pairs),
    capacity_power_of_two int_ops _
      (reachable.clear _ (reachable_insert_all int_ops _ reachable.alloc thirteen_pairs))⟩

/-! ## The size field -/

theorem bucket_exists_of_shape (e : ops K V) (m : hashmap K V) (h : shape m) (key : K) :
    ∃ b, m.buckets[hashmap_hash_func e m key]? = some b := by
  obtain ⟨hlen, n, _, hc⟩ := h
  have hlt : hashmap_hash_func e m key < m.buckets.length := by
    unfold hashmap_hash_func
    rw [hlen, hc, Nat.and_pow_two_sub_one_eq_mod]
    exact Nat.mod_lt _ (Nat.pos_pow_of_pos n (by decide))
  exact ⟨_, List.getElem?_eq_getElem hlt⟩

theorem insert_pair_counted (e : ops K V) (m : hashmap K V) (p : pair K V) (h : shape m)
    (hs : m.size = (entries m).length) :
    (hashmap_insert_pair e m p).1.size = (entries (hashmap_insert_pair e m p).1).length := by
  cases hat : hashmap_at e m p.key with
  | some v => rw [insert_pair_found e m p v hat]; exact hs
  | none =>
    obtain ⟨b, hb⟩ := bucket_exists_of_shape e m h p.key
    have heq := insert_pair_eq e m p b hat hb
    have hperm : (entries (hashmap_insert_pair e m p).1).Perm (p :: entries m) := by
      rw [heq]
      unfold entries
      apply entries_set_add p _ m.buckets _ b hb
      rw [vector_push_back_data, pair_copy_eq]
      exact List.perm_append_singleton p b.data
    rw [hperm.length_eq, List.length_cons, ← hs, heq]

theorem insert_pair_keeps_shape (e : ops K V) (m : hashmap K V) (p : pair K V) (h : shape m) :
    shape (hashmap_insert_pair e m p).1 := by
  obtain ⟨h1, h2⟩ := insert_pair_shape e m p
  exact ⟨by rw [h2, h1, h.1], by rw [h1]; exact h.2⟩

theorem restore_counted (e : ops K V) :
    ∀ (l : List (pair K V)) (m : hashmap K V), shape m → m.size = (entries m).length →
      (hashmap_restore_elements e m l).1.size =
        (entries (hashmap_restore_elements e m l).1).length
  | [], _, _, hs => hs
  | p :: ps, m, h, hs => by
    have h1 := insert_pair_counted e m p h hs
    simp only [hashmap_restore_elements]
    split
    · exact h1
    · exact restore_counted e ps _ (insert_pair_keeps_shape e m p h) h1

theorem rehash_counted (e : ops K V) (m : hashmap K V) (f : Nat × Nat) (n : Nat) (hn : 1 ≤ n)
    (hc : max (f.1 * m.capacity / f.2) MIN_CAPACITY = 2 ^ n) :
    (hashmap_rehash e m f).size = (entries (hashmap_rehash e m f)).length := by
  unfold hashmap_rehash
  simp only
  have hcap : (hashmap_free_buckets m).capacity = m.capacity := rfl
  rw [hcap, hc]
  apply restore_counted
  · exact ⟨by simp [init_hashmap], n, hn, rfl⟩
  · rw [entries_init_hashmap]
    rfl

theorem resize_counted (e : ops K V) (m : hashmap K V) (mode : Nat) (h : shape m)
    (hs : m.size = (entries m).length) :
    (hashmap_resize e m mode).1.size = (entries (hashmap_resize e m mode).1).length := by
  obtain ⟨_, n, hn, hc⟩ := h
  unfold hashmap_resize
  split
  · exact hs
  · split
    · have := grow_capacity n
      rw [← hc] at this
      exact rehash_counted e m _ (n + 1) (by omega) this
    · split
      · have := shrink_capacity n hn
        rw [← hc] at this
        exact rehash_counted e m _ (max (n - 1) 1) (by omega) this
      · exact hs

theorem insert_counted (e : ops K V) (m : hashmap K V) (p : pair K V) (h : shape m)
    (hs : m.size = (entries m).length) :
    (hashmap_insert e m p).1.size = (entries (hashmap_insert e m p).1).length := by
  have h1 := insert_pair_counted e m p h hs
  have h2 := insert_pair_keeps_shape e m p h
  unfold hashmap_insert
  simp only
  split
  · exact h1
  · split <;> exact resize_counted e _ _ h2 h1

theorem erase_pair_counted (e : ops K V) (m : hashmap K V) (key : K)
    (hs : m.size = (entries m).length) :
    (hashmap_erase_pair e m key).1.size = (entries (hashmap_erase_pair e m key).1).length := by
  cases hp : hashmap_pair_at e m key with
  | none => rw [erase_pair_absent e m key ((hashmap_at_none e m key).2 hp)]; exact hs
  | some r =>
    obtain ⟨p, hash, idx⟩ := r
    obtain ⟨_, b, hb, hi, _⟩ := hashmap_pair_at_some e m key p hash idx hp
    have heq := erase_pair_eq e m key p hash idx b hp hb hi
    have hbp : b.data.Perm (p :: (vector_erase b idx).1.data) := by
      rw [vector_erase_data b idx p hi]
      exact swap_erase_perm b.data idx p hi
    have hperm : (entries m).Perm (p :: entries (hashmap_erase_pair e m key).1) := by
      rw [heq]
      unfold entries
      exact entries_set_remove p _ m.buckets hash b hb hbp
    have hlen := hperm.length_eq
    rw [List.length_cons, ← hs] at hlen
    have hsz : (hashmap_erase_pair e m key).1.size = m.size - 1 := by rw [heq]
    omega

theorem erase_pair_keeps_shape (e : ops K V) (m : hashmap K V) (key : K) (h : shape m) :
    shape (hashmap_erase_pair e m key).1 := by
  obtain ⟨h1, h2⟩ := erase_pair_shape e m key
  exact ⟨by rw [h2, h1, h.1], by rw [h1]; exact h.2⟩

theorem erase_counted (e : ops K V) (m : hashmap K V) (key : K) (h : shape m)
    (hs : m.size = (entries m).length) :
    (hashmap_erase e m key).1.size = (entries (hashmap_erase e m key).1).length := by
  have h1 := erase_pair_counted e m key hs
  have h2 := erase_pair_keeps_shape e m key h
  unfold hashmap_erase
  simp only
  split
  · exact h1
  · split <;> exact resize_counted e _ _ h2 h1

theorem rehash_of_empty (e : ops K V) (m : hashmap K V) (f : Nat × Nat)
    (h : ∀ b ∈ m.buckets, b.data = []) :
    hashmap_rehash e m f = init_hashmap e (max (f.1 * m.capacity / f.2) MIN_CAPACITY) := by
  have hb : (hashmap_backup_elements e m).data = [] := by
    rw [backup_data]
    exact entries_of_all_nil _ h
  unfold hashmap_rehash
  simp only
  rw [hb]
  rfl

theorem init_hashmap_empty (e : ops K V) (c : Nat) :
    (∀ b ∈ (init_hashmap e c).buckets, b.data = []) ∧ (init_hashmap e c).size = 0 := by
  refine ⟨?_, rfl⟩
  intro b hb
  simp only [init_hashmap] at hb
  rw [List.eq_of_mem_replicate hb]
  rfl

theorem resize_of_empty (e : ops K V) (m : hashmap K V) (mode : Nat)
    (h : ∀ b ∈ m.buckets, b.data = []) (hs : m.size = 0) :
    (∀ b ∈ (hashmap_resize e m mode).1.buckets, b.data = []) ∧
    (hashmap_resize e m mode).1.size = 0 := by
  unfold hashmap_resize
  split
  · exact ⟨h, hs⟩
  · split
    · simp only
      rw [rehash_of_empty e m _ h]
      exact init_hashmap_empty e _
    · split
      · simp only
        rw [rehash_of_empty e m _ h]
        exact init_hashmap_empty e _
      · exact ⟨h, hs⟩

theorem clear_resize_of_empty (e : ops K V) :
    ∀ (n : Nat) (m : hashmap K V), (∀ b ∈ m.buckets, b.data = []) → m.size = 0 →
      (∀ b ∈ (hashmap_clear_resize e n m).buckets, b.data = []) ∧
      (hashmap_clear_resize e n m).size = 0
  | 0, _, h, hs => ⟨h, hs⟩
  | n + 1, m, h, hs => by
    obtain ⟨g1, g2⟩ := resize_of_empty e m ERASE_ELEMENT h hs
    exact clear_resize_of_empty e n _ g1 g2

theorem clear_empty (e : ops K V) (m : hashmap K V) (hs : m.size = (entries m).length) :
    (∀ b ∈ (hashmap_clear e m).buckets, b.data = []) ∧ (hashmap_clear e m).size = 0 := by
  obtain ⟨_, g2, g3, _, _⟩ := clear_buckets_eq m.buckets m.size 0
  unfold hashmap_clear
  simp only
  apply clear_resize_of_empty
  · exact g2
  · simp only
    rw [g3]
    unfold entries at hs
    omega

theorem hashmap_at_of_empty (e : ops K V) (m : hashmap K V) (key : K)
    (h : ∀ b ∈ m.buckets, b.data = []) : hashmap_at e m key = none := by
  rw [hashmap_at_none]
  unfold hashmap_pair_at
  simp only
  cases hb : m.buckets[hashmap_hash_func e m key]? with
  | none => rfl
  | some b =>
    have : b.data = [] := h b (List.mem_iff_getElem?.2 ⟨_, hb⟩)
    simp [vector.size, this]

theorem reachable_counted (e : ops K V) (m : hashmap K V) (hr : reachable e m) :
    m.size = (entries m).length := by
  induction hr with
  | alloc =>
    unfold hashmap_alloc
    rw [entries_init_hashmap]
    rfl
  | insert m p hr ih => exact insert_counted e m p (reachable_shape e m hr) ih
  | erase m k hr ih => exact erase_counted e m k (reachable_shape e m hr) ih
  | clear m _ ih =>
    obtain ⟨g1, g2⟩ := clear_empty e m ih
    unfold entries
    rw [g2, entries_of_all_nil _ g1]
    rfl

theorem all_empty_of_size (m : hashmap K V) (hs : m.size = (entries m).length)
    (h0 : m.size = 0) : ∀ b ∈ m.buckets, b.data = [] := by
  intro b hb
  rw [h0] at hs
  have hnil : entries m = [] := List.length_eq_zero.1 hs.symm
  cases hd : b.data with
  | nil => rfl
  | cons p ps =>
    have hp : p ∈ entries m := by
      unfold entries
      rw [List.mem_flatMap]
      exact ⟨b, hb, by rw [hd]; exact List.mem_cons_self p ps⟩
    rw [hnil] at hp
    cases hp

theorem insert_of_absent_ret (e : ops K V) (m : hashmap K V) (p : pair K V) (h : shape m)
    (hat : hashmap_at e m p.key = none) : (hashmap_insert e m p).2 = 1 := by
  obtain ⟨b, hb⟩ := bucket_exists_of_shape e m h p.key
  have h1 : (hashmap_insert_pair e m p).2 = 1 := by rw [insert_pair_eq e m p b hat hb]
  have h2 := insert_pair_keeps_shape e m p h
  have hc : (hashmap_insert_pair e m p).1.capacity ≠ 0 := by
    obtain ⟨_, n, _, hn⟩ := h2
    rw [hn]
    exact Nat.pos_iff_ne_zero.1 (Nat.pos_pow_of_pos n (by decide))
  have h3 : (hashmap_resize e (hashmap_insert_pair e m p).1 INSERT_ELEMENT).2 = 1 := by
    unfold hashmap_resize
    rw [if_neg hc]
    split
    · rfl
    · split <;> rfl
  unfold hashmap_insert
  simp only
  rw [if_neg (by rw [h1]; decide), if_neg (by rw [h3]; decide)]

/-! ## Key uniqueness -/

theorem countP_le_one (e : ops K V) (hl : lawful e) (key : K) :
    ∀ l : List (pair K V), distinct e l → l.countP (fun p => e.key_cmp p.key key) ≤ 1
  | [], _ => by simp
  | p :: t, hd => by
    have hd2 := List.pairwise_cons.1 hd
    have ih := countP_le_one e hl key t hd2.2
    rw [List.countP_cons]
    by_cases hp : e.key_cmp p.key key = true
    · have h0 : t.countP (fun p => e.key_cmp p.key key) = 0 := by
        rw [List.countP_eq_zero]
        intro q hq hqk
        have h1 := hd2.1 q hq
        rw [hl.key_trans _ _ _ hp (hl.key_symm _ _ hqk)] at h1
        cases h1
      rw [h0, if_pos hp]
    · rw [if_neg hp]
      exact ih

/-- C9 (key uniqueness): with a key equality that is an equivalence and a hash function that
gives equal keys the same hash, every reachable table stores, over all its buckets together,
at most one pair whose key equals a given key; any two stored pairs have different keys. -/
theorem key_uniqueness (e : ops K V) (hl : lawful e) (m : hashmap K V) (hr : reachable e m) :
    (∀ key, (entries m).countP (fun p => e.key_cmp p.key key) ≤ 1) ∧
    (entries m).Pairwise (fun p q => e.key_cmp p.key q.key = false) :=
  ⟨fun key => countP_le_one e hl key _ (reachable_wf e hl m hr).uniq,
    (reachable_wf e hl m hr).uniq⟩

/-- An instance of the uniqueness of keys: the table of thirteen integer keys after one erase. -/
theorem key_uniqueness_witness :
    lawful int_ops ∧
    reachable int_ops (hashmap_erase int_ops
      (hashmap_insert_all int_ops (hashmap_alloc int_ops) thirteen_pairs).1 3).1 ∧
    ((∀ key, (entries (hashmap_erase int_ops
        (hashmap_insert_all int_ops (hashmap_alloc int_ops) thirteen_pairs).1 3).1).countP
        (fun p => int_ops.key_cmp p.key key) ≤ 1) ∧
      (entries (hashmap_erase int_ops
        (hashmap_insert_all int_ops (hashmap_alloc int_ops) thirteen_pairs).1 3).1).Pairwise
        (fun p q => int_ops.key_cmp p.key q.key = false)) :=
  ⟨int_ops_lawful,
    reachable.erase _ _ (reachable_insert_all int_ops _ reachable.alloc thirteen_pairs),
    key_uniqueness int_ops int_ops_lawful _
      (reachable.erase _ _ (reachable_insert_all int_ops _ reachable.alloc thirteen_pairs))⟩

/-! ## Clear -/

/-- C10 (clear): on every reachable table, after `hashmap_clear` the size is 0, every bucket
is empty and no key is found; `hashmap_clear` of a table that holds no element returns the
table as it was, capacity included, so a second `hashmap_clear` in a row changes nothing; and
after `hashmap_clear` a `hashmap_insert` of any pair returns 1. -/
theorem clear_properties (e : ops K V) (m : hashmap K V) (hr : reachable e m) :
    (hashmap_clear e m).size = 0 ∧
    (∀ b ∈ (hashmap_clear e m).buckets, b.data = []) ∧
    (∀ key, hashmap_at e (hashmap_clear e m) key = none ∧
      hashmap_contains_key e (hashmap_clear e m) key = 0) ∧
    (m.size = 0 → hashmap_clear e m = m) ∧
    hashmap_clear e (hashmap_clear e m) = hashmap_clear e m ∧
    ∀ p, (hashmap_insert e (hashmap_clear e m) p).2 = 1 := by
  have hs := reachable_counted e m hr
  obtain ⟨g1, g2⟩ := clear_empty e m hs
  have hat : ∀ key, hashmap_at e (hashmap_clear e m) key = none :=
    fun key => hashmap_at_of_empty e _ key g1
  refine ⟨g2, g1, ?_, ?_, clear_of_empty e _ g1, ?_⟩
  · intro key
    refine ⟨hat key, ?_⟩
    unfold hashmap_contains_key
    rw [hat key]
    rfl
  · intro h0
    exact clear_of_empty e m (all_empty_of_size m hs h0)
  · intro p
    exact insert_of_absent_ret e _ p (reachable_shape e _ (reachable.clear m hr)) (hat p.key)

/-- An instance of the properties of clear: the table of thirteen integer keys. -/
theorem clear_properties_witness :
    reachable int_ops (hashmap_insert_all int_ops (hashmap_alloc int_ops) thirteen_pairs).1 ∧
    ((hashmap_clear int_ops
        (hashmap_insert_all int_ops (hashmap_alloc int_ops) thirteen_pairs).1).size = 0 ∧
    (∀ b ∈ (hashmap_clear int_ops
        (hashmap_insert_all int_ops (hashmap_alloc int_ops) thirteen_pairs).1).buckets,
      b.data = []) ∧
    (∀ key, hashmap_at int_ops (hashmap_clear int_ops
        (hashmap_insert_all int_ops (hashmap_alloc int_ops) thirteen_pairs).1) key = none ∧
      hashmap_contains_key int_ops (hashmap_clear int_ops
        (hashmap_insert_all int_ops (hashmap_alloc int_ops) thirteen_pairs).1) key = 0) ∧
    ((hashmap_insert_all int_ops (hashmap_alloc int_ops) thirteen_pairs).1.size = 0 →
      hashmap_clear int_ops
        (hashmap_insert_all int_ops (hashmap_alloc int_ops) thirteen_pairs).1 =
        (hashmap_insert_all int_ops (hashmap_alloc int_ops) thirteen_pairs).1) ∧
    hashmap_clear int_ops (hashmap_clear int_ops
        (hashmap_insert_all int_ops (hashmap_alloc int_ops) thirteen_pairs).1) =
      hashmap_clear int_ops
        (hashmap_insert_all int_ops (hashmap_alloc int_ops) thirteen_pairs).1 ∧
    ∀ p, (hashmap_insert int_ops (hashmap_clear int_ops
        (hashmap_insert_all int_ops (hashmap_alloc int_ops) thirteen_pairs).1) p).2 = 1) :=
  ⟨reachable_insert_all int_ops _ reachable.alloc thirteen_pairs,
    clear_properties int_ops _ (reachable_insert_all int_ops _ reachable.alloc thirteen_pairs)⟩

/-! ## Clear and erase, element by element -/

theorem resize_of_empty_eq (e : ops K V) (m : hashmap K V)
    (h : ∀ b ∈ m.buckets, b.data = []) (hs : m.size = 0) (hc : m.capacity ≠ 0) :
    hashmap_resize e m ERASE_ELEMENT = (init_hashmap e (max (m.capacity / 2) 2), 1) := by
  unfold hashmap_resize
  rw [if_neg hc, if_neg (fun hh => absurd hh.1 (by decide)), if_pos ⟨rfl, by omega⟩,
    rehash_of_empty e m _ h]
  simp [HASH_MAP_REDUCTION_FACTOR, MIN_CAPACITY]

theorem clear_resize_empty_eq (e : ops K V) :
    ∀ (n : Nat) (m : hashmap K V), (∀ b ∈ m.buckets, b.data = []) → m.size = 0 →
      m.capacity ≠ 0 →
      hashmap_clear_resize e (n + 1) m = init_hashmap e (halve_caps m.capacity (n + 1))
  | 0, m, h, hs, hc => by
    simp only [hashmap_clear_resize, halve_caps]
    rw [resize_of_empty_eq e m h hs hc]
  | n + 1, m, h, hs, hc => by
    have h1 := resize_of_empty_eq e m h hs hc
    have ih := clear_resize_empty_eq e n (init_hashmap e (max (m.capacity / 2) 2))
      (init_hashmap_empty e _).1 rfl
      (by simp only [init_hashmap]; omega)
    rw [hashmap_clear_resize, h1, ih, halve_caps]
    rfl

theorem clear_eq (e : ops K V) (m : hashmap K V) (hs : m.size = (entries m).length)
    (hc : m.capacity ≠ 0) (h1 : 1 ≤ m.size) :
    hashmap_clear e m = init_hashmap e (halve_caps m.capacity m.size) := by
  obtain ⟨_, g2, g3, g4, _⟩ := clear_buckets_eq m.buckets m.size 0
  have hsz : (m.buckets.flatMap (fun b => b.data)).length = m.size := hs.symm
  obtain ⟨n, hn⟩ : ∃ n, m.size = n + 1 := ⟨m.size - 1, by omega⟩
  unfold hashmap_clear
  simp only
  rw [g4, hsz, Nat.zero_add]
  have key := fun M h1 h2 h3 => clear_resize_empty_eq e n M h1 h2 h3
  rw [← hn] at key
  exact key _ g2 (by simp only; rw [g3]; omega) hc

theorem erase_eq_resize (e : ops K V) (hl : lawful e) (m : hashmap K V) (hw : wf e m)
    (key : K) (hk : stored e m key) :
    hashmap_erase e m key =
      ((hashmap_resize e (hashmap_erase_pair e m key).1 ERASE_ELEMENT).1, 1) ∧
    wf e (hashmap_erase_pair e m key).1 ∧
    (hashmap_erase_pair e m key).1.size + 1 = m.size ∧
    (hashmap_erase_pair e m key).1.capacity = m.capacity := by
  obtain ⟨v, hv⟩ := (stored_iff e hl m hw key).1 hk
  obtain ⟨p, hash, idx, hp, _⟩ := (hashmap_at_some e m key v).1 hv
  obtain ⟨h1, h2, h3, _, h5⟩ := erase_pair_found e hl m hw key p hash idx hp
  obtain ⟨g1, _⟩ := resize_ok e hl _ h5 ERASE_ELEMENT
  refine ⟨?_, h5, h3, h2⟩
  unfold hashmap_erase
  simp only
  rw [if_neg (by rw [h1]; decide), if_neg (by rw [g1]; decide)]

theorem two_mul_le_two_pow : ∀ n : Nat, 1 ≤ n → 2 * n ≤ 2 ^ n
  | 0, h => by omega
  | 1, _ => by decide
  | n + 2, _ => by
    have ih := two_mul_le_two_pow (n + 1) (by omega)
    rw [pow_succ]
    omega

theorem halve_caps_eq_two : ∀ (n c : Nat), 2 ≤ c → c ≤ 2 ^ (n + 1) → halve_caps c n = 2
  | 0, c, h2, hc => by
    simp only [halve_caps]
    simp at hc
    omega
  | n + 1, c, h2, hc => by
    simp only [halve_caps]
    apply halve_caps_eq_two n
    · omega
    · rw [pow_succ] at hc
      have : 2 ≤ 2 ^ (n + 1) := by
        calc 2 = 2 ^ 1 := rfl
          _ ≤ 2 ^ (n + 1) := Nat.pow_le_pow_right (by decide) (by omega)
      omega

theorem erase_caps_eq_halve : ∀ (s c : Nat), 2 ≤ c → erase_caps c s s = halve_caps c s
  | 0, _, _ => rfl
  | s + 1, c, h2 => by
    simp only [erase_caps, halve_caps, Nat.add_sub_cancel]
    by_cases h : 4 * s < c
    · rw [if_pos h]
      exact erase_caps_eq_halve s _ (by omega)
    · rw [if_neg h, erase_caps_eq_halve s c h2]
      have hs : 1 ≤ s := by omega
      have hp := two_mul_le_two_pow s hs
      have hc : c ≤ 2 ^ (s + 1) := by rw [pow_succ]; omega
      rw [halve_caps_eq_two s c h2 hc, halve_caps_eq_two s _ (by omega) (by omega)]

theorem erase_all_eq (e : ops K V) (hl : lawful e) :
    ∀ (ks : List K) (k : K) (m : hashmap K V), wf e m →
      (k :: ks).Pairwise (fun a b => e.key_cmp a b = false) →
      (∀ k1 ∈ k :: ks, stored e m k1) → (k :: ks).length = m.size →
      hashmap_erase_all e m (k :: ks) =
        init_hashmap e (erase_caps m.capacity m.size (k :: ks).length)
  | [], k, m, hw, _, hst, hlen => by
    obtain ⟨h1, h2, h3, h4⟩ := erase_eq_resize e hl m hw k (hst k (List.mem_cons_self k []))
    have hs0 : (hashmap_erase_pair e m k).1.size = 0 := by
      simp only [List.length_singleton] at hlen
      omega
    have hempty := all_empty_of_size _ h2.size_eq hs0
    have hc := capacity_ne_zero e _ h2
    simp only [hashmap_erase_all, List.length_singleton, erase_caps]
    rw [h1]
    simp only
    rw [resize_of_empty_eq e _ hempty hs0 hc, h4]
    have hm : m.size - 1 = 0 := by omega
    have hc2 : 0 < m.capacity := by rw [← h4]; omega
    rw [hm, if_pos (by omega)]
  | k1 :: ks, k, m, hw, hd, hst, hlen => by
    obtain ⟨_, h2, h3, h4, h5⟩ := erase_stored e hl m hw k (hst k (List.mem_cons_self k _))
    have hd2 := List.pairwise_cons.1 hd
    have hst2 : ∀ k2 ∈ k1 :: ks, stored e (hashmap_erase e m k).1 k2 := by
      intro k2 hk2
      rw [stored_iff e hl _ h3 k2, h5 k2 (key_cmp_false_symm e hl _ _ (hd2.1 k2 hk2)),
        ← stored_iff e hl m hw k2]
      exact hst k2 (List.mem_cons_of_mem k hk2)
    have hlen2 : (k1 :: ks).length = (hashmap_erase e m k).1.size := by
      simp only [List.length_cons] at hlen ⊢
      omega
    have ih := erase_all_eq e hl ks k1 (hashmap_erase e m k).1 h3 hd2.2 hst2 hlen2
    have hs : (hashmap_erase e m k).1.size = m.size - 1 := by omega
    rw [hashmap_erase_all, ih, h4, hs]
    rfl

theorem clear_eq_erase_all (e : ops K V) (hl : lawful e) (m : hashmap K V) (hw : wf e m)
    (l : List (pair K V)) (hp : l.Perm (entries m)) :
    hashmap_erase_all e m (l.map (fun p => p.key)) = hashmap_clear e m := by
  have hlen : (l.map (fun p => p.key)).length = m.size := by
    rw [List.length_map, hp.length_eq, ← hw.size_eq]
  cases hl2 : l with
  | nil =>
    rw [hl2] at hlen
    simp only [List.map_nil, List.length_nil] at hlen
    rw [List.map_nil, hashmap_erase_all,
      clear_of_empty e m (all_empty_of_size m hw.size_eq hlen.symm)]
  | cons p ps =>
    have hd : (l.map (fun p => p.key)).Pairwise (fun a b => e.key_cmp a b = false) := by
      rw [List.pairwise_map]
      exact (List.Perm.pairwise_iff (fun {x y} hxy => distinct_symm e hl hxy) hp).2 hw.uniq
    have hst : ∀ k ∈ l.map (fun p => p.key), stored e m k := by
      intro k hk
      obtain ⟨q, hq, hqk⟩ := List.mem_map.1 hk
      exact ⟨q, hp.subset hq, by rw [← hqk]; exact hl.key_refl _⟩
    rw [hl2] at hd hst hlen
    simp only [List.map_cons] at hd hst hlen ⊢
    have h1 : 1 ≤ m.size := by
      rw [← hlen]
      simp
    rw [erase_all_eq e hl _ _ m hw hd hst hlen, hlen,
      clear_eq e m hw.size_eq (capacity_ne_zero e m hw) h1,
      erase_caps_eq_halve m.size m.capacity (capacity_ge_two e m hw)]

/-- C11 (clear is erase element by element): with a key equality that is an equivalence and a
hash function that gives equal keys the same hash, on every reachable table and for every
order `l` of its stored pairs, calling `hashmap_erase` on the keys in that order gives the
same table as `hashmap_clear`: the same buckets, all of them empty, size 0 and the same
capacity. -/
theorem clear_is_erase_all (e : ops K V) (hl : lawful e) (m : hashmap K V) (hr : reachable e m)
    (l : List (pair K V)) (hp : l.Perm (entries m)) :
    hashmap_erase_all e m (l.map (fun p => p.key)) = hashmap_clear e m ∧
    (hashmap_erase_all e m (l.map (fun p => p.key))).capacity = (hashmap_clear e m).capacity ∧
    (hashmap_erase_all e m (l.map (fun p => p.key))).size = 0 ∧
    (hashmap_clear e m).size = 0 ∧
    (∀ b ∈ (hashmap_erase_all e m (l.map (fun p => p.key))).buckets, b.data = []) ∧
    (∀ b ∈ (hashmap_clear e m).buckets, b.data = []) := by
  have hw := reachable_wf e hl m hr
  have heq := clear_eq_erase_all e hl m hw l hp
  obtain ⟨g1, g2⟩ := clear_empty e m hw.size_eq
  rw [heq]
  exact ⟨rfl, rfl, g2, g2, g1, g1⟩

/-- An instance of clear against erase one by one: the table of thirteen integer keys, its
pairs enumerated from the last bucket to the first. -/
theorem clear_is_erase_all_witness :
    lawful int_ops ∧
    reachable int_ops (hashmap_insert_all int_ops (hashmap_alloc int_ops) thirteen_pairs).1 ∧
    (entries (hashmap_insert_all int_ops (hashmap_alloc int_ops) thirteen_pairs).1).reverse.Perm
      (entries (hashmap_insert_all int_ops (hashmap_alloc int_ops) thirteen_pairs).1) ∧
    hashmap_erase_all int_ops
        (hashmap_insert_all int_ops (hashmap_alloc int_ops) thirteen_pairs).1
        ((entries (hashmap_insert_all int_ops (hashmap_alloc int_ops)
          thirteen_pairs).1).reverse.map (fun p => p.key)) =
      hashmap_clear int_ops
        (hashmap_insert_all int_ops (hashmap_alloc int_ops) thirteen_pairs).1 :=
  ⟨int_ops_lawful, reachable_insert_all int_ops _ reachable.alloc thirteen_pairs,
    List.reverse_perm _,
    (clear_is_erase_all int_ops int_ops_lawful _
      (reachable_insert_all int_ops _ reachable.alloc thirteen_pairs) _
      (List.reverse_perm _)).1⟩

/-! ## Values -/

theorem contains_value_iff (e : ops K V) (m : hashmap K V) (h : shape m) (value : V) :
    hashmap_contains_value e m value = 1 ↔
      ∃ p ∈ entries m, e.value_cmp p.value value = true := by
  unfold hashmap_contains_value
  constructor
  · intro h1
    split at h1
    · next hany =>
      rw [List.any_eq_true] at hany
      obtain ⟨j, _, hj⟩ := hany
      cases hb : m.buckets[j]? with
      | none => rw [hb] at hj; cases hj
      | some b =>
        rw [hb] at hj
        simp only at hj
        rw [List.any_eq_true] at hj
        obtain ⟨p, hp, hv⟩ := hj
        exact ⟨p, (mem_entries m p).2 ⟨j, b, hb, hp⟩, hv⟩
    · cases h1
  · rintro ⟨p, hp, hv⟩
    obtain ⟨j, b, hb, hpb⟩ := (mem_entries m p).1 hp
    have hj : j < m.capacity := by
      rw [← h.1]
      exact (List.getElem?_eq_some_iff.1 hb).1
    rw [if_pos]
    rw [List.any_eq_true]
    refine ⟨j, List.mem_range.2 hj, ?_⟩
    rw [hb]
    simp only
    rw [List.any_eq_true]
    exact ⟨p, hpb, hv⟩

theorem contains_value_zero_or_one (e : ops K V) (m : hashmap K V) (value : V) :
    hashmap_contains_value e m value = 0 ∨ hashmap_contains_value e m value = 1 := by
  unfold hashmap_contains_value
  split
  · exact Or.inr rfl
  · exact Or.inl rfl

/-- C12 (contains_value): on every reachable table `hashmap_contains_value` returns 1 exactly
when some pair stored in some bucket has a value equal to the given one under `value_cmp`, and
0 otherwise; on a table that holds no element it returns 0. -/
theorem contains_value_correct (e : ops K V) (m : hashmap K V) (hr : reachable e m)
    (value : V) :
    (hashmap_contains_value e m value = 1 ↔
      ∃ (i : Nat) (b : vector (pair K V)) (p : pair K V), m.buckets[i]? = some b ∧ p ∈ b.data ∧ e.value_cmp p.value value = true) ∧
    (hashmap_contains_value e m value = 0 ↔
      ∀ (i : Nat) (b : vector (pair K V)) (p : pair K V), m.buckets[i]? = some b → p ∈ b.data → e.value_cmp p.value value = false) ∧
    (m.size = 0 → hashmap_contains_value e m value = 0) := by
  have hsh := reachable_shape e m hr
  have h1 : hashmap_contains_value e m value = 1 ↔
      ∃ (i : Nat) (b : vector (pair K V)) (p : pair K V), m.buckets[i]? = some b ∧ p ∈ b.data ∧ e.value_cmp p.value value = true := by
    rw [contains_value_iff e m hsh value]
    constructor
    · rintro ⟨p, hp, hv⟩
      obtain ⟨i, b, hb, hpb⟩ := (mem_entries m p).1 hp
      exact ⟨i, b, p, hb, hpb, hv⟩
    · rintro ⟨i, b, p, hb, hpb, hv⟩
      exact ⟨p, (mem_entries m p).2 ⟨i, b, hb, hpb⟩, hv⟩
  have h0 : hashmap_contains_value e m value = 0 ↔
      ∀ (i : Nat) (b : vector (pair K V)) (p : pair K V), m.buckets[i]? = some b → p ∈ b.data → e.value_cmp p.value value = false := by
    constructor
    · intro hz i b p hb hpb
      cases hv : e.value_cmp p.value value with
      | false => rfl
      | true =>
        have := h1.2 ⟨i, b, p, hb, hpb, hv⟩
        rw [hz] at this
        cases this
    · intro hall
      rcases contains_value_zero_or_one e m value with hz | ho
      · exact hz
      · obtain ⟨i, b, p, hb, hpb, hv⟩ := h1.1 ho
        rw [hall i b p hb hpb] at hv
        cases hv
  refine ⟨h1, h0, ?_⟩
  intro hs
  rw [h0]
  intro i b p hb hpb
  have := all_empty_of_size m (reachable_counted e m hr) hs b (List.mem_iff_getElem?.2 ⟨i, hb⟩)
  rw [this] at hpb
  cases hpb

/-- An instance of the value scan: the table of thirteen integer keys, asked for the value 120
of the key 12. -/
theorem contains_value_correct_witness :
    reachable int_ops (hashmap_insert_all int_ops (hashmap_alloc int_ops) thirteen_pairs).1 ∧
    ((hashmap_contains_value int_ops
        (hashmap_insert_all int_ops (hashmap_alloc int_ops) thirteen_pairs).1 120 = 1 ↔
      ∃ (i : Nat) (b : vector (pair Int Int)) (p : pair Int Int), (hashmap_insert_all int_ops (hashmap_alloc int_ops)
          thirteen_pairs).1.buckets[i]? = some b ∧ p ∈ b.data ∧
        int_ops.value_cmp p.value 120 = true) ∧
    (hashmap_contains_value int_ops
        (hashmap_insert_all int_ops (hashmap_alloc int_ops) thirteen_pairs).1 120 = 0 ↔
      ∀ (i : Nat) (b : vector (pair Int Int)) (p : pair Int Int), (hashmap_insert_all int_ops (hashmap_alloc int_ops)
          thirteen_pairs).1.buckets[i]? = some b → p ∈ b.data →
        int_ops.value_cmp p.value 120 = false) ∧
    ((hashmap_insert_all int_ops (hashmap_alloc int_ops) thirteen_pairs).1.size = 0 →
      hashmap_contains_value int_ops
        (hashmap_insert_all int_ops (hashmap_alloc int_ops) thirteen_pairs).1 120 = 0)) :=
  ⟨reachable_insert_all int_ops _ reachable.alloc thirteen_pairs,
    contains_value_correct int_ops _
      (reachable_insert_all int_ops _ reachable.alloc thirteen_pairs) 120⟩

/-! ## The dynamic sequence: push_back and erase -/

theorem swap_erase_getElem {α : Type} (l : List α) (i j : Nat) (hi : i < l.length)
    (hj : j < l.length - 1) :
    (swap_erase l i)[j]? = if j = i then l[l.length - 1]? else l[j]? := by
  have hb : l.length - 1 < l.length := by omega
  have hlast : l[l.length - 1]? = some l[l.length - 1] := List.getElem?_eq_getElem hb
  unfold swap_erase
  rw [hlast]
  simp only
  rw [List.getElem?_take, if_pos hj, List.getElem?_set]
  by_cases hji : j = i
  · subst hji
    rw [if_pos rfl, if_pos hi, if_pos rfl]
  · rw [if_neg (fun h => hji h.symm), if_neg hji]

/-- C13 (push_back appends): on every vector reachable from `vector_alloc`, of size `n`,
`vector_push_back` of an element returns 1, makes the size `n + 1`, puts the copy of the
element produced by the copy operation at `vector_at (n)` and leaves `vector_at (j)` as it
was for every `j < n`, whether or not the capacity grew. -/
theorem push_back_appends {α : Type} (elem_copy_func : α → α) (initial_cap : Nat)
    (v : vector α) (_hr : vector_reachable elem_copy_func initial_cap v) (value : α) :
    (vector_push_back elem_copy_func v value).2 = 1 ∧
    (vector_push_back elem_copy_func v value).1.size = v.size + 1 ∧
    vector_at (vector_push_back elem_copy_func v value).1 v.size =
      some (elem_copy_func value) ∧
    (∀ j, j < v.size →
      vector_at (vector_push_back elem_copy_func v value).1 j = vector_at v j) ∧
    ((vector_push_back elem_copy_func v value).1.capacity = v.capacity ∨
      (vector_push_back elem_copy_func v value).1.capacity =
        v.capacity * VECTOR_GROWTH_FACTOR) := by
  have hd := vector_push_back_data elem_copy_func v value
  refine ⟨vector_push_back_ret elem_copy_func v value, ?_, ?_, ?_, ?_⟩
  · unfold vector.size
    rw [hd]
    simp
  · rw [vector_at_eq, hd]
    unfold vector.size
    simp
  · intro j hj
    rw [vector_at_eq, vector_at_eq, hd]
    exact List.getElem?_append_left hj
  · unfold vector_push_back
    simp only
    split
    · exact Or.inr rfl
    · exact Or.inl rfl

/-- An instance of push_back: a vector of naturals of initial capacity 16 that holds one
element receives a second one. -/
theorem push_back_appends_witness :
    vector_reachable (id : Nat → Nat) 16 (vector_push_back id (vector_alloc 16) 5).1 ∧
    ((vector_push_back id (vector_push_back id (vector_alloc 16) 5).1 9).2 = 1 ∧
    (vector_push_back id (vector_push_back id (vector_alloc 16) 5).1 9).1.size =
      (vector_push_back id (vector_alloc 16) 5).1.size + 1 ∧
    vector_at (vector_push_back id (vector_push_back id (vector_alloc 16) 5).1 9).1
      (vector_push_back id (vector_alloc 16) 5).1.size = some (id 9) ∧
    (∀ j, j < (vector_push_back id (vector_alloc 16) 5).1.size →
      vector_at (vector_push_back id (vector_push_back id (vector_alloc 16) 5).1 9).1 j =
        vector_at (vector_push_back id (vector_alloc 16) 5).1 j) ∧
    ((vector_push_back id (vector_push_back id (vector_alloc 16) 5).1 9).1.capacity =
        (vector_push_back id (vector_alloc 16) 5).1.capacity ∨
      (vector_push_back id (vector_push_back id (vector_alloc 16) 5).1 9).1.capacity =
        (vector_push_back id (vector_alloc 16) 5).1.capacity * VECTOR_GROWTH_FACTOR)) :=
  ⟨vector_reachable.push_back _ _ vector_reachable.alloc,
    push_back_appends id 16 _ (vector_reachable.push_back _ _ vector_reachable.alloc) 9⟩

/-- C14 (swap-erase): on every vector reachable from `vector_alloc`, of size `n`: when `i < n`,
`vector_erase` returns 1, the size becomes `n - 1`, slot `i` holds the element that was last
(when `i < n - 1`), every other slot `j < n - 1` is unchanged, and the stored elements are
the old ones minus the one that was at `i`; when `i >= n`, `vector_erase` returns 0 and
changes nothing. -/
theorem swap_erase_correct {α : Type} (elem_copy_func : α → α) (initial_cap : Nat)
    (v : vector α) (_hr : vector_reachable elem_copy_func initial_cap v) (i : Nat) :
    (i < v.size →
      (vector_erase v i).2 = 1 ∧
      (vector_erase v i).1.size = v.size - 1 ∧
      (i < v.size - 1 → vector_at (vector_erase v i).1 i = vector_at v (v.size - 1)) ∧
      (∀ j, j < v.size - 1 → j ≠ i → vector_at (vector_erase v i).1 j = vector_at v j) ∧
      (∀ x, vector_at v i = some x → v.data.Perm (x :: (vector_erase v i).1.data))) ∧
    (v.size ≤ i →
      (vector_erase v i).2 = 0 ∧ (vector_erase v i).1 = v ∧
      (vector_erase v i).1.size = v.size ∧ (vector_erase v i).1.capacity = v.capacity ∧
      (vector_erase v i).1.data = v.data) := by
  constructor
  · intro hi
    have hi2 : i < v.data.length := hi
    have hx : v.data[i]? = some v.data[i] := List.getElem?_eq_getElem hi2
    have hd := vector_erase_data v i _ hx
    have hsz : (vector_erase v i).1.size = v.size - 1 := by
      unfold vector.size
      rw [hd, swap_erase_length]
    refine ⟨vector_erase_ret v i _ hx, hsz, ?_, ?_, ?_⟩
    · intro h1
      rw [vector_at_eq, vector_at_eq, hd, swap_erase_getElem v.data i i hi2 h1, if_pos rfl]
      rfl
    · intro j hj hji
      rw [vector_at_eq, vector_at_eq, hd, swap_erase_getElem v.data i j hi2 hj, if_neg hji]
    · intro x hxi
      rw [vector_at_eq] at hxi
      rw [hd]
      exact swap_erase_perm v.data i x hxi
  · intro hi
    have hnone : v.data[i]? = none := List.getElem?_eq_none hi
    rw [vector_erase_absent v i hnone]
    exact ⟨rfl, rfl, rfl, rfl, rfl⟩

/-- An instance of swap-erase: slot 0 of a vector of naturals holding 5, 9 and 4 is erased. -/
theorem swap_erase_correct_witness :
    vector_reachable (id : Nat → Nat) 16
      (vector_push_back id (vector_push_back id (vector_push_back id
        (vector_alloc 16) 5).1 9).1 4).1 ∧
    vector_at (vector_erase (vector_push_back id (vector_push_back id (vector_push_back id
        (vector_alloc 16) 5).1 9).1 4).1 0).1 0 = some 4 ∧
    (vector_erase (vector_erase (vector_push_back id (vector_push_back id
        (vector_push_back id (vector_alloc 16) 5).1 9).1 4).1 0).1 7).2 = 0 :=
  ⟨vector_reachable.push_back _ _ (vector_reachable.push_back _ _
      (vector_reachable.push_back _ _ vector_reachable.alloc)),
    (((swap_erase_correct id 16 _ (vector_reachable.push_back _ _
      (vector_reachable.push_back _ _ (vector_reachable.push_back _ _
        vector_reachable.alloc))) 0).1 (by decide)).2.2.1 (by decide)).trans (by decide),
    ((swap_erase_correct id 16 _ (vector_reachable.erase _ 0 (vector_reachable.push_back _ _
      (vector_reachable.push_back _ _ (vector_reachable.push_back _ _
        vector_reachable.alloc)))) 7).2 (by decide)).1⟩

/-! ## The dynamic sequence: size and capacity -/

theorem vector_push_back_bound {α : Type} (c : α → α) (v : vector α) (x : α)
    (h : v.size < v.capacity) :
    (vector_push_back c v x).1.size < (vector_push_back c v x).1.capacity := by
  unfold vector.size at h ⊢
  unfold vector_push_back
  simp only [VECTOR_GROWTH_FACTOR]
  split
  · simp only [List.length_append, List.length_singleton]
    omega
  · next hn =>
    simp only [List.length_append, List.length_singleton] at hn ⊢
    omega

theorem vector_erase_bound {α : Type} (v : vector α) (i : Nat) (h : v.size < v.capacity) :
    (vector_erase v i).1.size < (vector_erase v i).1.capacity := by
  cases hx : v.data[i]? with
  | none => rw [vector_erase_absent v i hx]; exact h
  | some x =>
    have hd := vector_erase_data v i x hx
    have hlen : (vector_erase v i).1.data.length = v.data.length - 1 := by
      rw [hd, swap_erase_length]
    have hi : i < v.data.length := (List.getElem?_eq_some_iff.1 hx).1
    have hcap : (vector_erase v i).1.capacity =
        if 4 * (v.data.length - 1) < v.capacity ∧ MIN_VEC_CAPACITY ≤ v.capacity
        then v.capacity / 2 else v.capacity := by
      have hc : 0 < v.size ∧ (vector_at v i).isSome = true := by
        refine ⟨by unfold vector.size; omega, ?_⟩
        rw [vector_at_eq, hx]; rfl
      unfold vector_erase
      rw [if_pos hc]
      simp only [List.length_take]
      have hl : (match v.data[v.size - 1]? with
          | some last => v.data.set i last
          | none => v.data).length = v.data.length := by
        split <;> simp
      rw [hl]
      have hm : min (v.size - 1) v.data.length = v.data.length - 1 := by
        unfold vector.size; omega
      rw [hm]
      split <;> rfl
    unfold vector.size at h ⊢
    rw [hlen, hcap]
    unfold MIN_VEC_CAPACITY
    split <;> omega

theorem vector_clear_loop_bound {α : Type} :
    ∀ (n : Nat) (v : vector α), v.size < v.capacity →
      (vector_clear_loop n v).size < (vector_clear_loop n v).capacity
  | 0, _, h => h
  | n + 1, v, h => vector_clear_loop_bound n _ (vector_erase_bound v n h)

theorem vector_reachable_bound {α : Type} (c : α → α) (initial_cap : Nat)
    (hcap : 0 < initial_cap) (v : vector α) (hr : vector_reachable c initial_cap v) :
    v.size < v.capacity := by
  induction hr with
  | alloc => exact hcap
  | push_back v x _ ih => exact vector_push_back_bound c v x ih
  | erase v i _ ih => exact vector_erase_bound v i ih
  | clear v _ ih => exact vector_clear_loop_bound _ v ih

theorem push_erase_rounds_reachable :
    ∀ (n : Nat) (v : vector Nat), vector_reachable id 16 v →
      vector_reachable id 16 (push_erase_rounds n v)
  | 0, _, h => h
  | n + 1, v, h =>
    push_erase_rounds_reachable n _
      (vector_reachable.erase _ 0 (vector_reachable.push_back v 7 h))

theorem push_erase_round_eq (v : vector Nat) (hd : v.data = []) (hc : 2 ≤ v.capacity) :
    (vector_erase (vector_push_back id v 7).1 0).1 = { data := [], capacity := v.capacity / 2 } := by
  have h1 : (vector_push_back id v 7).1 = { data := [7], capacity := v.capacity } := by
    unfold vector_push_back
    simp only [hd, List.nil_append, List.length_singleton, id]
    rw [if_neg (by omega)]
  rw [h1]
  unfold vector_erase
  simp only [vector.size, vector_at, List.length_singleton, MIN_VEC_CAPACITY]
  simp
  rw [if_pos ⟨by omega, hc⟩]

theorem capacity_one_reachable (initial_cap : Nat) (h1 : 1 ≤ initial_cap) :
    ∃ v : vector Nat, vector_reachable id initial_cap v ∧ v.data = [] ∧ v.capacity = 1 := by
  have key : ∀ c : Nat, 1 ≤ c → ∀ v : vector Nat, vector_reachable id initial_cap v →
      v.data = [] → v.capacity = c →
      ∃ w : vector Nat, vector_reachable id initial_cap w ∧ w.data = [] ∧ w.capacity = 1 := by
    intro c
    induction c using Nat.strong_induction_on with
    | _ c ih =>
      intro hc v hr hd hcap
      by_cases h : c = 1
      · exact ⟨v, hr, hd, by rw [hcap, h]⟩
      · have h2 : 2 ≤ v.capacity := by omega
        have heq := push_erase_round_eq v hd h2
        refine ih (c / 2) (by omega) (by omega) _
          (vector_reachable.erase _ 0 (vector_reachable.push_back v 7 hr)) ?_ ?_
        · rw [heq]
        · rw [heq, hcap]
  exact key initial_cap h1 _ vector_reachable.alloc rfl rfl

/-- C15, the code breaks the claim: four rounds of one `vector_push_back` and one
`vector_erase` on a fresh vector of capacity 16 halve the capacity four times, the last time
from `MIN_VEC_CAPACITY` = 2 to 1, because `vector_erase` shrinks whenever
`capacity >= MIN_VEC_CAPACITY`. -/
theorem vector_capacity_below_minimum :
    vector_reachable id 16 (push_erase_rounds 4 (vector_alloc 16)) ∧
    (push_erase_rounds 3 (vector_alloc 16)).capacity = MIN_VEC_CAPACITY ∧
    (push_erase_rounds 4 (vector_alloc 16)).capacity = 1 ∧
    (push_erase_rounds 4 (vector_alloc 16)).capacity < MIN_VEC_CAPACITY :=
  ⟨push_erase_rounds_reachable 4 _ vector_reachable.alloc, by decide, by decide, by decide⟩

/-- C16 (vector size invariant): when the initial capacity is not 0, every vector reachable
from `vector_alloc` through `vector_push_back`, `vector_erase` and `vector_clear` satisfies
`0 <= size <= capacity`. -/
theorem vector_size_le_capacity {α : Type} (elem_copy_func : α → α) (initial_cap : Nat)
    (hcap : 0 < initial_cap) (v : vector α)
    (hr : vector_reachable elem_copy_func initial_cap v) :
    0 ≤ v.size ∧ v.size ≤ v.capacity :=
  ⟨Nat.zero_le _, Nat.le_of_lt (vector_reachable_bound elem_copy_func initial_cap hcap v hr)⟩

/-- An instance of the size invariant: the vector left by four rounds of push_back and erase,
whose capacity has shrunk to 1. -/
theorem vector_size_le_capacity_witness :
    0 < 16 ∧ vector_reachable id 16 (push_erase_rounds 4 (vector_alloc 16)) ∧
    (0 ≤ (push_erase_rounds 4 (vector_alloc 16)).size ∧
      (push_erase_rounds 4 (vector_alloc 16)).size ≤
        (push_erase_rounds 4 (vector_alloc 16)).capacity) :=
  ⟨by decide, push_erase_rounds_reachable 4 _ vector_reachable.alloc,
    vector_size_le_capacity id 16 (by decide) _
      (push_erase_rounds_reachable 4 _ vector_reachable.alloc)⟩

/-- C20 (push_back writes in bounds): when the initial capacity is not 0, every vector
reachable from `vector_alloc` through `vector_push_back`, `vector_erase` and `vector_clear`
satisfies `size < capacity`, so the slot `data[size]` that the next `vector_push_back` writes
lies inside the allocated storage; the capacity itself is never 0. -/
theorem push_back_in_bounds {α : Type} (elem_copy_func : α → α) (initial_cap : Nat)
    (hcap : 0 < initial_cap) (v : vector α)
    (hr : vector_reachable elem_copy_func initial_cap v) :
    v.size < v.capacity ∧ 0 < v.capacity ∧
    ∀ value, (vector_push_back elem_copy_func v value).1.size ≤ v.capacity :=
  ⟨vector_reachable_bound elem_copy_func initial_cap hcap v hr,
    Nat.lt_of_le_of_lt (Nat.zero_le _)
      (vector_reachable_bound elem_copy_func initial_cap hcap v hr),
    fun value => by
      have h := vector_reachable_bound elem_copy_func initial_cap hcap v hr
      unfold vector.size at h ⊢
      rw [vector_push_back_data]
      simp only [List.length_append, List.length_singleton]
      omega⟩

/-- An instance of the bound on entry to push_back: the vector left by four rounds of
push_back and erase, whose capacity has shrunk to 1. -/
theorem push_back_in_bounds_witness :
    0 < 16 ∧ vector_reachable id 16 (push_erase_rounds 4 (vector_alloc 16)) ∧
    ((push_erase_rounds 4 (vector_alloc 16)).size <
        (push_erase_rounds 4 (vector_alloc 16)).capacity ∧
      0 < (push_erase_rounds 4 (vector_alloc 16)).capacity ∧
      ∀ value, (vector_push_back id (push_erase_rounds 4 (vector_alloc 16)) value).1.size ≤
        (push_erase_rounds 4 (vector_alloc 16)).capacity) :=
  ⟨by decide, push_erase_rounds_reachable 4 _ vector_reachable.alloc,
    push_back_in_bounds id 16 (by decide) _
      (push_erase_rounds_reachable 4 _ vector_reachable.alloc)⟩

/-! ## The rehash keeps the contents -/

theorem at_congr_of_perm (e : ops K V) (hl : lawful e) (m m1 : hashmap K V) (hw : wf e m)
    (hw1 : wf e m1) (hp : (entries m1).Perm (entries m)) (key : K) :
    hashmap_at e m1 key = hashmap_at e m key := by
  cases h : hashmap_at e m key with
  | none =>
    rw [hashmap_at_none_iff e hl m1 hw1 key]
    intro q hq
    exact (hashmap_at_none_iff e hl m hw key).1 h q (hp.subset hq)
  | some v =>
    obtain ⟨q, hq, hqk, hqv⟩ := (hashmap_at_some_iff e hl m hw key v).1 h
    exact (hashmap_at_some_iff e hl m1 hw1 key v).2 ⟨q, hp.symm.subset hq, hqk, hqv⟩

theorem insert_pair_wf (e : ops K V) (hl : lawful e) (m : hashmap K V) (hw : wf e m)
    (p : pair K V) : wf e (hashmap_insert_pair e m p).1 := by
  cases h : hashmap_at e m p.key with
  | none => exact (insert_pair_absent e hl m hw p h).2.2.2.2
  | some v => rw [insert_pair_found e m p v h]; exact hw

theorem erase_pair_wf (e : ops K V) (hl : lawful e) (m : hashmap K V) (hw : wf e m)
    (key : K) : wf e (hashmap_erase_pair e m key).1 := by
  cases h : hashmap_pair_at e m key with
  | none => rw [erase_pair_absent e m key ((hashmap_at_none e m key).2 h)]; exact hw
  | some r =>
    obtain ⟨p, hash, idx⟩ := r
    exact (erase_pair_found e hl m hw key p hash idx h).2.2.2.2

theorem resize_call_wf (e : ops K V) (hl : lawful e) (t : hashmap K V) (mode : Nat)
    (hc : resize_call e t mode) : wf e t := by
  cases hc with
  | insert m p hr _ => exact insert_pair_wf e hl m (reachable_wf e hl m hr) p
  | erase m key hr _ => exact erase_pair_wf e hl m (reachable_wf e hl m hr) key

theorem rehash_restore (e : ops K V) (hl : lawful e) (t : hashmap K V) (hw : wf e t)
    (f : Nat × Nat) (n : Nat) (hn : 1 ≤ n)
    (hc : max (f.1 * t.capacity / f.2) MIN_CAPACITY = 2 ^ n) :
    hashmap_restore_elements e (init_hashmap e (hashmap_rehash e t f).capacity)
      (hashmap_backup_elements e t).data = (hashmap_rehash e t f, 1) := by
  have hcap := (rehash_ok e hl t hw f n hn hc).1
  have hfresh : ∀ p ∈ entries t, ∀ q ∈ entries (init_hashmap e (2 ^ n)),
      e.key_cmp q.key p.key = false := by
    intro p _ q hq
    rw [entries_init_hashmap] at hq
    cases hq
  obtain ⟨g1, _⟩ :=
    restore_ok e hl (entries t) (init_hashmap e (2 ^ n)) (wf_init_hashmap e n hn) hw.uniq hfresh
  have hdef : hashmap_rehash e t f =
      (hashmap_restore_elements e (init_hashmap e (2 ^ n)) (entries t)).1 := by
    unfold hashmap_rehash
    simp only
    have hfb : (hashmap_free_buckets t).capacity = t.capacity := rfl
    rw [hfb, hc, backup_data]
  rw [hcap, backup_data, hdef]
  exact Prod.ext rfl g1

/-- C17 (the rehash keeps the contents): with a key equality that is an equivalence and a hash
function that gives equal keys the same hash, every call of `hashmap_resize` made by
`hashmap_insert` or `hashmap_erase` on a reachable table returns 1, keeps the size and keeps
the result of `hashmap_at` for every key; when it changes the capacity, the new table is the
one obtained by inserting the backed-up pairs into fresh buckets of the new capacity, and
`hashmap_restore_elements` returns 1 there: no reinsertion meets a duplicate. -/
theorem rehash_preserves_contents (e : ops K V) (hl : lawful e) (t : hashmap K V) (mode : Nat)
    (hc : resize_call e t mode) :
    (hashmap_resize e t mode).2 = 1 ∧
    (hashmap_resize e t mode).1.size = t.size ∧
    (∀ key, hashmap_at e (hashmap_resize e t mode).1 key = hashmap_at e t key) ∧
    (hashmap_backup_elements e t).data = entries t ∧
    ((hashmap_resize e t mode).1.capacity ≠ t.capacity →
      hashmap_restore_elements e (init_hashmap e (hashmap_resize e t mode).1.capacity)
        (hashmap_backup_elements e t).data = ((hashmap_resize e t mode).1, 1)) := by
  have hw := resize_call_wf e hl t mode hc
  obtain ⟨g1, g2, g3, g4⟩ := resize_ok e hl t hw mode
  refine ⟨g1, g2, fun key => at_congr_of_perm e hl t _ hw g4 g3 key, backup_data e t, ?_⟩
  obtain ⟨n, hn, hcap⟩ := hw.pow
  unfold hashmap_resize
  split
  · intro h; exact absurd rfl h
  · split
    · intro _
      have hg := grow_capacity n
      rw [← hcap] at hg
      exact rehash_restore e hl t hw _ (n + 1) (by omega) hg
    · split
      · intro _
        have hs := shrink_capacity n hn
        rw [← hcap] at hs
        exact rehash_restore e hl t hw _ (max (n - 1) 1) (by omega) hs
      · intro h; exact absurd rfl h

theorem twelve_table_facts :
    reachable int_ops twelve_table ∧ wf int_ops twelve_table ∧
    twelve_table.size = 12 ∧ twelve_table.capacity = 16 ∧
    (entries twelve_table).Perm (thirteen_pairs.take 12) := by
  have hd : distinct int_ops (thirteen_pairs.take 12) := by unfold distinct; decide
  obtain ⟨_, _, g3, g4, g5⟩ := insert_all_ok int_ops int_ops_lawful (thirteen_pairs.take 12)
    (hashmap_alloc int_ops) (wf_alloc int_ops) hd (fresh_alloc int_ops _)
  have hc := insert_all_capacity int_ops int_ops_lawful (thirteen_pairs.take 12)
    (hashmap_alloc int_ops) (wf_alloc int_ops) hd (fresh_alloc int_ops _)
  have hs0 : (hashmap_alloc int_ops).size = 0 := rfl
  have hentries : entries (hashmap_alloc int_ops) = [] := entries_init_hashmap int_ops _
  refine ⟨reachable_insert_all int_ops _ reachable.alloc _, g5, ?_, ?_, ?_⟩
  · unfold twelve_table
    rw [g3, hs0]
    decide
  · unfold twelve_table
    rw [hc]
    decide
  · unfold twelve_table
    rw [hentries, List.append_nil] at g4
    exact g4

theorem thirteen_unresized_facts :
    (hashmap_insert_pair int_ops twelve_table ⟨12, 120⟩).2 = 1 ∧
    wf int_ops thirteen_unresized ∧
    thirteen_unresized.size = 13 ∧ thirteen_unresized.capacity = 16 ∧
    (entries thirteen_unresized).Perm thirteen_pairs ∧
    (hashmap_resize int_ops thirteen_unresized INSERT_ELEMENT).1.capacity = 32 := by
  obtain ⟨_, hw, hs, hc, hp⟩ := twelve_table_facts
  have hnone : hashmap_at int_ops twelve_table (⟨12, 120⟩ : pair Int Int).key = none := by
    rw [hashmap_at_none_iff int_ops int_ops_lawful _ hw]
    have hall : ∀ q ∈ thirteen_pairs.take 12,
        int_ops.key_cmp q.key (⟨12, 120⟩ : pair Int Int).key = false := by decide
    intro q hq
    exact hall q (hp.subset hq)
  obtain ⟨h1, h2, h3, h4, h5⟩ :=
    insert_pair_absent int_ops int_ops_lawful twelve_table hw ⟨12, 120⟩ hnone
  have hs13 : thirteen_unresized.size = 13 := by
    unfold thirteen_unresized
    rw [h3, hs]
  have hc16 : thirteen_unresized.capacity = 16 := by
    unfold thirteen_unresized
    rw [h2, hc]
  refine ⟨h1, h5, hs13, hc16, ?_, ?_⟩
  · unfold thirteen_unresized
    refine h4.trans ((hp.cons _).trans ?_)
    have : thirteen_pairs = thirteen_pairs.take 12 ++ [⟨12, 120⟩] := by decide
    rw [this]
    simpa using (List.perm_append_singleton (⟨12, 120⟩ : pair Int Int)
      (thirteen_pairs.take 12)).symm
  · have hw13 : wf int_ops thirteen_unresized := h5
    rw [resize_insert_capacity int_ops int_ops_lawful thirteen_unresized hw13, hs13, hc16]
    decide

/-- An instance of the rehash: the thirteenth insert into a fresh table calls `hashmap_resize`
on a table of 13 pairs at capacity 16; the thirteen pairs are backed up and reinserted into 32
fresh buckets, and every one of the thirteen keys is still found with its value. -/
theorem rehash_preserves_contents_witness :
    lawful int_ops ∧
    resize_call int_ops thirteen_unresized INSERT_ELEMENT ∧
    thirteen_unresized.size = 13 ∧
    thirteen_unresized.capacity = 16 ∧
    (hashmap_backup_elements int_ops thirteen_unresized).data.length = 13 ∧
    (hashmap_resize int_ops thirteen_unresized INSERT_ELEMENT).1.capacity = 32 ∧
    (hashmap_resize int_ops thirteen_unresized INSERT_ELEMENT).2 = 1 ∧
    (hashmap_resize int_ops thirteen_unresized INSERT_ELEMENT).1.size = 13 ∧
    (∀ key, hashmap_at int_ops
        (hashmap_resize int_ops thirteen_unresized INSERT_ELEMENT).1 key =
      hashmap_at int_ops thirteen_unresized key) ∧
    (∀ p ∈ thirteen_pairs, hashmap_at int_ops
        (hashmap_resize int_ops thirteen_unresized INSERT_ELEMENT).1 p.key = some p.value) ∧
    hashmap_restore_elements int_ops
        (init_hashmap int_ops
          (hashmap_resize int_ops thirteen_unresized INSERT_ELEMENT).1.capacity)
        (hashmap_backup_elements int_ops thirteen_unresized).data =
      ((hashmap_resize int_ops thirteen_unresized INSERT_ELEMENT).1, 1) := by
  obtain ⟨hr, _⟩ := twelve_table_facts
  obtain ⟨h1, hw, hs, hc, hp, hc32⟩ := thirteen_unresized_facts
  have hcall : resize_call int_ops thirteen_unresized INSERT_ELEMENT :=
    resize_call.insert twelve_table ⟨12, 120⟩ hr h1
  obtain ⟨g1, g2, g3, g4, g5⟩ :=
    rehash_preserves_contents int_ops int_ops_lawful thirteen_unresized INSERT_ELEMENT hcall
  refine ⟨int_ops_lawful, hcall, hs, hc, ?_, hc32, g1, by rw [g2, hs], g3, ?_, ?_⟩
  · rw [g4, hp.length_eq]
    decide
  · intro p hp13
    rw [g3 p.key]
    exact at_of_mem int_ops int_ops_lawful _ hw p (hp.symm.subset hp13)
  · apply g5
    rw [hc32, hc]
    decide

/-! ## The placement of the pairs -/

theorem placed_of_all_empty (e : ops K V) (m : hashmap K V)
    (h : ∀ b ∈ m.buckets, b.data = []) : placed e m := by
  intro i b hb p hp
  rw [h b (List.mem_iff_getElem?.2 ⟨i, hb⟩)] at hp
  cases hp

theorem insert_pair_placed (e : ops K V) (m : hashmap K V) (p : pair K V) (h : placed e m) :
    placed e (hashmap_insert_pair e m p).1 := by
  have hcap := (insert_pair_shape e m p).1
  cases hat : hashmap_at e m p.key with
  | some v => rw [insert_pair_found e m p v hat]; exact h
  | none =>
    intro i b1 hb1 q hq
    rw [hash_func_congr e m _ hcap]
    cases hb : m.buckets[hashmap_hash_func e m p.key]? with
    | none =>
      have heq : (hashmap_insert_pair e m p).1.buckets = m.buckets := by
        unfold hashmap_insert_pair
        rw [hat]
        simp only [hb]
        rfl
      rw [heq] at hb1
      exact h i b1 hb1 q hq
    | some b =>
      rw [insert_pair_eq e m p b hat hb] at hb1
      simp only at hb1
      rw [List.getElem?_set] at hb1
      by_cases hi : hashmap_hash_func e m p.key = i
      · rw [if_pos hi] at hb1
        split at hb1
        · cases hb1
          rw [vector_push_back_data, pair_copy_eq, List.mem_append] at hq
          rcases hq with hq | hq
          · exact h i b (hi ▸ hb) q hq
          · simp only [List.mem_singleton] at hq
            rw [hq]; exact hi
        · cases hb1
      · rw [if_neg hi] at hb1
        exact h i b1 hb1 q hq

theorem restore_placed (e : ops K V) :
    ∀ (l : List (pair K V)) (m : hashmap K V), placed e m →
      placed e (hashmap_restore_elements e m l).1
  | [], _, h => h
  | p :: ps, m, h => by
    have h1 := insert_pair_placed e m p h
    simp only [hashmap_restore_elements]
    split
    · exact h1
    · exact restore_placed e ps _ h1

theorem rehash_placed (e : ops K V) (m : hashmap K V) (f : Nat × Nat) :
    placed e (hashmap_rehash e m f) := by
  unfold hashmap_rehash
  simp only
  exact restore_placed e _ _ (placed_of_all_empty e _ (init_hashmap_empty e _).1)

theorem resize_placed (e : ops K V) (m : hashmap K V) (mode : Nat) (h : placed e m) :
    placed e (hashmap_resize e m mode).1 := by
  unfold hashmap_resize
  split
  · exact h
  · split
    · exact rehash_placed e m _
    · split
      · exact rehash_placed e m _
      · exact h

theorem insert_placed (e : ops K V) (m : hashmap K V) (p : pair K V) (h : placed e m) :
    placed e (hashmap_insert e m p).1 := by
  have h1 := insert_pair_placed e m p h
  unfold hashmap_insert
  simp only
  split
  · exact h1
  · split <;> exact resize_placed e _ _ h1

theorem erase_pair_placed (e : ops K V) (m : hashmap K V) (key : K) (h : placed e m) :
    placed e (hashmap_erase_pair e m key).1 := by
  have hcap := (erase_pair_shape e m key).1
  cases hp : hashmap_pair_at e m key with
  | none => rw [erase_pair_absent e m key ((hashmap_at_none e m key).2 hp)]; exact h
  | some r =>
    obtain ⟨p, hash, idx⟩ := r
    obtain ⟨_, b, hb, hi, _⟩ := hashmap_pair_at_some e m key p hash idx hp
    have hbp : b.data.Perm (p :: (vector_erase b idx).1.data) := by
      rw [vector_erase_data b idx p hi]
      exact swap_erase_perm b.data idx p hi
    intro i b1 hb1 q hq
    rw [hash_func_congr e m _ hcap]
    rw [erase_pair_eq e m key p hash idx b hp hb hi] at hb1
    simp only at hb1
    rw [List.getElem?_set] at hb1
    by_cases hi2 : hash = i
    · rw [if_pos hi2] at hb1
      split at hb1
      · cases hb1
        exact h i b (hi2 ▸ hb) q (hbp.symm.subset (List.mem_cons_of_mem p hq))
      · cases hb1
    · rw [if_neg hi2] at hb1
      exact h i b1 hb1 q hq

theorem erase_placed (e : ops K V) (m : hashmap K V) (key : K) (h : placed e m) :
    placed e (hashmap_erase e m key).1 := by
  have h1 := erase_pair_placed e m key h
  unfold hashmap_erase
  simp only
  split
  · exact h1
  · split <;> exact resize_placed e _ _ h1

theorem clear_resize_placed (e : ops K V) :
    ∀ (n : Nat) (m : hashmap K V), placed e m → placed e (hashmap_clear_resize e n m)
  | 0, _, h => h
  | n + 1, m, h => clear_resize_placed e n _ (resize_placed e m ERASE_ELEMENT h)

theorem clear_placed (e : ops K V) (m : hashmap K V) : placed e (hashmap_clear e m) := by
  obtain ⟨_, g2, _⟩ := clear_buckets_eq m.buckets m.size 0
  unfold hashmap_clear
  simp only
  exact clear_resize_placed e _ _ (placed_of_all_empty e _ g2)

theorem reachable_placed (e : ops K V) (m : hashmap K V) (hr : reachable e m) : placed e m := by
  induction hr with
  | alloc => exact placed_of_all_empty e _ (init_hashmap_empty e _).1
  | insert m p _ ih => exact insert_placed e m p ih
  | erase m k _ ih => exact erase_placed e m k ih
  | clear m _ _ => exact clear_placed e m

/-- C19 (bucket placement): on every reachable table, every pair stored in bucket `i` satisfies
`hash_func (key) & (capacity - 1) = i`, and the `size` field equals the sum of the sizes of
all buckets. -/
theorem bucket_placement (e : ops K V) (m : hashmap K V) (hr : reachable e m) :
    (∀ (i : Nat) (b : vector (pair K V)), m.buckets[i]? = some b →
      ∀ p ∈ b.data, e.hash_func p.key &&& (m.capacity - 1) = i) ∧
    m.size = (m.buckets.map (fun b => b.size)).sum := by
  refine ⟨reachable_placed e m hr, ?_⟩
  have h := reachable_counted e m hr
  unfold entries at h
  rw [h, List.length_flatMap]
  rfl

/-- An instance of the bucket placement: the table of thirteen integer keys after the erase
of the key 3. -/
theorem bucket_placement_witness :
    reachable int_ops (hashmap_erase int_ops
      (hashmap_insert_all int_ops (hashmap_alloc int_ops) thirteen_pairs).1 3).1 ∧
    ((∀ (i : Nat) (b : vector (pair Int Int)), (hashmap_erase int_ops
        (hashmap_insert_all int_ops (hashmap_alloc int_ops) thirteen_pairs).1 3).1.buckets[i]?
          = some b →
      ∀ p ∈ b.data, int_ops.hash_func p.key &&& ((hashmap_erase int_ops
        (hashmap_insert_all int_ops (hashmap_alloc int_ops) thirteen_pairs).1 3).1.capacity - 1)
          = i) ∧
    (hashmap_erase int_ops
      (hashmap_insert_all int_ops (hashmap_alloc int_ops) thirteen_pairs).1 3).1.size =
      ((hashmap_erase int_ops (hashmap_insert_all int_ops (hashmap_alloc int_ops)
        thirteen_pairs).1 3).1.buckets.map (fun b => b.size)).sum) :=
  ⟨reachable.erase _ _ (reachable_insert_all int_ops _ reachable.alloc thirteen_pairs),
    bucket_placement int_ops _
      (reachable.erase _ _ (reachable_insert_all int_ops _ reachable.alloc thirteen_pairs))⟩

/-! ## The upper load bound -/

theorem insert_pair_size_le (e : ops K V) (m : hashmap K V) (p : pair K V) :
    (hashmap_insert_pair e m p).1.size ≤ m.size + 1 := by
  unfold hashmap_insert_pair
  split
  · exact Nat.le_succ _
  · exact Nat.le_refl _

theorem restore_size_le (e : ops K V) :
    ∀ (l : List (pair K V)) (m : hashmap K V),
      (hashmap_restore_elements e m l).1.size ≤ m.size + l.length
  | [], _ => Nat.le_refl _
  | p :: ps, m => by
    have h1 := insert_pair_size_le e m p
    simp only [hashmap_restore_elements, List.length_cons]
    split
    · show (hashmap_insert_pair e m p).1.size ≤ m.size + (ps.length + 1)
      omega
    · have h2 := restore_size_le e ps (hashmap_insert_pair e m p).1
      omega

theorem rehash_size_le (e : ops K V) (m : hashmap K V) (f : Nat × Nat) :
    (hashmap_rehash e m f).size ≤ (entries m).length := by
  unfold hashmap_rehash
  simp only
  have h := restore_size_le e (hashmap_backup_elements e m).data
    (init_hashmap e (max (f.1 * (hashmap_free_buckets m).capacity / f.2) MIN_CAPACITY))
  rw [backup_data] at h ⊢
  simpa [init_hashmap] using h

theorem resize_size_le (e : ops K V) (m : hashmap K V) (mode : Nat)
    (hs : m.size = (entries m).length) : (hashmap_resize e m mode).1.size ≤ m.size := by
  unfold hashmap_resize
  split
  · exact Nat.le_refl _
  · split
    · rw [hs]; exact rehash_size_le e m _
    · split
      · rw [hs]; exact rehash_size_le e m _
      · exact Nat.le_refl _

theorem resize_insert_capacity_of_shape (e : ops K V) (m : hashmap K V) (h : 2 ≤ m.capacity) :
    (hashmap_resize e m INSERT_ELEMENT).1.capacity =
      if 3 * m.capacity < 4 * m.size then 2 * m.capacity else m.capacity := by
  unfold hashmap_resize
  rw [if_neg (by omega)]
  by_cases h1 : 3 * m.capacity < 4 * m.size
  · rw [if_pos ⟨rfl, h1⟩, if_pos h1]
    simp only
    rw [(rehash_shape e m _).1]
    simp only [HASH_MAP_GROWTH_FACTOR, MIN_CAPACITY, Nat.div_one]
    omega
  · rw [if_neg (fun hh => h1 hh.2), if_neg h1, if_neg (fun hh => absurd hh.1 (by decide))]

theorem resize_erase_capacity_of_shape (e : ops K V) (m : hashmap K V) (h : 2 ≤ m.capacity) :
    (hashmap_resize e m ERASE_ELEMENT).1.capacity =
      if 4 * m.size < m.capacity then max (m.capacity / 2) 2 else m.capacity := by
  unfold hashmap_resize
  rw [if_neg (by omega), if_neg (fun hh => absurd hh.1 (by decide))]
  by_cases h1 : 4 * m.size < m.capacity
  · rw [if_pos ⟨rfl, h1⟩, if_pos h1]
    simp only
    rw [(rehash_shape e m _).1]
    simp [HASH_MAP_REDUCTION_FACTOR, MIN_CAPACITY]
  · rw [if_neg (fun hh => h1 hh.2), if_neg h1]

theorem two_le_of_shape (m : hashmap K V) (h : shape m) : 2 ≤ m.capacity := by
  obtain ⟨_, n, hn, hc⟩ := h
  rw [hc]
  calc 2 = 2 ^ 1 := rfl
    _ ≤ 2 ^ n := Nat.pow_le_pow_right (by decide) hn

theorem insert_eq_of_absent (e : ops K V) (m : hashmap K V) (p : pair K V) (h : shape m)
    (hat : hashmap_at e m p.key = none) :
    (hashmap_insert e m p).1 = (hashmap_resize e (hashmap_insert_pair e m p).1 INSERT_ELEMENT).1 ∧
    (hashmap_insert_pair e m p).1.size = m.size + 1 ∧
    (hashmap_insert_pair e m p).1.capacity = m.capacity := by
  obtain ⟨b, hb⟩ := bucket_exists_of_shape e m h p.key
  have heq := insert_pair_eq e m p b hat hb
  refine ⟨?_, by rw [heq], by rw [heq]⟩
  unfold hashmap_insert
  simp only
  have hret : ¬ (hashmap_insert_pair e m p).2 = 0 := by rw [heq]; exact Nat.one_ne_zero
  rw [if_neg hret]
  split <;> rfl

theorem erase_eq_of_found (e : ops K V) (m : hashmap K V) (key : K) (p : pair K V)
    (hash idx : Nat) (hp : hashmap_pair_at e m key = some (p, hash, idx)) :
    (hashmap_erase e m key).1 = (hashmap_resize e (hashmap_erase_pair e m key).1 ERASE_ELEMENT).1 ∧
    (hashmap_erase_pair e m key).1.size = m.size - 1 ∧
    (hashmap_erase_pair e m key).1.capacity = m.capacity := by
  obtain ⟨_, b, hb, hi, _⟩ := hashmap_pair_at_some e m key p hash idx hp
  have heq := erase_pair_eq e m key p hash idx b hp hb hi
  refine ⟨?_, by rw [heq], by rw [heq]⟩
  unfold hashmap_erase
  simp only
  have hret : ¬ (hashmap_erase_pair e m key).2 = 0 := by rw [heq]; exact Nat.one_ne_zero
  rw [if_neg hret]
  split <;> rfl

theorem insert_load (e : ops K V) (m : hashmap K V) (p : pair K V) (h : shape m)
    (hs : m.size = (entries m).length) (hload : 4 * m.size ≤ 3 * m.capacity) :
    4 * (hashmap_insert e m p).1.size ≤ 3 * (hashmap_insert e m p).1.capacity ∧
    ((hashmap_insert e m p).1.capacity = m.capacity ∨
      (hashmap_insert e m p).1.capacity = 2 * m.capacity) := by
  cases hat : hashmap_at e m p.key with
  | some v => rw [insert_found e m p v hat]; exact ⟨hload, Or.inl rfl⟩
  | none =>
    obtain ⟨h1, h2, h3⟩ := insert_eq_of_absent e m p h hat
    have hsh := insert_pair_keeps_shape e m p h
    have hcnt := insert_pair_counted e m p h hs
    have hle := resize_size_le e _ INSERT_ELEMENT hcnt
    have hc2 := two_le_of_shape _ hsh
    have hcap := resize_insert_capacity_of_shape e _ hc2
    rw [h1, hcap, h3, h2]
    rw [h2] at hle
    rw [h3] at hc2
    split <;> constructor <;> omega

theorem erase_load (e : ops K V) (m : hashmap K V) (key : K) (h : shape m)
    (hs : m.size = (entries m).length) (hload : 4 * m.size ≤ 3 * m.capacity) :
    4 * (hashmap_erase e m key).1.size ≤ 3 * (hashmap_erase e m key).1.capacity := by
  cases hp : hashmap_pair_at e m key with
  | none => rw [erase_absent e m key ((hashmap_at_none e m key).2 hp)]; exact hload
  | some r =>
    obtain ⟨p, hash, idx⟩ := r
    obtain ⟨h1, h2, h3⟩ := erase_eq_of_found e m key p hash idx hp
    have hsh := erase_pair_keeps_shape e m key h
    have hcnt := erase_pair_counted e m key hs
    have hle := resize_size_le e _ ERASE_ELEMENT hcnt
    have hc2 := two_le_of_shape _ hsh
    have hcap := resize_erase_capacity_of_shape e _ hc2
    rw [h1, hcap, h3, h2]
    rw [h2] at hle
    rw [h3] at hc2
    split <;> omega

theorem reachable_load_upper (e : ops K V) (m : hashmap K V) (hr : reachable e m) :
    4 * m.size ≤ 3 * m.capacity := by
  induction hr with
  | alloc =>
    have h1 : (hashmap_alloc e).size = 0 := rfl
    have h2 : (hashmap_alloc e).capacity = 16 := rfl
    rw [h1, h2]
    decide
  | insert m p hr ih =>
    exact (insert_load e m p (reachable_shape e m hr) (reachable_counted e m hr) ih).1
  | erase m k hr ih =>
    exact erase_load e m k (reachable_shape e m hr) (reachable_counted e m hr) ih
  | clear m hr _ =>
    rw [(clear_empty e m (reachable_counted e m hr)).2]
    omega

/-- C18 (upper load bound): on every reachable table `4 * size <= 3 * capacity`, that is the
load factor is at most 0.75; a `hashmap_insert` leaves the capacity as it was or doubles it
once, and its result meets the bound again. -/
theorem upper_load_bound (e : ops K V) (m : hashmap K V) (hr : reachable e m) :
    4 * m.size ≤ 3 * m.capacity ∧
    hashmap_get_load_factor m ≤ 3 / 4 ∧
    ∀ in_pair,
      ((hashmap_insert e m in_pair).1.capacity = m.capacity ∨
        (hashmap_insert e m in_pair).1.capacity = HASH_MAP_GROWTH_FACTOR.1 * m.capacity) ∧
      4 * (hashmap_insert e m in_pair).1.size ≤ 3 * (hashmap_insert e m in_pair).1.capacity := by
  have h := reachable_load_upper e m hr
  have hsh := reachable_shape e m hr
  have hc : m.capacity ≠ 0 := by
    have := two_le_of_shape m hsh
    omega
  refine ⟨h, (load_factor_le_max m hc).2 h, ?_⟩
  intro p
  obtain ⟨h1, h2⟩ := insert_load e m p hsh (reachable_counted e m hr) h
  exact ⟨h2, h1⟩

/-- An instance of the upper load bound: the table of twelve integer keys at capacity 16,
which the thirteenth insert doubles. -/
theorem upper_load_bound_witness :
    reachable int_ops
      (hashmap_insert_all int_ops (hashmap_alloc int_ops) (thirteen_pairs.take 12)).1 ∧
    (4 * (hashmap_insert_all int_ops (hashmap_alloc int_ops) (thirteen_pairs.take 12)).1.size ≤
      3 * (hashmap_insert_all int_ops (hashmap_alloc int_ops)
        (thirteen_pairs.take 12)).1.capacity ∧
    hashmap_get_load_factor
      (hashmap_insert_all int_ops (hashmap_alloc int_ops) (thirteen_pairs.take 12)).1 ≤ 3 / 4 ∧
    ∀ in_pair,
      ((hashmap_insert int_ops (hashmap_insert_all int_ops (hashmap_alloc int_ops)
          (thirteen_pairs.take 12)).1 in_pair).1.capacity =
          (hashmap_insert_all int_ops (hashmap_alloc int_ops)
            (thirteen_pairs.take 12)).1.capacity ∨
        (hashmap_insert int_ops (hashmap_insert_all int_ops (hashmap_alloc int_ops)
          (thirteen_pairs.take 12)).1 in_pair).1.capacity =
          HASH_MAP_GROWTH_FACTOR.1 * (hashmap_insert_all int_ops (hashmap_alloc int_ops)
            (thirteen_pairs.take 12)).1.capacity) ∧
      4 * (hashmap_insert int_ops (hashmap_insert_all int_ops (hashmap_alloc int_ops)
          (thirteen_pairs.take 12)).1 in_pair).1.size ≤
        3 * (hashmap_insert int_ops (hashmap_insert_all int_ops (hashmap_alloc int_ops)
          (thirteen_pairs.take 12)).1 in_pair).1.capacity) :=
  ⟨reachable_insert_all int_ops _ reachable.alloc _,
    upper_load_bound int_ops _ (reachable_insert_all int_ops _ reachable.alloc _)⟩

end CHashMap
